import Mathlib

set_option linter.unusedVariables false

namespace Lox

/-- Source location: zero-based row and column, from `src/lexer/cursor.rs` (`Loc`). -/
structure Loc where
  row : Nat
  col : Nat
deriving DecidableEq, Repr

/-- Variable reference in the AST: a name together with the lexical depth the
resolver fills in.  The struct itself is absent from the sources (the checked-in
`expr.rs` is a stale snapshot), but its two fields are fixed by the spec's data
model (`{name: string, depth: signed integer}`) and by every use in
`resolver.rs` (`var.name`, `var.depth : isize`) and `prog.rs`. -/
structure Variable where
  name : String
  depth : Int
deriving DecidableEq, Repr

/-- Heap address of a scope.  `Rc<Scope>` handles are modelled as indices into an
explicit store, so that the aliasing of `outer`/`global` handles is preserved. -/
abbrev Addr := Nat

mutual

/-- Runtime values, from `src/val.rs` (`enum Val`).  Rust's `f64` numbers are
modelled as exact rationals: no claim depends on IEEE-754 rounding, division by
zero or NaN. -/
inductive Val where
  | NoVal : Val
  | Number : ℚ → Val
  | Boolean : Bool → Val
  | String : String → Val
  | Nil : Val
  | Func : Function → Val

/-- Function values, from `src/val.rs` (`enum Function`).  A native function's
code pointer is opaque; only its identity (`fid`) and arity are observable, per
the derived `PartialEq`.  `UserDef` holds the declaration statement and the
address of the captured closure scope. -/
inductive Function where
  | Native : Nat → Nat → Function
  | UserDef : Stmt → Addr → Function

/-- Expressions, from `src/expr.rs` (`enum Expr`) plus the `Call` and
`Variable`-carrying variants required by `parser/rec_desc.rs` and
`resolver.rs` (the checked-in `expr.rs` predates them). -/
inductive Expr where
  | Asgn : Variable → Expr → Expr
  | Call : Expr → List Expr → Expr
  | And : Expr → Expr → Expr
  | Or : Expr → Expr → Expr
  | Eq : Expr → Expr → Expr
  | Ne : Expr → Expr → Expr
  | Gt : Expr → Expr → Expr
  | Ge : Expr → Expr → Expr
  | Lt : Expr → Expr → Expr
  | Le : Expr → Expr → Expr
  | Add : Expr → Expr → Expr
  | Sub : Expr → Expr → Expr
  | Mul : Expr → Expr → Expr
  | Div : Expr → Expr → Expr
  | Not : Expr → Expr
  | Opp : Expr → Expr
  | Lit : Val → Expr
  | Var : Variable → Expr

/-- Statements, from `src/stmt.rs` (`enum Stmt`). -/
inductive Stmt where
  | Block : List Stmt → Stmt
  | Expr : Expr → Stmt
  | Print : Expr → Stmt
  | Decl : String → Option Expr → Stmt
  | If : Expr → Stmt → Option Stmt → Stmt
  | While : Expr → Stmt → Stmt
  | Func : String → List String → Stmt → Stmt
  | Return : Option Expr → Stmt

end

mutual

/-- Equality of values, from `src/val.rs`: `Val` derives `PartialEq`
structurally, and the manual `impl PartialEq for Function` compares natives by
arity and code-pointer identity (our `fid`) and user functions by equality of
the declaration (`Rc<Stmt>: PartialEq` is structural) together with pointer
identity of the closure (`Rc::ptr_eq`, address equality in our store model).
The one deviation is `f64`: our numbers are exact rationals, so there is no
`NaN != NaN` case. -/
def Val.beq : Val → Val → Bool
  | .NoVal, .NoVal => true
  | .Number a, .Number b => decide (a = b)
  | .Boolean a, .Boolean b => decide (a = b)
  | .String a, .String b => decide (a = b)
  | .Nil, .Nil => true
  | .Func f, .Func g => Function.beq f g
  | _, _ => false

/-- `impl PartialEq for Function` (`src/val.rs`). -/
def Function.beq : Function → Function → Bool
  | .Native a f, .Native b g => decide (a = b) && decide (f = g)
  | .UserDef d1 c1, .UserDef d2 c2 => Stmt.beq d1 d2 && decide (c1 = c2)
  | _, _ => false

/-- `Expr: PartialEq` (derived): structural equality. -/
def Expr.beq : Expr → Expr → Bool
  | .Asgn v1 e1, .Asgn v2 e2 => decide (v1 = v2) && Expr.beq e1 e2
  | .Call f1 a1, .Call f2 a2 => Expr.beq f1 f2 && exprListBeq a1 a2
  | .And a1 b1, .And a2 b2 => Expr.beq a1 a2 && Expr.beq b1 b2
  | .Or a1 b1, .Or a2 b2 => Expr.beq a1 a2 && Expr.beq b1 b2
  | .Eq a1 b1, .Eq a2 b2 => Expr.beq a1 a2 && Expr.beq b1 b2
  | .Ne a1 b1, .Ne a2 b2 => Expr.beq a1 a2 && Expr.beq b1 b2
  | .Gt a1 b1, .Gt a2 b2 => Expr.beq a1 a2 && Expr.beq b1 b2
  | .Ge a1 b1, .Ge a2 b2 => Expr.beq a1 a2 && Expr.beq b1 b2
  | .Lt a1 b1, .Lt a2 b2 => Expr.beq a1 a2 && Expr.beq b1 b2
  | .Le a1 b1, .Le a2 b2 => Expr.beq a1 a2 && Expr.beq b1 b2
  | .Add a1 b1, .Add a2 b2 => Expr.beq a1 a2 && Expr.beq b1 b2
  | .Sub a1 b1, .Sub a2 b2 => Expr.beq a1 a2 && Expr.beq b1 b2
  | .Mul a1 b1, .Mul a2 b2 => Expr.beq a1 a2 && Expr.beq b1 b2
  | .Div a1 b1, .Div a2 b2 => Expr.beq a1 a2 && Expr.beq b1 b2
  | .Not a1, .Not a2 => Expr.beq a1 a2
  | .Opp a1, .Opp a2 => Expr.beq a1 a2
  | .Lit v1, .Lit v2 => Val.beq v1 v2
  | .Var v1, .Var v2 => decide (v1 = v2)
  | _, _ => false

/-- `Stmt: PartialEq` (derived): structural equality. -/
def Stmt.beq : Stmt → Stmt → Bool
  | .Block a, .Block b => stmtListBeq a b
  | .Expr a, .Expr b => Expr.beq a b
  | .Print a, .Print b => Expr.beq a b
  | .Decl n1 i1, .Decl n2 i2 => decide (n1 = n2) && optExprBeq i1 i2
  | .If c1 t1 e1, .If c2 t2 e2 => Expr.beq c1 c2 && Stmt.beq t1 t2 && optStmtBeq e1 e2
  | .While c1 b1, .While c2 b2 => Expr.beq c1 c2 && Stmt.beq b1 b2
  | .Func n1 p1 b1, .Func n2 p2 b2 => decide (n1 = n2) && decide (p1 = p2) && Stmt.beq b1 b2
  | .Return a, .Return b => optExprBeq a b
  | _, _ => false

def exprListBeq : List Expr → List Expr → Bool
  | [], [] => true
  | x :: xs, y :: ys => Expr.beq x y && exprListBeq xs ys
  | _, _ => false

def stmtListBeq : List Stmt → List Stmt → Bool
  | [], [] => true
  | x :: xs, y :: ys => Stmt.beq x y && stmtListBeq xs ys
  | _, _ => false

def optExprBeq : Option Expr → Option Expr → Bool
  | none, none => true
  | some x, some y => Expr.beq x y
  | _, _ => false

def optStmtBeq : Option Stmt → Option Stmt → Bool
  | none, none => true
  | some x, some y => Stmt.beq x y
  | _, _ => false

end


/-! ## Lexer (`src/lexer/cursor.rs`, `src/lexer/mod.rs`) -/

/-- Token kinds, from `src/lexer/mod.rs` (`enum TokKind`).  The string-literal
variant is called `String` in `lexer/mod.rs` and matched as `Str` in
`parser/rec_desc.rs`; we use `Str`.  Numbers carry exact rationals (see `Val`).
`lexPanic` is not a Rust variant: it marks the panic of `buf.parse().unwrap()`
in the digit arm of `Lexer::next_raw`, and is proved unreachable. -/
inductive TokKind where
  | And | Class | Else | False | Fn | For | If | Let | Nil | Or
  | Print | Return | This | True | While
  | LParen | RParen | LBrace | RBrace | Comma | Dot | Minus | Plus
  | Semicolon | Star
  | Bang | Equal | Less | Greater | Slash
  | BangEqual | EqualEqual | LessEqual | GreaterEqual
  | Str : String → TokKind
  | Number : ℚ → TokKind
  | Ident : String → TokKind
  | Comment | Unexpected | Unterminated
  | lexPanic
deriving DecidableEq, Repr

/-- A located token, from `src/lexer/mod.rs` (`struct Token`). -/
structure Token where
  kind : TokKind
  loc : Loc
deriving DecidableEq, Repr

/-- The keyword table of `src/lexer/mod.rs` (`KEYWORDS`). -/
def keywordTable : List (String × TokKind) :=
  [("and", .And), ("class", .Class), ("else", .Else), ("false", .False),
   ("fn", .Fn), ("for", .For), ("if", .If), ("let", .Let), ("nil", .Nil),
   ("or", .Or), ("print", .Print), ("return", .Return), ("this", .This),
   ("true", .True), ("while", .While)]

def keywordLookup (s : String) : Option TokKind := keywordTable.lookup s

/-- Numeric value of a digit list, most significant first. -/
def natOfDigits (l : List Char) : Nat := l.foldl (fun a c => 10 * a + (c.toNat - 48)) 0

/-- Model of Rust `str::parse::<f64>` on the strings the lexer can build:
`some` exactly on `[0-9]+(\.[0-9]+)?`, with the exact rational value
(IEEE-754 rounding is not modelled; no claim depends on it). -/
def parseNumList (l : List Char) : Option ℚ :=
  let ip := l.takeWhile Char.isDigit
  match l.dropWhile Char.isDigit with
  | [] => if ip.isEmpty then none else some (natOfDigits ip)
  | '.' :: fp =>
    if ip.isEmpty then none
    else if !fp.isEmpty && fp.all Char.isDigit then
      some ((natOfDigits ip : ℚ) + (natOfDigits fp : ℚ) / (10 : ℚ) ^ fp.length)
    else none
  | _ => none

/-- Character cursor with location tracking, from `src/lexer/cursor.rs`
(`struct Cursor`).  The remaining character stream is `src`. -/
structure Cursor where
  src : List Char
  col : Nat
  row : Nat
  bol : Nat
deriving DecidableEq, Repr

namespace Cursor

def new (src : List Char) : Cursor := ⟨src, 0, 0, 0⟩

/-- `Iterator::next` for `Cursor`: consume one character, updating `row`,
`col` and `bol` as in the Rust implementation. -/
def next (c : Cursor) : Option (Char × Cursor) :=
  match c.src with
  | [] => none
  | x :: rest =>
    if x = '\n' then some (x, ⟨rest, c.col + 1, c.row + 1, c.col + 1⟩)
    else some (x, ⟨rest, c.col + 1, c.row, c.bol⟩)

def peek (c : Cursor) : Option Char := c.src.head?

/-- `Cursor::peek_snd`: clone the iterator and look two characters ahead. -/
def peek_snd (c : Cursor) : Option Char := c.src[1]?

/-- The reported location of the next character. -/
def loc (c : Cursor) : Loc := ⟨c.row, c.col - c.bol⟩

/-- `Cursor::next_if`: consume the next character only when it satisfies `f`;
returns the (possibly unchanged) cursor alongside. -/
def next_if (c : Cursor) (f : Char → Bool) : Option Char × Cursor :=
  match c.next with
  | some (x, c') => if f x then (some x, c') else (none, c)
  | none => (none, c)

/-- Loop of `Cursor::eat_while`, with explicit fuel.  Each iteration consumes
one character, so fuel equal to the remaining stream length is always enough
(`eat_while` below supplies it); the fuel is only a termination measure, not
part of the modelled state. -/
def eatGo (f : Char → Bool) : Nat → Cursor → Cursor
  | 0, c => c
  | n + 1, c =>
    match c.next with
    | some (x, c') => if f x then eatGo f n c' else c
    | none => c

/-- `Cursor::eat_while`: skip characters while `f` holds. -/
def eat_while (c : Cursor) (f : Char → Bool) : Cursor := eatGo f c.src.length c

end Cursor

/-- The lexer state, from `src/lexer/mod.rs` (`struct Lexer`): a cursor plus
the scratch buffer used for literals and identifiers. -/
structure Lexer where
  cursor : Cursor
  buf : List Char
deriving DecidableEq, Repr

namespace Lexer

def new (src : List Char) : Lexer := ⟨Cursor.new src, []⟩

/-- Loop of `Lexer::buf_while`, with explicit fuel (see `Cursor.eatGo`). -/
def bufGo (f : Char → Bool) : Nat → Lexer → Lexer
  | 0, l => l
  | n + 1, l =>
    match l.cursor.next with
    | some (x, c') => if f x then bufGo f n ⟨c', l.buf ++ [x]⟩ else l
    | none => l

/-- `Lexer::buf_while`: push characters onto the buffer while `f` holds. -/
def buf_while (l : Lexer) (f : Char → Bool) : Lexer := bufGo f l.cursor.src.length l

/-- The per-character classification of `Lexer::next_raw`, after the first
character `c` has been consumed. -/
def charToken (c : Char) (l : Lexer) : TokKind × Lexer :=
  if c = '(' then (.LParen, l)
  else if c = ')' then (.RParen, l)
  else if c = '{' then (.LBrace, l)
  else if c = '}' then (.RBrace, l)
  else if c = ',' then (.Comma, l)
  else if c = '.' then (.Dot, l)
  else if c = '-' then (.Minus, l)
  else if c = '+' then (.Plus, l)
  else if c = ';' then (.Semicolon, l)
  else if c = '*' then (.Star, l)
  else if c = '!' then
    match l.cursor.next_if (· = '=') with
    | (some _, c') => (.BangEqual, ⟨c', l.buf⟩)
    | (none, c') => (.Bang, ⟨c', l.buf⟩)
  else if c = '=' then
    match l.cursor.next_if (· = '=') with
    | (some _, c') => (.EqualEqual, ⟨c', l.buf⟩)
    | (none, c') => (.Equal, ⟨c', l.buf⟩)
  else if c = '<' then
    match l.cursor.next_if (· = '=') with
    | (some _, c') => (.LessEqual, ⟨c', l.buf⟩)
    | (none, c') => (.Less, ⟨c', l.buf⟩)
  else if c = '>' then
    match l.cursor.next_if (· = '=') with
    | (some _, c') => (.GreaterEqual, ⟨c', l.buf⟩)
    | (none, c') => (.Greater, ⟨c', l.buf⟩)
  else if c = '/' then
    match l.cursor.next_if (· = '/') with
    | (some _, c') => (.Comment, ⟨c'.eat_while (· ≠ '\n'), l.buf⟩)
    | (none, c') => (.Slash, ⟨c', l.buf⟩)
  else if c = '"' then
    let l1 := buf_while ⟨l.cursor, []⟩ (· ≠ '"')
    match l1.cursor.next_if (· = '"') with
    | (some _, c') => (.Str (String.mk l1.buf), ⟨c', l1.buf⟩)
    | (none, c') => (.Unterminated, ⟨c', l1.buf⟩)
  else if c.isAlpha || c = '_' then
    let l1 := buf_while ⟨l.cursor, [c]⟩ (fun ch => ch.isAlphanum || ch = '_')
    ((keywordLookup (String.mk l1.buf)).getD (.Ident (String.mk l1.buf)), l1)
  else if c.isDigit then
    let l1 := buf_while ⟨l.cursor, [c]⟩ Char.isDigit
    let l2 :=
      if (l1.cursor.peek.any (· = '.')) && (l1.cursor.peek_snd.any Char.isDigit) then
        match l1.cursor.next with
        | some (_, c') => buf_while ⟨c', l1.buf ++ ['.']⟩ Char.isDigit
        | none => l1
      else l1
    (match parseNumList l2.buf with
     | some q => .Number q
     | none => .lexPanic, l2)
  else (.Unexpected, l)

/-- `Lexer::next_raw`: skip whitespace, record the next character's location,
consume and classify it. -/
def next_raw (l : Lexer) : Option (Token × Lexer) :=
  let cur := l.cursor.eat_while Char.isWhitespace
  match cur.next with
  | none => none
  | some (c, cur1) =>
    let (kind, l2) := charToken c ⟨cur1, l.buf⟩
    some (⟨kind, cur.loc⟩, l2)

/-- The public token sequence (`impl Iterator for Lexer`), with `Comment`
tokens filtered out, collected into a list.  `fuel` bounds the number of
`next_raw` calls; any fuel beyond the input length yields the full sequence. -/
def tokensF : Nat → Lexer → List Token
  | 0, _ => []
  | fuel + 1, l =>
    match next_raw l with
    | none => []
    | some (t, l') =>
      if t.kind = .Comment then tokensF fuel l' else t :: tokensF fuel l'

end Lexer

/-- All tokens of a source character stream (with ample fuel). -/
def lexAll (src : List Char) : List Token := Lexer.tokensF (src.length + 1) (Lexer.new src)

/-- Spec-side description of the numeral scan: after the leading digit the
lexer takes the maximal digit run, and consumes a following `'.'` (with the
digit run after it) exactly when the character immediately after the `'.'` is
a digit.  First component: characters consumed after the leading digit;
second: the remaining stream. -/
def numeralSplit (rest : List Char) : List Char × List Char :=
  let ip := rest.takeWhile Char.isDigit
  match rest.dropWhile Char.isDigit with
  | y :: d :: t =>
    if y = '.' ∧ d.isDigit = true then
      (ip ++ '.' :: (d :: t).takeWhile Char.isDigit, (d :: t).dropWhile Char.isDigit)
    else (ip, y :: d :: t)
  | r => (ip, r)

/-! ## Parser (`src/parser/mod.rs`, `src/parser/rec_desc.rs`, `src/error.rs`) -/

/-- Parser errors, from `src/error.rs` (`enum ParserError`). -/
inductive ParserError where
  | Expected : TokKind → Option Token → ParserError
  | TooManyParams : Loc → ParserError
  | TooManyArgs : Loc → ParserError
  | InvalidAsgn : Loc → ParserError
  | Unmatched : Token → Option Loc → ParserError
  | Unexpected : Token → ParserError
  | EOF : ParserError

/-- Result of a parser function: a parse together with the remaining token
stream, a structured error, `oom` when the explicit fuel (termination measure
for the unbounded Rust recursion) runs out, or `panicked` for the `expect` /
`unreachable!` panics of the Rust code (proved unreachable where needed). -/
inductive PRes (α : Type) where
  | ok : α → List Token → PRes α
  | err : ParserError → PRes α
  | oom : PRes α
  | panicked : PRes α

/-- `Peekable::next_if` on the token stream: consume the head token when it
satisfies `f`, otherwise leave the stream unchanged. -/
def tnext_if (toks : List Token) (f : Token → Bool) : Option Token × List Token :=
  match toks with
  | t :: rest => if f t then (some t, rest) else (none, toks)
  | [] => (none, toks)

/-- `consume` from `src/parser/mod.rs`: require a token of kind `expected`. -/
def consume (toks : List Token) (expected : TokKind) :
    Except ParserError (Token × List Token) :=
  match toks with
  | t :: rest =>
    if t.kind = expected then .ok (t, rest) else .error (.Expected expected (some t))
  | [] => .error (.Expected expected none)

/-- `consume_ident` from `src/parser/mod.rs`: require an identifier, returning
its name and location. -/
def consume_ident (toks : List Token) :
    Except ParserError ((String × Loc) × List Token) :=
  match toks with
  | ⟨.Ident name, loc⟩ :: rest => .ok ((name, loc), rest)
  | _ => .error (.Expected (.Ident "") toks.head?)

/-- `Variable::new` is absent from the checked-in sources; modelled from the
spec: a fresh reference starts with `depth = -1` ("unresolved; global"). -/
def Variable.new (name : String) : Variable := ⟨name, -1⟩

mutual

/-- `RecursiveDescent::<Expr>::parse` is `parse_asgn`, from
`src/parser/rec_desc.rs`: right-associative assignment whose target must
literally be a `Var`. -/
def parseAsgn : Nat → List Token → PRes Expr
  | 0, _ => .oom
  | fuel + 1, toks =>
    let target_loc := toks.head?.map Token.loc
    match parseLog fuel toks with
    | .ok target rest =>
      match tnext_if rest (fun t => t.kind == .Equal) with
      | (some _, rest1) =>
        match target with
        | .Var v =>
          match parseAsgn fuel rest1 with
          | .ok value rest2 => .ok (.Asgn v value) rest2
          | r => r
        | _ =>
          match target_loc with
          | some l => .err (.InvalidAsgn l)
          | none => .panicked
      | (none, _) => .ok target rest
    | r => r

/-- `parse_log`: left-associative `and` / `or`. -/
def parseLog : Nat → List Token → PRes Expr
  | 0, _ => .oom
  | fuel + 1, toks =>
    match parseCmp fuel toks with
    | .ok lhs rest => parseLogLoop fuel lhs rest
    | r => r

/-- The `while` loop inside `parse_log`. -/
def parseLogLoop : Nat → Expr → List Token → PRes Expr
  | 0, _, _ => .oom
  | fuel + 1, lhs, toks =>
    match tnext_if toks (fun t => t.kind == .And || t.kind == .Or) with
    | (some op, rest) =>
      match parseCmp fuel rest with
      | .ok rhs rest1 =>
        match op.kind with
        | .And => parseLogLoop fuel (.And lhs rhs) rest1
        | .Or => parseLogLoop fuel (.Or lhs rhs) rest1
        | _ => .panicked
      | r => r
    | (none, _) => .ok lhs toks

/-- `parse_cmp`: left-associative comparison operators. -/
def parseCmp : Nat → List Token → PRes Expr
  | 0, _ => .oom
  | fuel + 1, toks =>
    match parseTerm fuel toks with
    | .ok lhs rest => parseCmpLoop fuel lhs rest
    | r => r

/-- The `while` loop inside `parse_cmp`. -/
def parseCmpLoop : Nat → Expr → List Token → PRes Expr
  | 0, _, _ => .oom
  | fuel + 1, lhs, toks =>
    match tnext_if toks (fun t =>
        t.kind == .BangEqual || t.kind == .EqualEqual || t.kind == .Less
          || t.kind == .Greater || t.kind == .LessEqual || t.kind == .GreaterEqual) with
    | (some op, rest) =>
      match parseTerm fuel rest with
      | .ok rhs rest1 =>
        match op.kind with
        | .BangEqual => parseCmpLoop fuel (.Ne lhs rhs) rest1
        | .EqualEqual => parseCmpLoop fuel (.Eq lhs rhs) rest1
        | .Less => parseCmpLoop fuel (.Lt lhs rhs) rest1
        | .Greater => parseCmpLoop fuel (.Gt lhs rhs) rest1
        | .LessEqual => parseCmpLoop fuel (.Le lhs rhs) rest1
        | .GreaterEqual => parseCmpLoop fuel (.Ge lhs rhs) rest1
        | _ => .panicked
      | r => r
    | (none, _) => .ok lhs toks

/-- `parse_term`: left-associative `+` / `-`. -/
def parseTerm : Nat → List Token → PRes Expr
  | 0, _ => .oom
  | fuel + 1, toks =>
    match parseFactor fuel toks with
    | .ok lhs rest => parseTermLoop fuel lhs rest
    | r => r

/-- The `while` loop inside `parse_term`. -/
def parseTermLoop : Nat → Expr → List Token → PRes Expr
  | 0, _, _ => .oom
  | fuel + 1, lhs, toks =>
    match tnext_if toks (fun t => t.kind == .Plus || t.kind == .Minus) with
    | (some op, rest) =>
      match parseFactor fuel rest with
      | .ok rhs rest1 =>
        match op.kind with
        | .Plus => parseTermLoop fuel (.Add lhs rhs) rest1
        | .Minus => parseTermLoop fuel (.Sub lhs rhs) rest1
        | _ => .panicked
      | r => r
    | (none, _) => .ok lhs toks

/-- `parse_factor`: left-associative `*` / `/`. -/
def parseFactor : Nat → List Token → PRes Expr
  | 0, _ => .oom
  | fuel + 1, toks =>
    match parseUnary fuel toks with
    | .ok lhs rest => parseFactorLoop fuel lhs rest
    | r => r

/-- The `while` loop inside `parse_factor`. -/
def parseFactorLoop : Nat → Expr → List Token → PRes Expr
  | 0, _, _ => .oom
  | fuel + 1, lhs, toks =>
    match tnext_if toks (fun t => t.kind == .Star || t.kind == .Slash) with
    | (some op, rest) =>
      match parseUnary fuel rest with
      | .ok rhs rest1 =>
        match op.kind with
        | .Star => parseFactorLoop fuel (.Mul lhs rhs) rest1
        | .Slash => parseFactorLoop fuel (.Div lhs rhs) rest1
        | _ => .panicked
      | r => r
    | (none, _) => .ok lhs toks

/-- `parse_unary`: prefix `!` / `-`. -/
def parseUnary : Nat → List Token → PRes Expr
  | 0, _ => .oom
  | fuel + 1, toks =>
    match tnext_if toks (fun t => t.kind == .Bang || t.kind == .Minus) with
    | (some op, rest) =>
      match parseUnary fuel rest with
      | .ok arg rest1 =>
        match op.kind with
        | .Bang => .ok (.Not arg) rest1
        | .Minus => .ok (.Opp arg) rest1
        | _ => .panicked
      | r => r
    | (none, _) => parseCall fuel toks

/-- `parse_call`: a primary followed by any number of argument lists. -/
def parseCall : Nat → List Token → PRes Expr
  | 0, _ => .oom
  | fuel + 1, toks =>
    match parsePrimary fuel toks with
    | .ok callee rest => parseCallLoop fuel callee rest
    | r => r

/-- The `while` loop inside `parse_call`. -/
def parseCallLoop : Nat → Expr → List Token → PRes Expr
  | 0, _, _ => .oom
  | fuel + 1, callee, toks =>
    match tnext_if toks (fun t => t.kind == .LParen) with
    | (some opn, rest) =>
      match parseArgs fuel rest with
      | .ok args rest1 =>
        match tnext_if rest1 (fun t => t.kind == .RParen) with
        | (some _, rest2) => parseCallLoop fuel (.Call callee args) rest2
        | (none, _) => .err (.Unmatched opn (rest1.head?.map Token.loc))
      | .err e => .err e
      | .oom => .oom
      | .panicked => .panicked
    | (none, _) => .ok callee toks

/-- `parse_args`, from `src/parser/rec_desc.rs`: a possibly empty
comma-separated argument list, rejected with `TooManyArgs` at the 256th
argument's location when more than 255 arguments accumulate. -/
def parseArgs : Nat → List Token → PRes (List Expr)
  | 0, _ => .oom
  | fuel + 1, toks =>
    match toks.head? with
    | some t =>
      if t.kind == .RParen then .ok [] toks
      else
        match parseAsgn fuel toks with
        | .ok e rest => parseArgsLoop fuel [e] rest
        | .err e => .err e
        | .oom => .oom
        | .panicked => .panicked
    | none => .ok [] toks

/-- The `while` loop inside `parse_args`: `arg_loc` is peeked before each
further argument is parsed, and the length check runs after the push. -/
def parseArgsLoop : Nat → List Expr → List Token → PRes (List Expr)
  | 0, _, _ => .oom
  | fuel + 1, args, toks =>
    match tnext_if toks (fun t => t.kind == .Comma) with
    | (some _, rest) =>
      let arg_loc := rest.head?.map Token.loc
      match parseAsgn fuel rest with
      | .ok e rest1 =>
        let args1 := args ++ [e]
        if args1.length > 255 then
          match arg_loc with
          | some l => .err (.TooManyArgs l)
          | none => .panicked
        else parseArgsLoop fuel args1 rest1
      | .err e => .err e
      | .oom => .oom
      | .panicked => .panicked
    | (none, _) => .ok args toks

/-- `parse_primary`, from `src/parser/rec_desc.rs`. -/
def parsePrimary : Nat → List Token → PRes Expr
  | 0, _ => .oom
  | fuel + 1, toks =>
    match toks with
    | [] => .err .EOF
    | t :: rest =>
      match t.kind with
      | .Nil => .ok (.Lit .Nil) rest
      | .True => .ok (.Lit (.Boolean true)) rest
      | .False => .ok (.Lit (.Boolean false)) rest
      | .Number x => .ok (.Lit (.Number x)) rest
      | .Str s => .ok (.Lit (.String s)) rest
      | .Ident s => .ok (.Var (Variable.new s)) rest
      | .LParen =>
        match parseLog fuel rest with
        | .ok inner rest1 =>
          match rest1 with
          | closing :: rest2 =>
            if closing.kind == .RParen then .ok inner rest2
            else .err (.Unmatched t (some closing.loc))
          | [] => .err (.Unmatched t none)
        | r => r
      | _ => .err (.Unexpected t)

end

/-- The `while` loop inside `parse_params` (`src/parser/rec_desc.rs`):
`consume_ident` yields each further parameter and its location; the length
check runs after the push and reports the just-consumed parameter's
location. -/
def parseParamsLoop : Nat → List String → List Token → PRes (List String)
  | 0, _, _ => .oom
  | fuel + 1, params, toks =>
    match tnext_if toks (fun t => t.kind == .Comma) with
    | (some _, rest) =>
      match consume_ident rest with
      | .ok ((name, loc), rest1) =>
        let params1 := params ++ [name]
        if params1.length > 255 then .err (.TooManyParams loc)
        else parseParamsLoop fuel params1 rest1
      | .error e => .err e
    | (none, _) => .ok params toks

/-- `parse_params`, from `src/parser/rec_desc.rs`. -/
def parseParams (fuel : Nat) (toks : List Token) : PRes (List String) :=
  match toks.head? with
  | some t =>
    if t.kind == .RParen then .ok [] toks
    else
      match consume_ident toks with
      | .ok ((name, _), rest) => parseParamsLoop fuel [name] rest
      | .error e => .err e
  | none => .ok [] toks

/-- Token stream of a nonempty tail of a parameter list: `, IDENT , IDENT ...`
(the commas' locations are irrelevant to the parser). -/
def paramTail : List (String × Loc) → List Token
  | [] => []
  | (n, l) :: rest => ⟨.Comma, ⟨0, 0⟩⟩ :: ⟨.Ident n, l⟩ :: paramTail rest

/-- Token stream of a comma-separated parameter list. -/
def paramToks : List (String × Loc) → List Token
  | [] => []
  | (n, l) :: rest => ⟨.Ident n, l⟩ :: paramTail rest

/-- An expression argument given as its token chunk together with the
expression it parses to. -/
abbrev ArgChunk := List Token × Expr

/-- Token stream of a nonempty tail of an argument list: `, chunk , chunk ...`. -/
def argTail : List ArgChunk → List Token
  | [] => []
  | p :: rest => ⟨.Comma, ⟨0, 0⟩⟩ :: (p.1 ++ argTail rest)

/-- Token stream of a comma-separated argument list. -/
def argToks : List ArgChunk → List Token
  | [] => []
  | p :: rest => p.1 ++ argTail rest

/-- The continuations on which an argument chunk must stand alone: inside an
argument list every argument is followed by a `,` or the closing `)`. -/
def sepHead (toks : List Token) : Prop :=
  match toks.head? with
  | some t => t.kind = .Comma ∨ t.kind = .RParen
  | none => False

/-! ## Resolver (`src/resolver.rs`) -/

/-- `FunctionType`, from `src/resolver.rs`. -/
inductive FunctionType where
  | None
  | Function
deriving DecidableEq, Repr

/-- A resolver scope map `name → defined?`.  Rust uses a `HashMap`; we use an
association list whose lookup finds the most recent insertion — observationally
the same map, since the resolver only inserts and looks up. -/
abbrev RMap := List (String × Bool)

def rlookup (m : RMap) (k : String) : Option Bool := m.lookup k

def rinsert (m : RMap) (k : String) (v : Bool) : RMap := (k, v) :: m

/-- Resolver state, from `src/resolver.rs` (`struct Resolver`).  The innermost
scope (`Vec::last`) is the HEAD of `scopes`, so Rust's
`iter().rev().enumerate()` is a plain traversal of our list. -/
structure Resolver where
  scopes : List RMap
  curr_function : FunctionType

/-- `Resolver::new`. -/
def Resolver.new : Resolver := ⟨[], .None⟩

/-- `Resolver::declare`: mark a name declared-but-undefined in the innermost
scope; re-declaring in the same local scope is the `todo!` panic, modelled as
`Except.error`.  With no local scope this is a no-op. -/
def Resolver.declare (r : Resolver) (v : String) : Except Unit Resolver :=
  match r.scopes with
  | [] => .ok r
  | m :: rest =>
    if (rlookup m v).isSome then .error ()
    else .ok ⟨rinsert m v false :: rest, r.curr_function⟩

/-- `Resolver::define`: mark a name defined in the innermost scope. -/
def Resolver.define (r : Resolver) (v : String) : Resolver :=
  match r.scopes with
  | [] => r
  | m :: rest => ⟨rinsert m v true :: rest, r.curr_function⟩

/-- `Resolver::begin_scope`. -/
def Resolver.begin_scope (r : Resolver) : Resolver := ⟨[] :: r.scopes, r.curr_function⟩

/-- `Resolver::end_scope`. -/
def Resolver.end_scope (r : Resolver) : Resolver := ⟨r.scopes.tail, r.curr_function⟩

/-- Zero-based index, counted from the innermost scope, of the first scope
containing `x` (`scopes.iter().rev().enumerate().find(...)`). -/
def findScope : List RMap → String → Option Nat
  | [], _ => none
  | m :: rest, x =>
    if (rlookup m x).isSome then some 0 else (findScope rest x).map (· + 1)

/-- `Resolver::resolve_local`: set `depth` to the index of the innermost scope
containing the name; leave the variable untouched when no scope contains it. -/
def Resolver.resolve_local (r : Resolver) (v : Variable) : Variable :=
  match findScope r.scopes v.name with
  | some i => ⟨v.name, (i : Int)⟩
  | none => v

mutual

/-- `Resolver::resolve_expr`.  In Rust this takes `&mut self` but never
modifies the scope stack, so it is modelled as a pure function of the state;
the self-referential-initializer `todo!` panic is `Except.error`. -/
def resolveExpr (r : Resolver) : Expr → Except Unit Expr
  | .Asgn v e =>
    match resolveExpr r e with
    | .error e => .error e
    | .ok e' => .ok (.Asgn (r.resolve_local v) e')
  | .Call callee args =>
    match resolveExpr r callee with
    | .error e => .error e
    | .ok callee' =>
      match resolveExprList r args with
      | .error e => .error e
      | .ok args' => .ok (.Call callee' args')
  | .And l rr =>
    match resolveExpr r l, resolveExpr r rr with
    | .ok l', .ok r' => .ok (.And l' r')
    | .error e, _ => .error e
    | _, .error e => .error e
  | .Or l rr =>
    match resolveExpr r l, resolveExpr r rr with
    | .ok l', .ok r' => .ok (.Or l' r')
    | .error e, _ => .error e
    | _, .error e => .error e
  | .Eq l rr =>
    match resolveExpr r l, resolveExpr r rr with
    | .ok l', .ok r' => .ok (.Eq l' r')
    | .error e, _ => .error e
    | _, .error e => .error e
  | .Ne l rr =>
    match resolveExpr r l, resolveExpr r rr with
    | .ok l', .ok r' => .ok (.Ne l' r')
    | .error e, _ => .error e
    | _, .error e => .error e
  | .Gt l rr =>
    match resolveExpr r l, resolveExpr r rr with
    | .ok l', .ok r' => .ok (.Gt l' r')
    | .error e, _ => .error e
    | _, .error e => .error e
  | .Ge l rr =>
    match resolveExpr r l, resolveExpr r rr with
    | .ok l', .ok r' => .ok (.Ge l' r')
    | .error e, _ => .error e
    | _, .error e => .error e
  | .Lt l rr =>
    match resolveExpr r l, resolveExpr r rr with
    | .ok l', .ok r' => .ok (.Lt l' r')
    | .error e, _ => .error e
    | _, .error e => .error e
  | .Le l rr =>
    match resolveExpr r l, resolveExpr r rr with
    | .ok l', .ok r' => .ok (.Le l' r')
    | .error e, _ => .error e
    | _, .error e => .error e
  | .Add l rr =>
    match resolveExpr r l, resolveExpr r rr with
    | .ok l', .ok r' => .ok (.Add l' r')
    | .error e, _ => .error e
    | _, .error e => .error e
  | .Sub l rr =>
    match resolveExpr r l, resolveExpr r rr with
    | .ok l', .ok r' => .ok (.Sub l' r')
    | .error e, _ => .error e
    | _, .error e => .error e
  | .Mul l rr =>
    match resolveExpr r l, resolveExpr r rr with
    | .ok l', .ok r' => .ok (.Mul l' r')
    | .error e, _ => .error e
    | _, .error e => .error e
  | .Div l rr =>
    match resolveExpr r l, resolveExpr r rr with
    | .ok l', .ok r' => .ok (.Div l' r')
    | .error e, _ => .error e
    | _, .error e => .error e
  | .Not a =>
    match resolveExpr r a with
    | .error e => .error e
    | .ok a' => .ok (.Not a')
  | .Opp a =>
    match resolveExpr r a with
    | .error e => .error e
    | .ok a' => .ok (.Opp a')
  | .Lit v => .ok (.Lit v)
  | .Var v =>
    if (r.scopes.head?.bind (fun sc => rlookup sc v.name)) = some false then .error ()
    else .ok (.Var (r.resolve_local v))

/-- Left-to-right resolution of `Call` arguments (`for a in args`). -/
def resolveExprList (r : Resolver) : List Expr → Except Unit (List Expr)
  | [] => .ok []
  | e :: rest =>
    match resolveExpr r e with
    | .error err => .error err
    | .ok e' =>
      match resolveExprList r rest with
      | .error err => .error err
      | .ok rest' => .ok (e' :: rest')

end

/-- The tail of the `Decl` arm of `resolve_stmt` after `declare` succeeded:
resolve the initializer (if any), then `define`. -/
def resolveDeclInit (v : String) (r1 : Resolver) : Option Expr → Except Unit (Stmt × Resolver)
  | some e =>
    match resolveExpr r1 e with
    | .error err => .error err
    | .ok e' => .ok (.Decl v (some e'), Resolver.define r1 v)
  | none => .ok (.Decl v none, Resolver.define r1 v)

/-- The tail of the `Return` arm of `resolve_stmt` after the
`current-function` check passed. -/
def resolveRet (r : Resolver) : Option Expr → Except Unit (Stmt × Resolver)
  | some e =>
    match resolveExpr r e with
    | .error err => .error err
    | .ok e' => .ok (.Return (some e'), r)
  | none => .ok (.Return none, r)

mutual

/-- `Resolver::resolve_stmt`, threading the mutated resolver state. -/
def resolveStmt (r : Resolver) : Stmt → Except Unit (Stmt × Resolver)
  | .Block body =>
    match resolveStmtList r.begin_scope body with
    | .error e => .error e
    | .ok (body', r2) => .ok (.Block body', r2.end_scope)
  | .Expr e =>
    match resolveExpr r e with
    | .error err => .error err
    | .ok e' => .ok (.Expr e', r)
  | .Print e =>
    match resolveExpr r e with
    | .error err => .error err
    | .ok e' => .ok (.Print e', r)
  | .Decl v init =>
    match r.declare v with
    | .error e => .error e
    | .ok r1 => resolveDeclInit v r1 init
  | .If cond thenB elseB =>
    match resolveExpr r cond with
    | .error err => .error err
    | .ok cond' =>
      match resolveStmt r thenB with
      | .error err => .error err
      | .ok (then', r1) => resolveElse cond' then' r1 elseB
  | .While cond body =>
    match resolveExpr r cond with
    | .error err => .error err
    | .ok cond' =>
      match resolveStmt r body with
      | .error err => .error err
      | .ok (body', r1) => .ok (.While cond' body', r1)
  | .Func name params body =>
    match resolveStmt (params.foldl (fun acc p => acc.define p)
        (Resolver.begin_scope ⟨(Resolver.define r name).scopes, .Function⟩)) body with
    | .error err => .error err
    | .ok (body', r5) => .ok (.Func name params body', ⟨r5.end_scope.scopes, r.curr_function⟩)
  | .Return ret =>
    if r.curr_function = .None then .error () else resolveRet r ret

/-- The `if let Some(else_b) = else_b` tail of the `If` arm of
`resolve_stmt`. -/
def resolveElse (cond' : Expr) (then' : Stmt) (r1 : Resolver) :
    Option Stmt → Except Unit (Stmt × Resolver)
  | some eb =>
    match resolveStmt r1 eb with
    | .error err => .error err
    | .ok (eb', r2) => .ok (.If cond' then' (some eb'), r2)
  | none => .ok (.If cond' then' none, r1)

/-- Sequential resolution of the statements of a block. -/
def resolveStmtList (r : Resolver) : List Stmt → Except Unit (List Stmt × Resolver)
  | [] => .ok ([], r)
  | s :: rest =>
    match resolveStmt r s with
    | .error e => .error e
    | .ok (s', r1) =>
      match resolveStmtList r1 rest with
      | .error e => .error e
      | .ok (rest', r2) => .ok (s' :: rest', r2)

end

/-- `Prog`, the program node (`struct Prog { stmts: Vec<Stmt> }`). -/
structure Prog where
  stmts : List Stmt

/-- `Resolver::resolve`: run a fresh resolver over the program's statements
(mutating depths in place in Rust; returning the rewritten program here). -/
def resolveProg (p : Prog) : Except Unit Prog :=
  match resolveStmtList Resolver.new p.stmts with
  | .error e => .error e
  | .ok (stmts', _) => .ok ⟨stmts'⟩


/-! ## Scopes (`src/prog.rs`)

`Rc<Scope>` handles are modelled as addresses into an explicit store (a list of
scope records), so that the shared mutability of `RefCell<HashMap<..>>` and the
aliasing of the `outer`/`global` handles are preserved: `Rc::new` appends a
record, `Rc::clone` copies an address, and mutation through any alias is an
update of the store at that address. -/

/-- A scope's mutable name-to-value map (`RefCell<HashMap<String, Val>>`), as
an association list in which the first entry for a key is its current value. -/
abbrev Env := List (String × Val)

def envLookup (m : Env) (k : String) : Option Val := m.lookup k

/-- `HashMap::insert`: bind `k` to `v`, shadowing any earlier entry. -/
def envInsert (m : Env) (k : String) (v : Val) : Env := (k, v) :: m

/-- `HashMap::get_mut` followed by `*val = new`: overwrite the first entry for
`k` if present, and do nothing otherwise (callers check presence first). -/
def envUpdate : Env → String → Val → Env
  | [], _, _ => []
  | (k0, v0) :: rest, k, v =>
    if k0 = k then (k0, v) :: rest else (k0, v0) :: envUpdate rest k v

/-- One scope record, from `src/prog.rs` (`enum Scope`): the global scope holds
only its map; a local scope holds its map, the handle of the enclosing scope
(`outer`) and a cached handle of the global scope (`global`). -/
inductive ScopeData where
  | Global : Env → ScopeData
  | Local : Env → Addr → Addr → ScopeData

/-- The heap of scope records; an `Rc<Scope>` is an index into this list. -/
abbrev Store := List ScopeData

/-- `Scope::get_values`: the record's own map, for either variant. -/
def ScopeData.values : ScopeData → Env
  | .Global e => e
  | .Local e _ _ => e

/-- Replace the record's map, keeping its links (a `RefCell` write). -/
def ScopeData.withValues : ScopeData → Env → ScopeData
  | .Global _, e => .Global e
  | .Local _ o g, e => .Local e o g

namespace Scope

/-- `Scope::new_global`: allocate a fresh global scope holding `globals`,
returning its handle and the grown store. -/
def new_global (globals : Env) (S : Store) : Addr × Store :=
  (S.length, S ++ [.Global globals])

/-- `Scope::get_global`: a global scope is its own global; a local scope
returns its cached handle.  `none` only on a dangling address, which cannot
occur in Rust (`Rc` handles are always valid) and is excluded by the store
invariants below. -/
def get_global (S : Store) (a : Addr) : Option Addr :=
  match S[a]? with
  | some (.Global _) => some a
  | some (.Local _ _ g) => some g
  | none => none

/-- `Scope::new_local`: allocate an empty child of `outer`, caching `outer`'s
global handle.  `none` only on a dangling `outer`. -/
def new_local (S : Store) (outer : Addr) : Option (Addr × Store) :=
  match get_global S outer with
  | some g => some (S.length, S ++ [.Local [] outer g])
  | none => none

/-- `Scope::get_outer`: the enclosing scope's handle; `None` for the global
scope. -/
def get_outer (S : Store) (a : Addr) : Option Addr :=
  match S[a]? with
  | some (.Local _ o _) => some o
  | _ => none

/-- The loop of `Scope::get_ancestor`: follow `n` `outer` links.  `none`
models the `expect("Resolver must set a valid depth")` panic — reaching the
global scope (whose `get_outer` is `None`) with links still to walk — or a
dangling address. -/
def ancestorGo (S : Store) : Nat → Addr → Option Addr
  | 0, a => some a
  | n + 1, a =>
    match get_outer S a with
    | some o => ancestorGo S n o
    | none => none

/-- `Scope::get_ancestor`: walk `dist` outer links (`for _ in 0..dist`, which
is empty for `dist <= 0`). -/
def get_ancestor (S : Store) (a : Addr) (dist : Int) : Option Addr :=
  ancestorGo S dist.toNat a

/-- `Scope::def` (`def` is a Lean keyword, hence `defVar`): insert `name` into
the scope's own map.  A dangling address leaves the store unchanged (cannot
occur in Rust). -/
def defVar (S : Store) (a : Addr) (name : String) (v : Val) : Store :=
  match S[a]? with
  | some sd => S.set a (sd.withValues (envInsert sd.values name v))
  | none => S

/-- Failure modes of `Scope::get` / `Scope::asgn`: `invalidDepth` models the
`expect("Resolver must set a valid depth")` panic inside `get_ancestor` (and
the impossible dangling-handle cases of the store model), `undefined` the
`Err(())` returned after printing `Undefined variable`. -/
inductive ScopeErr where
  | invalidDepth
  | undefined
deriving DecidableEq, Repr

/-- The scope-locating step shared verbatim by `Scope::get` and `Scope::asgn`:
`if var.depth < 0 { self.get_global() } else { self.get_ancestor(var.depth) }`. -/
def locate (S : Store) (a : Addr) (depth : Int) : Option Addr :=
  if depth < 0 then get_global S a else get_ancestor S a depth

/-- `Scope::get`. -/
def get (S : Store) (a : Addr) (var : Variable) : Except ScopeErr Val :=
  match locate S a var.depth with
  | none => .error .invalidDepth
  | some env =>
    match S[env]? with
    | none => .error .invalidDepth
    | some sd =>
      match envLookup sd.values var.name with
      | some v => .ok v
      | none => .error .undefined

/-- `Scope::asgn`. -/
def asgn (S : Store) (a : Addr) (var : Variable) (new : Val) :
    Except ScopeErr Store :=
  match locate S a var.depth with
  | none => .error .invalidDepth
  | some env =>
    match S[env]? with
    | none => .error .invalidDepth
    | some sd =>
      match envLookup sd.values var.name with
      | some _ => .ok (S.set env (sd.withValues (envUpdate sd.values var.name new)))
      | none => .error .undefined

/-- Modelled from the spec: `Scope::inner` is called by `Callable::call`
(`src/val.rs`) but absent from the checked-in `prog.rs`.  The spec's function
invocation says to "create a fresh child scope of the function's closure
scope", i.e. `new_local` of the closure. -/
def inner (S : Store) (closure : Addr) : Option (Addr × Store) := new_local S closure

end Scope

/-- Follow `outer` links from `a` to the root of its chain: the first `Global`
record reached.  Fuel-bounded (under `linksDown`, fuel `a + 1` suffices from
address `a`); `none` on a dangling link or exhausted fuel. -/
def rootOf (S : Store) : Nat → Addr → Option Addr
  | 0, _ => none
  | n + 1, a =>
    match S[a]? with
    | some (.Global _) => some a
    | some (.Local _ o _) => rootOf S n o
    | none => none

/-- The number of `outer` links from `a` down to the global root: the lexical
depth of the scope.  Fuel-bounded like `rootOf`. -/
def localDepth (S : Store) : Nat → Addr → Option Nat
  | 0, _ => none
  | n + 1, a =>
    match S[a]? with
    | some (.Global _) => some 0
    | some (.Local _ o _) => (localDepth S n o).map (· + 1)
    | none => none

/-- Scope links point to strictly earlier-allocated records: `Rc::new`
appends, and a record's `outer` and `global` handles existed before it. -/
def linksDown (S : Store) : Prop :=
  ∀ (a : ℕ) (e : Env) (o g : ℕ), S[a]? = some (.Local e o g) → o < a ∧ g < a

/-- The invariant of C9: every `Local` record's cached `global` handle is the
root of its `outer` chain. -/
def GlobalOk (S : Store) : Prop :=
  ∀ (a : ℕ) (e : Env) (o g : ℕ), S[a]? = some (.Local e o g) → rootOf S (a + 1) o = some g


/-! ## Evaluation (`src/expr.rs`, `src/stmt.rs`, `src/val.rs`)

The mutual recursion of `Expr::eval` / `Stmt::exec` / `Callable::call` is
unbounded in Rust; termination here is by explicit fuel, with `oom` marking
exhaustion.  `println!` output is not modelled.  A native function's Rust code
is opaque: the evaluator is parametrised by a table `nf` giving each native's
result from its arguments. -/

/-- Outcome of evaluation: a result with the updated store, a runtime error
(Rust's `Err(())` after printing a message), a panic
(`expect` / `unreachable!` / a dangling address — `stuck`), or fuel
exhaustion. -/
inductive Res (α : Type) where
  | ok : α → Store → Res α
  | fail : Res α
  | stuck : Res α
  | oom : Res α

/-- `impl From<Val> for bool` (`src/val.rs`): everything is truthy except
`Nil` and `Boolean(false)`. -/
def Val.truthy : Val → Bool
  | .Nil => false
  | .Boolean false => false
  | _ => true

/-- The `try_numeric!` macro of `src/expr.rs`, after both operands have been
evaluated: apply `f` to two numbers, runtime error otherwise. -/
def tryNumeric (S : Store) (x y : Val) (f : ℚ → ℚ → Val) : Res Val :=
  match x, y with
  | .Number a, .Number b => .ok (f a b) S
  | _, _ => .fail

/-- The results of the native functions, indexed by code-pointer id (`fid`)
and applied to the argument list.  The repository's only native is `clock`
(`src/globals.rs`), whose result is the current time; evaluation results are
therefore stated for an arbitrary table. -/
abbrev NativeTable := Nat → List Val → Val

/-- The parameter-binding loop of `Callable::call`:
`for (p, a) in params.iter().zip(args) { inner.def(p, a) }`
(`zip` stops at the shorter list; arity was checked before). -/
def bindParams : Store → Addr → List String → List Val → Store
  | S, _, [], _ => S
  | S, _, _ :: _, [] => S
  | S, a, p :: ps, v :: vs => bindParams (Scope.defVar S a p v) a ps vs

mutual

/-- `Expr::eval` (`src/expr.rs`), over the store model.  The `Call` arm is
absent from the checked-in stale `expr.rs` and is modelled from the spec:
"evaluate `callee`; if not a `Function`, `NotCallable`.  Evaluate `args`
left-to-right.  Check arity; then invoke" — arity checking and invocation
being `Callable::call`, which is in `src/val.rs`.  All other arms follow
`src/expr.rs` (with `Variable`-carrying `Var`/`Asgn` per `prog.rs`); in
particular the `Not` arm returns `Boolean(true)` in both of its match arms,
exactly as the source at `expr.rs:93-96` does. -/
def eval (nf : NativeTable) : Nat → Store → Addr → Expr → Res Val
  | 0, _, _, _ => .oom
  | fuel + 1, S, sc, .Asgn var e =>
    match eval nf fuel S sc e with
    | .ok v S1 =>
      match Scope.asgn S1 sc var v with
      | .ok S2 => .ok v S2
      | .error .undefined => .fail
      | .error .invalidDepth => .stuck
    | r => r
  | fuel + 1, S, sc, .Call callee args =>
    match eval nf fuel S sc callee with
    | .ok (.Func f) S1 =>
      match evalList nf fuel S1 sc args with
      | .ok vs S2 => callF nf fuel S2 f vs
      | .fail => .fail
      | .stuck => .stuck
      | .oom => .oom
    | .ok _ _ => .fail
    | r => r
  | fuel + 1, S, sc, .And a b =>
    match eval nf fuel S sc a with
    | .ok .Nil S1 => .ok .Nil S1
    | .ok (.Boolean false) S1 => .ok (.Boolean false) S1
    | .ok _ S1 => eval nf fuel S1 sc b
    | r => r
  | fuel + 1, S, sc, .Or a b =>
    match eval nf fuel S sc a with
    | .ok .Nil S1 => eval nf fuel S1 sc b
    | .ok (.Boolean false) S1 => eval nf fuel S1 sc b
    | .ok v S1 => .ok v S1
    | r => r
  | fuel + 1, S, sc, .Eq a b =>
    match eval nf fuel S sc a with
    | .ok x S1 =>
      match eval nf fuel S1 sc b with
      | .ok y S2 => .ok (.Boolean (Val.beq x y)) S2
      | r => r
    | r => r
  | fuel + 1, S, sc, .Ne a b =>
    match eval nf fuel S sc a with
    | .ok x S1 =>
      match eval nf fuel S1 sc b with
      | .ok y S2 => .ok (.Boolean (! Val.beq x y)) S2
      | r => r
    | r => r
  | fuel + 1, S, sc, .Gt a b =>
    match eval nf fuel S sc a with
    | .ok x S1 =>
      match eval nf fuel S1 sc b with
      | .ok y S2 => tryNumeric S2 x y (fun p q => .Boolean (decide (p > q)))
      | r => r
    | r => r
  | fuel + 1, S, sc, .Ge a b =>
    match eval nf fuel S sc a with
    | .ok x S1 =>
      match eval nf fuel S1 sc b with
      | .ok y S2 => tryNumeric S2 x y (fun p q => .Boolean (decide (p ≥ q)))
      | r => r
    | r => r
  | fuel + 1, S, sc, .Lt a b =>
    match eval nf fuel S sc a with
    | .ok x S1 =>
      match eval nf fuel S1 sc b with
      | .ok y S2 => tryNumeric S2 x y (fun p q => .Boolean (decide (p < q)))
      | r => r
    | r => r
  | fuel + 1, S, sc, .Le a b =>
    match eval nf fuel S sc a with
    | .ok x S1 =>
      match eval nf fuel S1 sc b with
      | .ok y S2 => tryNumeric S2 x y (fun p q => .Boolean (decide (p ≤ q)))
      | r => r
    | r => r
  | fuel + 1, S, sc, .Add a b =>
    match eval nf fuel S sc a with
    | .ok x S1 =>
      match eval nf fuel S1 sc b with
      | .ok y S2 =>
        match x, y with
        | .Number p, .Number q => .ok (.Number (p + q)) S2
        | .String s, .String t => .ok (.String (s ++ t)) S2
        | _, _ => .fail
      | r => r
    | r => r
  | fuel + 1, S, sc, .Sub a b =>
    match eval nf fuel S sc a with
    | .ok x S1 =>
      match eval nf fuel S1 sc b with
      | .ok y S2 => tryNumeric S2 x y (fun p q => .Number (p - q))
      | r => r
    | r => r
  | fuel + 1, S, sc, .Mul a b =>
    match eval nf fuel S sc a with
    | .ok x S1 =>
      match eval nf fuel S1 sc b with
      | .ok y S2 => tryNumeric S2 x y (fun p q => .Number (p * q))
      | r => r
    | r => r
  | fuel + 1, S, sc, .Div a b =>
    match eval nf fuel S sc a with
    | .ok x S1 =>
      match eval nf fuel S1 sc b with
      | .ok y S2 => tryNumeric S2 x y (fun p q => .Number (p / q))
      | r => r
    | r => r
  | fuel + 1, S, sc, .Not a =>
    match eval nf fuel S sc a with
    | .ok .Nil S1 => .ok (.Boolean true) S1
    | .ok (.Boolean false) S1 => .ok (.Boolean true) S1
    | .ok _ S1 => .ok (.Boolean true) S1
    | r => r
  | fuel + 1, S, sc, .Opp a =>
    match eval nf fuel S sc a with
    | .ok (.Number p) S1 => .ok (.Number (-p)) S1
    | .ok _ _ => .fail
    | r => r
  | _ + 1, S, _, .Lit v => .ok v S
  | _ + 1, S, sc, .Var v =>
    match Scope.get S sc v with
    | .ok w => .ok w S
    | .error .undefined => .fail
    | .error .invalidDepth => .stuck

/-- The left-to-right argument evaluation of the spec's `Call` arm. -/
def evalList (nf : NativeTable) : Nat → Store → Addr → List Expr → Res (List Val)
  | 0, _, _, _ => .oom
  | _ + 1, S, _, [] => .ok [] S
  | fuel + 1, S, sc, e :: rest =>
    match eval nf fuel S sc e with
    | .ok v S1 =>
      match evalList nf fuel S1 sc rest with
      | .ok vs S2 => .ok (v :: vs) S2
      | .fail => .fail
      | .stuck => .stuck
      | .oom => .oom
    | .fail => .fail
    | .stuck => .stuck
    | .oom => .oom

/-- `Stmt::exec` (`src/stmt.rs`).  `Print` evaluates its operand and discards
the text.  The result is `NoVal` for statements that complete normally and a
value for a `return` propagating upward. -/
def exec (nf : NativeTable) : Nat → Store → Addr → Stmt → Res Val
  | 0, _, _, _ => .oom
  | fuel + 1, S, sc, .Block stmts =>
    match Scope.new_local S sc with
    | some (inn, S1) => execList nf fuel S1 inn stmts
    | none => .stuck
  | fuel + 1, S, sc, .Expr e =>
    match eval nf fuel S sc e with
    | .ok _ S1 => .ok .NoVal S1
    | r => r
  | fuel + 1, S, sc, .Print e =>
    match eval nf fuel S sc e with
    | .ok _ S1 => .ok .NoVal S1
    | r => r
  | fuel + 1, S, sc, .Decl name init =>
    match init with
    | some e =>
      match eval nf fuel S sc e with
      | .ok v S1 => .ok .NoVal (Scope.defVar S1 sc name v)
      | r => r
    | none => .ok .NoVal (Scope.defVar S sc name .Nil)
  | fuel + 1, S, sc, .If cond thenB elseB =>
    match eval nf fuel S sc cond with
    | .ok c S1 =>
      if Val.truthy c then exec nf fuel S1 sc thenB
      else
        match elseB with
        | some e => exec nf fuel S1 sc e
        | none => .ok .NoVal S1
    | r => r
  | fuel + 1, S, sc, .While cond body => whileGo nf fuel S sc cond body
  | _ + 1, S, sc, .Func name params body =>
    .ok .NoVal (Scope.defVar S sc name (.Func (.UserDef (.Func name params body) sc)))
  | fuel + 1, S, sc, .Return ret =>
    match ret with
    | none => .ok .Nil S
    | some e => eval nf fuel S sc e

/-- The `while` loop of the `While` arm of `Stmt::exec`: `ret` starts at
`NoVal`; each truthy test runs the body, and a non-`NoVal` body result breaks
out of the loop and is returned. -/
def whileGo (nf : NativeTable) : Nat → Store → Addr → Expr → Stmt → Res Val
  | 0, _, _, _, _ => .oom
  | fuel + 1, S, sc, cond, body =>
    match eval nf fuel S sc cond with
    | .ok c S1 =>
      if Val.truthy c then
        match exec nf fuel S1 sc body with
        | .ok v S2 =>
          if Val.beq v .NoVal then whileGo nf fuel S2 sc cond body else .ok v S2
        | r => r
      else .ok .NoVal S1
    | r => r

/-- The statement loop of the `Block` arm of `Stmt::exec`: run each statement
in the block's fresh scope, returning the first non-`NoVal` result early. -/
def execList (nf : NativeTable) : Nat → Store → Addr → List Stmt → Res Val
  | 0, _, _, _ => .oom
  | _ + 1, S, _, [] => .ok .NoVal S
  | fuel + 1, S, sc, s :: rest =>
    match exec nf fuel S sc s with
    | .ok v S1 => if Val.beq v .NoVal then execList nf fuel S1 sc rest else .ok v S1
    | r => r

/-- `Callable::call` for `Function` (`src/val.rs`).  A native checks arity and
returns its table entry; a user function checks arity, creates the child scope
of its closure (`Scope::inner`), binds parameters positionally and executes
the body, returning the body's result directly.  The `unreachable!` for a
`UserDef` whose declaration is not a `Func` statement is `stuck`. -/
def callF (nf : NativeTable) : Nat → Store → Function → List Val → Res Val
  | 0, _, _, _ => .oom
  | _ + 1, S, .Native arity fid, args =>
    if arity = args.length then .ok (nf fid args) S else .fail
  | fuel + 1, S, .UserDef decl closure, args =>
    match decl with
    | .Func _ params body =>
      if params.length = args.length then
        match Scope.inner S closure with
        | some (inn, S1) => exec nf fuel (bindParams S1 inn params args) inn body
        | none => .stuck
      else .fail
    | _ => .stuck

end

/-- `Prog::exec` (`src/prog.rs`): run each top-level statement in the given
scope, discarding results, stopping at the first error. -/
def Prog.execF (nf : NativeTable) : Nat → Store → Addr → List Stmt → Res Unit
  | 0, _, _, _ => .oom
  | _ + 1, S, _, [] => .ok () S
  | fuel + 1, S, sc, s :: rest =>
    match exec nf fuel S sc s with
    | .ok _ S1 => Prog.execF nf fuel S1 sc rest
    | .fail => .fail
    | .stuck => .stuck
    | .oom => .oom

/-- The interpreter's initial global bindings (`src/globals.rs`): the single
native `clock`, of arity 0, with code-pointer id 0. -/
def globalsEnv : Env := [("clock", .Func (.Native 0 0))]

/-- Running a resolved program: allocate the global scope over the initial
globals in an empty store (`Scope::new_global(globals())`) and execute the
statements there (`Prog::exec`). -/
def runProg (nf : NativeTable) (fuel : Nat) (p : Prog) : Res Unit :=
  match Scope.new_global globalsEnv [] with
  | (g, S0) => Prog.execF nf fuel S0 g p.stmts

/-! ## Depth-boundedness and the runtime invariants (for C8) -/

/-- First-order values: the literal forms the parser produces (numbers,
strings, booleans, nil).  `Lit` nodes of an executed program carry only
these; function values enter the evaluator only through the `Func` statement
and native results. -/
def litOk : Val → Bool
  | .Number _ => true
  | .Boolean _ => true
  | .String _ => true
  | .Nil => true
  | _ => false

mutual

/-- Depth-boundedness of an expression at static scope-stack length `k`:
every variable reference's depth is below `k` (negative depths — global
lookups — are always allowed) and literals are first-order. -/
def okE (k : Nat) : Expr → Bool
  | .Asgn v e => decide (v.depth < (k : Int)) && okE k e
  | .Call f args => okE k f && okEList k args
  | .And a b => okE k a && okE k b
  | .Or a b => okE k a && okE k b
  | .Eq a b => okE k a && okE k b
  | .Ne a b => okE k a && okE k b
  | .Gt a b => okE k a && okE k b
  | .Ge a b => okE k a && okE k b
  | .Lt a b => okE k a && okE k b
  | .Le a b => okE k a && okE k b
  | .Add a b => okE k a && okE k b
  | .Sub a b => okE k a && okE k b
  | .Mul a b => okE k a && okE k b
  | .Div a b => okE k a && okE k b
  | .Not a => okE k a
  | .Opp a => okE k a
  | .Lit v => litOk v
  | .Var v => decide (v.depth < (k : Int))

def okEList (k : Nat) : List Expr → Bool
  | [] => true
  | e :: rest => okE k e && okEList k rest

/-- Depth-boundedness of a statement at static depth `k`: blocks and function
bodies are checked one level deeper, mirroring `begin_scope` in the resolver
and `new_local` at run time. -/
def okS (k : Nat) : Stmt → Bool
  | .Block ss => okSList (k + 1) ss
  | .Expr e => okE k e
  | .Print e => okE k e
  | .Decl _ init => okOptE k init
  | .If c t e => okE k c && okS k t && okOptS k e
  | .While c b => okE k c && okS k b
  | .Func _ _ body => okS (k + 1) body
  | .Return ret => okOptE k ret

def okSList (k : Nat) : List Stmt → Bool
  | [] => true
  | s :: rest => okS k s && okSList k rest

def okOptE (k : Nat) : Option Expr → Bool
  | none => true
  | some e => okE k e

def okOptS (k : Nat) : Option Stmt → Bool
  | none => true
  | some s => okS k s

end

mutual

/-- The parser's output shape: every variable reference still carries a
negative (unresolved) depth, and literals are first-order. -/
def negE : Expr → Bool
  | .Asgn v e => decide (v.depth < 0) && negE e
  | .Call f args => negE f && negEList args
  | .And a b => negE a && negE b
  | .Or a b => negE a && negE b
  | .Eq a b => negE a && negE b
  | .Ne a b => negE a && negE b
  | .Gt a b => negE a && negE b
  | .Ge a b => negE a && negE b
  | .Lt a b => negE a && negE b
  | .Le a b => negE a && negE b
  | .Add a b => negE a && negE b
  | .Sub a b => negE a && negE b
  | .Mul a b => negE a && negE b
  | .Div a b => negE a && negE b
  | .Not a => negE a
  | .Opp a => negE a
  | .Lit v => litOk v
  | .Var v => decide (v.depth < 0)

def negEList : List Expr → Bool
  | [] => true
  | e :: rest => negE e && negEList rest

def negS : Stmt → Bool
  | .Block ss => negSList ss
  | .Expr e => negE e
  | .Print e => negE e
  | .Decl _ init => negOptE init
  | .If c t e => negE c && negS t && negOptS e
  | .While c b => negE c && negS b
  | .Func _ _ body => negS body
  | .Return ret => negOptE ret

def negSList : List Stmt → Bool
  | [] => true
  | s :: rest => negS s && negSList rest

def negOptE : Option Expr → Bool
  | none => true
  | some e => negE e

def negOptS : Option Stmt → Bool
  | none => true
  | some s => negS s

end

/-- Native tables whose results are first-order values (the repository's only
native, `clock`, returns a `Number`). -/
def NatOk (nf : NativeTable) : Prop := ∀ i args, litOk (nf i args) = true

/-- The shape of a scope record: its constructor and links, ignoring the
mutable map. -/
def shape : ScopeData → Option (ℕ × ℕ)
  | .Global _ => none
  | .Local _ o g => some (o, g)

/-- Store extension: evaluation may append records and rewrite maps, but the
shape of every existing record persists. -/
def Ext (S S' : Store) : Prop :=
  S.length ≤ S'.length ∧ ∀ a : ℕ, a < S.length → (S'[a]?).map shape = (S[a]?).map shape

/-- Well-formedness of a runtime value in store `S`: only function values are
constrained.  A native is always fine; a user function's declaration must be
a `Func` statement whose body is depth-bounded one level above the closure's
lexical depth, and the closure address must be live. -/
def ValOk (S : Store) : Val → Prop
  | .Func (.UserDef d c) => ∃ name params body, d = Stmt.Func name params body ∧
      c < S.length ∧ ∃ k : ℕ, localDepth S (c + 1) c = some k ∧ okS (k + 1) body = true
  | _ => True

/-- The full runtime store invariant. -/
structure StoreOk (S : Store) : Prop where
  ld : linksDown S
  go : GlobalOk S
  vals : ∀ (a : ℕ) (sd : ScopeData), S[a]? = some sd →
    ∀ p ∈ sd.values, ValOk S p.2

/-- Result invariant of C8: evaluation never reaches a panic (`stuck` — in
particular never the `expect("Resolver must set a valid depth")`), and a
success preserves the store invariant, extends the store, and yields a
well-formed value. -/
def ResOk (S : Store) (r : Res Val) : Prop :=
  r ≠ .stuck ∧ ∀ v S', r = .ok v S' → StoreOk S' ∧ Ext S S' ∧ ValOk S' v

/-- `ResOk` for argument lists. -/
def ResOkL (S : Store) (r : Res (List Val)) : Prop :=
  r ≠ .stuck ∧ ∀ vs S', r = .ok vs S' → StoreOk S' ∧ Ext S S' ∧ ∀ v ∈ vs, ValOk S' v

/-! ### Lexer lemmas -/

theorem Cursor.next_src_lt {c : Cursor} {x : Char} {c' : Cursor}
    (h : c.next = some (x, c')) : c'.src.length < c.src.length := by
  unfold Cursor.next at h
  rcases hs : c.src with _ | ⟨y, rest⟩ <;> rw [hs] at h
  · simp at h
  · by_cases hy : y = '\n' <;> simp [hy] at h <;> simp [hs, ← h.2]

theorem char_digit_not_ws {c : Char} (h : c.isDigit = true) : c.isWhitespace = false := by
  rcases hw : c.isWhitespace with _ | _
  · rfl
  · exfalso
    have hw' := hw
    simp [Char.isWhitespace] at hw'
    rcases hw' with ((rfl | rfl) | rfl) | rfl <;> exact absurd h (by decide)

theorem char_digit_not_alpha {c : Char} (h : c.isDigit = true) : c.isAlpha = false := by
  simp [Char.isDigit] at h
  simp [Char.isAlpha, Char.isUpper, Char.isLower]
  obtain ⟨h1, h2⟩ := h
  have n2 : c.val.toNat ≤ 57 := h2
  constructor
  · intro h65
    exact absurd (le_trans (show (65 : ℕ) ≤ c.val.toNat from h65) n2) (by omega)
  · intro h97
    exact absurd (le_trans (show (97 : ℕ) ≤ c.val.toNat from h97) n2) (by omega)

theorem Cursor.next_of_cons {c : Cursor} {x : Char} {rest : List Char}
    (h : c.src = x :: rest) : ∃ c', c.next = some (x, c') ∧ c'.src = rest := by
  rcases c with ⟨src, col, row, bol⟩
  simp only at h
  subst h
  by_cases hx : x = '\n' <;> simp [Cursor.next, hx]

theorem Cursor.eat_while_head_not {c : Cursor} {f : Char → Bool}
    (h : ∀ x rest, c.src = x :: rest → f x = false) : c.eat_while f = c := by
  unfold eat_while
  rcases hs : c.src with _ | ⟨x, rest⟩
  · simp [hs, eatGo]
  · obtain ⟨c', hnext, hsrc⟩ := next_of_cons hs
    simp [hs, eatGo, hnext, h x rest hs]

theorem Lexer.bufGo_spec (f : Char → Bool) :
    ∀ (n : Nat) (l : Lexer), l.cursor.src.length ≤ n →
      (Lexer.bufGo f n l).buf = l.buf ++ l.cursor.src.takeWhile f ∧
      (Lexer.bufGo f n l).cursor.src = l.cursor.src.dropWhile f := by
  intro n
  induction n with
  | zero =>
    intro l hl
    have hnil : l.cursor.src = [] := List.length_eq_zero.mp (Nat.le_zero.mp hl)
    simp [Lexer.bufGo, hnil]
  | succ n ih =>
    intro l hl
    rcases hs : l.cursor.src with _ | ⟨x, rest⟩
    · have hnone : l.cursor.next = none := by
        unfold Cursor.next
        simp [hs]
      simp [Lexer.bufGo, hnone, hs]
    · obtain ⟨c', hnext, hsrc⟩ := Cursor.next_of_cons hs
      by_cases hf : f x
      · have hlen : (⟨c', l.buf ++ [x]⟩ : Lexer).cursor.src.length ≤ n := by
          simp only [hsrc]
          have := hl
          rw [hs] at this
          simpa using Nat.le_of_succ_le_succ this
        obtain ⟨ihb, ihs⟩ := ih ⟨c', l.buf ++ [x]⟩ hlen
        constructor
        · simp only [Lexer.bufGo, hnext, hf, if_true, ihb]
          simp [hsrc, hs, List.takeWhile_cons_of_pos hf]
        · simp only [Lexer.bufGo, hnext, hf, if_true, ihs]
          simp [hsrc, hs, List.dropWhile_cons_of_pos hf]
      · simp [Lexer.bufGo, hnext, hf, hs, List.takeWhile_cons_of_neg, List.dropWhile_cons_of_neg]

theorem Lexer.buf_while_spec (f : Char → Bool) (l : Lexer) :
    (l.buf_while f).buf = l.buf ++ l.cursor.src.takeWhile f ∧
    (l.buf_while f).cursor.src = l.cursor.src.dropWhile f :=
  Lexer.bufGo_spec f l.cursor.src.length l le_rfl

theorem takeWhile_all_append {f : Char → Bool} {ip : List Char} (hip : ip.all f = true)
    {y : Char} (hy : f y = false) (t : List Char) :
    (ip ++ y :: t).takeWhile f = ip ∧ (ip ++ y :: t).dropWhile f = y :: t := by
  induction ip with
  | nil =>
    have hy' : ¬ (f y = true) := by simp [hy]
    simp [List.takeWhile_cons_of_neg hy', List.dropWhile_cons_of_neg hy']
  | cons a as ih =>
    simp only [List.all_cons, Bool.and_eq_true] at hip
    obtain ⟨ha, has⟩ := hip
    obtain ⟨iht, ihd⟩ := ih has
    simp [List.takeWhile_cons_of_pos ha, List.dropWhile_cons_of_pos ha, iht, ihd]

theorem parseNumList_digits {l : List Char} (hne : l ≠ []) (hd : l.all Char.isDigit = true) :
    parseNumList l = some ((natOfDigits l : ℚ)) := by
  have ht : l.takeWhile Char.isDigit = l := List.takeWhile_eq_self_iff.mpr (by
    intro a ha
    exact List.all_eq_true.mp hd a ha)
  have hdw : l.dropWhile Char.isDigit = [] := List.dropWhile_eq_nil_iff.mpr (by
    intro a ha
    exact List.all_eq_true.mp hd a ha)
  unfold parseNumList
  rw [hdw]
  simp [ht, hne]

theorem parseNumList_frac {ip fp : List Char} (hip : ip ≠ []) (hipd : ip.all Char.isDigit = true)
    (hfp : fp ≠ []) (hfpd : fp.all Char.isDigit = true) :
    parseNumList (ip ++ '.' :: fp) =
      some ((natOfDigits ip : ℚ) + (natOfDigits fp : ℚ) / (10 : ℚ) ^ fp.length) := by
  obtain ⟨h1, h2⟩ := takeWhile_all_append hipd (by decide : Char.isDigit '.' = false) fp
  unfold parseNumList
  rw [h2]
  simp [h1, hip, hfp, hfpd]

/-- The digit arm of `Lexer::next_raw` (via `charToken`): always yields a
`Number` token whose text is the digit run followed, when the character after
that run is a `'.'` immediately followed by a digit, by the `'.'` and the next
digit run. -/
theorem charToken_digit {c : Char} (hc : c.isDigit = true) (l : Lexer) :
    ∃ q l', Lexer.charToken c l = (.Number q, l') ∧
      parseNumList (c :: (numeralSplit l.cursor.src).1) = some q ∧
      l'.cursor.src = (numeralSplit l.cursor.src).2 := by
  have hipall : (l.cursor.src.takeWhile Char.isDigit).all Char.isDigit = true :=
    List.all_eq_true.mpr (fun a ha => List.mem_takeWhile_imp ha)
  have hp2 : parseNumList (c :: l.cursor.src.takeWhile Char.isDigit)
      = some ((natOfDigits (c :: l.cursor.src.takeWhile Char.isDigit) : ℚ)) :=
    parseNumList_digits (by simp) (by simp [hc, hipall])
  unfold Lexer.charToken
  rw [if_neg (by rintro rfl; exact absurd hc (by decide)),
      if_neg (by rintro rfl; exact absurd hc (by decide)),
      if_neg (by rintro rfl; exact absurd hc (by decide)),
      if_neg (by rintro rfl; exact absurd hc (by decide)),
      if_neg (by rintro rfl; exact absurd hc (by decide)),
      if_neg (by rintro rfl; exact absurd hc (by decide)),
      if_neg (by rintro rfl; exact absurd hc (by decide)),
      if_neg (by rintro rfl; exact absurd hc (by decide)),
      if_neg (by rintro rfl; exact absurd hc (by decide)),
      if_neg (by rintro rfl; exact absurd hc (by decide)),
      if_neg (by rintro rfl; exact absurd hc (by decide)),
      if_neg (by rintro rfl; exact absurd hc (by decide)),
      if_neg (by rintro rfl; exact absurd hc (by decide)),
      if_neg (by rintro rfl; exact absurd hc (by decide)),
      if_neg (by rintro rfl; exact absurd hc (by decide)),
      if_neg (by rintro rfl; exact absurd hc (by decide)),
      if_neg (by
        intro h
        rw [char_digit_not_alpha hc, Bool.false_or, decide_eq_true_eq] at h
        subst h
        exact absurd hc (by decide)),
      if_pos hc]
  set L1 := Lexer.buf_while ⟨l.cursor, [c]⟩ Char.isDigit with hL1
  obtain ⟨hb1, hs1⟩ := Lexer.buf_while_spec Char.isDigit ⟨l.cursor, [c]⟩
  rw [← hL1] at hb1 hs1
  simp only at hb1 hs1
  rcases hdw : l.cursor.src.dropWhile Char.isDigit with _ | ⟨y, _ | ⟨d, t⟩⟩
  · -- nothing after the digit run
    rw [hdw] at hs1
    have hpeek : L1.cursor.peek = none := by unfold Cursor.peek; rw [hs1]; rfl
    refine ⟨((natOfDigits (c :: l.cursor.src.takeWhile Char.isDigit) : ℚ)), L1, ?_, ?_, ?_⟩
    · simp only [hpeek, Option.any_none, Bool.false_and, Bool.false_eq_true, if_false,
        hb1, List.singleton_append, hp2]
    · unfold numeralSplit
      rw [hdw]
      simp only [hp2]
    · unfold numeralSplit
      rw [hdw]
      exact hs1
  · -- exactly one character after the digit run
    rw [hdw] at hs1
    have hsnd : L1.cursor.peek_snd = none := by unfold Cursor.peek_snd; rw [hs1]; rfl
    refine ⟨((natOfDigits (c :: l.cursor.src.takeWhile Char.isDigit) : ℚ)), L1, ?_, ?_, ?_⟩
    · simp only [hsnd, Option.any_none, Bool.and_false, Bool.false_eq_true, if_false,
        hb1, List.singleton_append, hp2]
    · unfold numeralSplit
      rw [hdw]
      simp only [hp2]
    · unfold numeralSplit
      rw [hdw]
      exact hs1
  · rw [hdw] at hs1
    have hpeek : L1.cursor.peek = some y := by unfold Cursor.peek; rw [hs1]; rfl
    have hsnd : L1.cursor.peek_snd = some d := by unfold Cursor.peek_snd; rw [hs1]; simp
    by_cases hcond : y = '.' ∧ d.isDigit = true
    · obtain ⟨rfl, hdd⟩ := hcond
      -- the dot is consumed together with the following digit run
      obtain ⟨c2, hnext, hc2⟩ := @Cursor.next_of_cons _ '.' (d :: t) hs1
      obtain ⟨hb2, hs2⟩ := Lexer.buf_while_spec Char.isDigit ⟨c2, L1.buf ++ ['.']⟩
      simp only [hc2] at hb2 hs2
      have htw : (d :: t).takeWhile Char.isDigit = d :: t.takeWhile Char.isDigit :=
        List.takeWhile_cons_of_pos hdd
      have hfpall : ((d :: t).takeWhile Char.isDigit).all Char.isDigit = true :=
        List.all_eq_true.mpr (fun a ha => List.mem_takeWhile_imp ha)
      have hbuf2 : (Lexer.buf_while ⟨c2, L1.buf ++ ['.']⟩ Char.isDigit).buf
          = (c :: l.cursor.src.takeWhile Char.isDigit) ++ '.' :: (d :: t).takeWhile Char.isDigit := by
        rw [hb2, hb1]
        simp
      have hparse : parseNumList ((c :: l.cursor.src.takeWhile Char.isDigit)
            ++ '.' :: (d :: t).takeWhile Char.isDigit)
          = some ((natOfDigits (c :: l.cursor.src.takeWhile Char.isDigit) : ℚ)
              + (natOfDigits ((d :: t).takeWhile Char.isDigit) : ℚ)
                / (10 : ℚ) ^ ((d :: t).takeWhile Char.isDigit).length) :=
        parseNumList_frac (by simp) (by simp [hc, hipall]) (by simp [htw]) hfpall
      refine ⟨(natOfDigits (c :: l.cursor.src.takeWhile Char.isDigit) : ℚ)
          + (natOfDigits ((d :: t).takeWhile Char.isDigit) : ℚ)
            / (10 : ℚ) ^ ((d :: t).takeWhile Char.isDigit).length,
        Lexer.buf_while ⟨c2, L1.buf ++ ['.']⟩ Char.isDigit, ?_, ?_, ?_⟩
      · have hcondtrue : (L1.cursor.peek.any (fun x => x = '.')
            && L1.cursor.peek_snd.any Char.isDigit) = true := by
          rw [hpeek, hsnd]
          simp [hdd]
        simp only [hcondtrue, if_true, hnext, hbuf2, hparse]
      · unfold numeralSplit
        rw [hdw]
        have hassoc : c :: (l.cursor.src.takeWhile Char.isDigit
              ++ '.' :: (d :: t).takeWhile Char.isDigit)
            = (c :: l.cursor.src.takeWhile Char.isDigit)
              ++ '.' :: (d :: t).takeWhile Char.isDigit := by simp
        simp only [eq_self_iff_true, hdd, and_self, if_true, true_and, hassoc, hparse]
      · unfold numeralSplit
        rw [hdw]
        simp only [eq_self_iff_true, hdd, and_self, if_true, true_and]
        exact hs2
    · -- no dot, or the character after the dot is not a digit
      have hcondb : (L1.cursor.peek.any (fun x => x = '.')
          && L1.cursor.peek_snd.any Char.isDigit) = false := by
        rw [hpeek, hsnd]
        simp only [Option.any_some]
        rcases Decidable.em (y = '.') with hy | hy
        · subst hy
          rcases hd2 : d.isDigit with _ | _
          · simp
          · exact absurd ⟨rfl, hd2⟩ hcond
        · simp [hy]
      refine ⟨((natOfDigits (c :: l.cursor.src.takeWhile Char.isDigit) : ℚ)), L1, ?_, ?_, ?_⟩
      · simp only [hcondb, Bool.false_eq_true, if_false, hb1, List.singleton_append, hp2]
      · unfold numeralSplit
        rw [hdw]
        simp only [hcond, if_false]
        simp only [hp2]
      · unfold numeralSplit
        rw [hdw]
        simp only [hcond, if_false]
        exact hs1

theorem keywordLookup_ne_panic (s : String) : (keywordLookup s).getD (.Ident s) ≠ .lexPanic := by
  unfold keywordLookup keywordTable
  simp only [List.lookup]
  repeat' split
  all_goals simp

/-- No arm of the classification in `Lexer::next_raw` can produce the panic
marker: in particular the digit arm's `buf.parse().unwrap()` always succeeds. -/
theorem charToken_ne_panic (c : Char) (l : Lexer) :
    (Lexer.charToken c l).1 ≠ .lexPanic := by
  by_cases hc : c.isDigit = true
  · obtain ⟨q, l', heq, _, _⟩ := charToken_digit hc l
    rw [heq]
    simp
  · unfold Lexer.charToken
    by_cases h1 : c = '('
    · rw [if_pos h1]; simp
    rw [if_neg h1]
    by_cases h2 : c = ')'
    · rw [if_pos h2]; simp
    rw [if_neg h2]
    by_cases h3 : c = '{'
    · rw [if_pos h3]; simp
    rw [if_neg h3]
    by_cases h4 : c = '}'
    · rw [if_pos h4]; simp
    rw [if_neg h4]
    by_cases h5 : c = ','
    · rw [if_pos h5]; simp
    rw [if_neg h5]
    by_cases h6 : c = '.'
    · rw [if_pos h6]; simp
    rw [if_neg h6]
    by_cases h7 : c = '-'
    · rw [if_pos h7]; simp
    rw [if_neg h7]
    by_cases h8 : c = '+'
    · rw [if_pos h8]; simp
    rw [if_neg h8]
    by_cases h9 : c = ';'
    · rw [if_pos h9]; simp
    rw [if_neg h9]
    by_cases h10 : c = '*'
    · rw [if_pos h10]; simp
    rw [if_neg h10]
    by_cases h11 : c = '!'
    · rw [if_pos h11]
      rcases hni : l.cursor.next_if (fun x => x = '=') with ⟨_ | _, c'⟩ <;> simp [hni]
    rw [if_neg h11]
    by_cases h12 : c = '='
    · rw [if_pos h12]
      rcases hni : l.cursor.next_if (fun x => x = '=') with ⟨_ | _, c'⟩ <;> simp [hni]
    rw [if_neg h12]
    by_cases h13 : c = '<'
    · rw [if_pos h13]
      rcases hni : l.cursor.next_if (fun x => x = '=') with ⟨_ | _, c'⟩ <;> simp [hni]
    rw [if_neg h13]
    by_cases h14 : c = '>'
    · rw [if_pos h14]
      rcases hni : l.cursor.next_if (fun x => x = '=') with ⟨_ | _, c'⟩ <;> simp [hni]
    rw [if_neg h14]
    by_cases h15 : c = '/'
    · rw [if_pos h15]
      rcases hni : l.cursor.next_if (fun x => x = '/') with ⟨_ | _, c'⟩ <;> simp [hni]
    rw [if_neg h15]
    by_cases h16 : c = '"'
    · rw [if_pos h16]
      rcases hni : (Lexer.buf_while ⟨l.cursor, []⟩ (fun x => !(x = '"'))).cursor.next_if
          (fun x => x = '"') with ⟨_ | _, c'⟩ <;> simp [hni]
    rw [if_neg h16]
    by_cases h17 : (c.isAlpha || decide (c = '_')) = true
    · rw [if_pos h17]
      exact keywordLookup_ne_panic _
    rw [if_neg h17]
    rw [if_neg hc]
    simp

/-- The digit-scan behaviour of `Lexer::next_raw` on any input whose next
character is a digit: the produced token is a `Number` located at the cursor
position, its text is described by `numeralSplit`, and the remaining stream is
`numeralSplit`'s second component. -/
theorem next_raw_digit {l : Lexer} {c : Char} {rest : List Char}
    (hsrc : l.cursor.src = c :: rest) (hc : c.isDigit = true) :
    ∃ q l', Lexer.next_raw l = some (⟨.Number q, l.cursor.loc⟩, l') ∧
      parseNumList (c :: (numeralSplit rest).1) = some q ∧
      l'.cursor.src = (numeralSplit rest).2 := by
  have heat : l.cursor.eat_while Char.isWhitespace = l.cursor :=
    Cursor.eat_while_head_not (by
      intro x r hx
      rw [hsrc] at hx
      cases hx
      exact char_digit_not_ws hc)
  obtain ⟨c1, hnext, hc1⟩ := Cursor.next_of_cons hsrc
  obtain ⟨q, l', hct, hq, hrest⟩ := charToken_digit hc ⟨c1, l.buf⟩
  simp only [hc1] at hq hrest
  refine ⟨q, l', ?_, hq, hrest⟩
  unfold Lexer.next_raw
  rw [heat]
  simp only [hnext, hct]

theorem tokensF_kind_sound (P : TokKind → Prop)
    (hP : ∀ l t l', Lexer.next_raw l = some (t, l') → P t.kind) :
    ∀ (n : Nat) (l : Lexer) (t : Token), t ∈ Lexer.tokensF n l → P t.kind := by
  intro n
  induction n with
  | zero => intro l t ht; simp [Lexer.tokensF] at ht
  | succ n ih =>
    intro l t ht
    unfold Lexer.tokensF at ht
    rcases hn : Lexer.next_raw l with _ | ⟨t', l'⟩ <;> simp only [hn] at ht
    · simp at ht
    · by_cases hcm : t'.kind = .Comment
      · rw [if_pos hcm] at ht
        exact ih l' t ht
      · rw [if_neg hcm] at ht
        rcases List.mem_cons.mp ht with rfl | hmem
        · exact hP l t l' hn
        · exact ih l' t hmem

/-! ### Resolver lemmas -/

theorem findScope_some {scopes : List RMap} {x : String} :
    ∀ {j : Nat} {m : RMap}, scopes.get? j = some m → (rlookup m x).isSome = true →
    (∀ k, k < j → ∀ mk, scopes.get? k = some mk → (rlookup mk x).isSome = false) →
    findScope scopes x = some j := by
  induction scopes with
  | nil => intro j m hj; simp at hj
  | cons m0 rest ih =>
    intro j m hj hm hk
    cases j with
    | zero =>
      simp only [List.get?_cons_zero, Option.some.injEq] at hj
      subst hj
      simp [findScope, hm]
    | succ j' =>
      have h0 : (rlookup m0 x).isSome = false := hk 0 (by omega) m0 rfl
      simp only [findScope, h0, Bool.false_eq_true, if_false]
      rw [ih (by simpa using hj) hm
        (fun k hkk mk hmk => hk (k + 1) (by omega) mk (by simpa using hmk))]
      rfl

theorem findScope_none {scopes : List RMap} {x : String}
    (h : ∀ m ∈ scopes, (rlookup m x).isSome = false) : findScope scopes x = none := by
  induction scopes with
  | nil => rfl
  | cons m0 rest ih =>
    simp only [findScope, h m0 (by simp), Bool.false_eq_true, if_false]
    rw [ih (fun m hm => h m (by simp [hm]))]
    rfl

theorem resolve_local_name (r : Resolver) (v : Variable) :
    (r.resolve_local v).name = v.name := by
  unfold Resolver.resolve_local
  rcases findScope r.scopes v.name with _ | i <;> rfl

theorem resolve_local_idem (r : Resolver) (v : Variable) :
    r.resolve_local (r.resolve_local v) = r.resolve_local v := by
  unfold Resolver.resolve_local
  rcases h : findScope r.scopes v.name with _ | i
  · simp [h]
  · simp [h]

/-- Idempotence of expression resolution: a second pass over an
already-resolved expression, from the same resolver state, reproduces it. -/
theorem resolveExpr_idem_aux : ∀ n : Nat,
    (∀ e : Expr, sizeOf e < n → ∀ (r : Resolver) (e' : Expr),
      resolveExpr r e = .ok e' → resolveExpr r e' = .ok e') ∧
    (∀ es : List Expr, sizeOf es < n → ∀ (r : Resolver) (es' : List Expr),
      resolveExprList r es = .ok es' → resolveExprList r es' = .ok es') := by
  intro n
  induction n with
  | zero => exact ⟨fun e he => absurd he (by omega), fun es he => absurd he (by omega)⟩
  | succ n ih =>
    constructor
    · intro e he r e' h
      cases e
      case Asgn v a =>
        simp only [resolveExpr] at h
        rcases ha : resolveExpr r a with ea | a' <;> rw [ha] at h
        · simp at h
        · cases h
          have h1 := ih.1 a (by simp at he; omega) r a' ha
          simp only [resolveExpr, h1, resolve_local_idem]
      case Call c args =>
        simp only [resolveExpr] at h
        rcases hc : resolveExpr r c with ec | c' <;> rw [hc] at h
        · simp at h
        · rcases hargs : resolveExprList r args with ea | args' <;> rw [hargs] at h
          · simp at h
          · cases h
            have h1 := ih.1 c (by simp at he; omega) r c' hc
            have h2 := ih.2 args (by simp at he; omega) r args' hargs
            simp only [resolveExpr, h1, h2]
      case Not a =>
        simp only [resolveExpr] at h
        rcases ha : resolveExpr r a with ea | a' <;> rw [ha] at h
        · simp at h
        · cases h
          have h1 := ih.1 a (by simp at he; omega) r a' ha
          simp only [resolveExpr, h1]
      case Opp a =>
        simp only [resolveExpr] at h
        rcases ha : resolveExpr r a with ea | a' <;> rw [ha] at h
        · simp at h
        · cases h
          have h1 := ih.1 a (by simp at he; omega) r a' ha
          simp only [resolveExpr, h1]
      case Lit v =>
        simp only [resolveExpr] at h
        cases h
        simp [resolveExpr]
      case Var v =>
        simp only [resolveExpr] at h
        by_cases hcheck : (r.scopes.head?.bind fun sc => rlookup sc v.name) = some false
        · rw [if_pos hcheck] at h
          cases h
        · rw [if_neg hcheck] at h
          cases h
          simp only [resolveExpr]
          rw [if_neg (by rwa [resolve_local_name])]
          rw [resolve_local_idem]
      all_goals (
        rename_i l rr
        simp only [resolveExpr] at h
        rcases hl : resolveExpr r l with el | l' <;> rw [hl] at h
        · simp at h
        · rcases hr : resolveExpr r rr with er | r' <;> rw [hr] at h
          · simp at h
          · cases h
            have h1 := ih.1 l (by simp at he; omega) r l' hl
            have h2 := ih.1 rr (by simp at he; omega) r r' hr
            simp only [resolveExpr, h1, h2])
    · intro es he r es' h
      cases es with
      | nil =>
        simp only [resolveExprList] at h
        cases h
        simp [resolveExprList]
      | cons a rest =>
        simp only [resolveExprList] at h
        rcases ha : resolveExpr r a with ea | a' <;> rw [ha] at h
        · simp at h
        · rcases hrest : resolveExprList r rest with er | rest' <;> rw [hrest] at h
          · simp at h
          · cases h
            have h1 := ih.1 a (by simp at he; omega) r a' ha
            have h2 := ih.2 rest (by simp at he; omega) r rest' hrest
            simp only [resolveExprList, h1, h2]

theorem resolveExpr_idem {r : Resolver} {e e' : Expr}
    (h : resolveExpr r e = .ok e') : resolveExpr r e' = .ok e' :=
  (resolveExpr_idem_aux (sizeOf e + 1)).1 e (by omega) r e' h

/-- Idempotence of statement resolution: a second pass over the resolved
statement, starting from the same resolver state, reproduces both the
statement and the final state. -/
theorem resolveStmt_idem_aux : ∀ n : Nat,
    (∀ s : Stmt, sizeOf s < n → ∀ (r : Resolver) (s' : Stmt) (r2 : Resolver),
      resolveStmt r s = .ok (s', r2) → resolveStmt r s' = .ok (s', r2)) ∧
    (∀ ss : List Stmt, sizeOf ss < n → ∀ (r : Resolver) (ss' : List Stmt) (r2 : Resolver),
      resolveStmtList r ss = .ok (ss', r2) → resolveStmtList r ss' = .ok (ss', r2)) := by
  intro n
  induction n with
  | zero => exact ⟨fun s hs => absurd hs (by omega), fun ss hs => absurd hs (by omega)⟩
  | succ n ih =>
    constructor
    · intro s hs r s' r2 h
      cases s
      case Block body =>
        simp only [resolveStmt] at h
        rcases hb : resolveStmtList r.begin_scope body with e | ⟨body', r2'⟩ <;>
          simp only [hb] at h
        · cases h
        · have h1 := ih.2 body (by simp at hs; omega) r.begin_scope body' r2' hb
          cases h
          simp only [resolveStmt, h1]
      case Expr e =>
        simp only [resolveStmt] at h
        rcases he : resolveExpr r e with err | e1 <;> simp only [he] at h
        · cases h
        · have h1 := resolveExpr_idem he
          cases h
          simp only [resolveStmt, h1]
      case Print e =>
        simp only [resolveStmt] at h
        rcases he : resolveExpr r e with err | e1 <;> simp only [he] at h
        · cases h
        · have h1 := resolveExpr_idem he
          cases h
          simp only [resolveStmt, h1]
      case Decl v init =>
        simp only [resolveStmt] at h
        rcases hd : r.declare v with e1 | r1 <;> simp only [hd] at h
        · cases h
        · rcases init with _ | e
          · simp only [resolveDeclInit] at h
            cases h
            simp only [resolveStmt, hd, resolveDeclInit]
          · simp only [resolveDeclInit] at h
            rcases hre : resolveExpr r1 e with err | e1 <;> simp only [hre] at h
            · cases h
            · have h1 := resolveExpr_idem hre
              cases h
              simp only [resolveStmt, hd, resolveDeclInit, h1]
      case If cond thenB elseB =>
        simp only [resolveStmt] at h
        rcases hc : resolveExpr r cond with err | cond' <;> simp only [hc] at h
        · cases h
        · rcases ht : resolveStmt r thenB with err | ⟨then', r1⟩ <;> simp only [ht] at h
          · cases h
          · have h1 := ih.1 thenB (by simp at hs; omega) r then' r1 ht
            have hcidem := resolveExpr_idem hc
            rcases elseB with _ | eb
            · simp only [resolveElse] at h
              cases h
              simp only [resolveStmt, hcidem, h1, resolveElse]
            · simp only [resolveElse] at h
              rcases heb : resolveStmt r1 eb with err | ⟨eb', r2'⟩ <;> simp only [heb] at h
              · cases h
              · have h2 := ih.1 eb (by simp at hs; omega) r1 eb' r2' heb
                cases h
                simp only [resolveStmt, hcidem, h1, resolveElse, h2]
      case While cond body =>
        simp only [resolveStmt] at h
        rcases hc : resolveExpr r cond with err | cond' <;> simp only [hc] at h
        · cases h
        · rcases hb : resolveStmt r body with err | ⟨body', r1⟩ <;> simp only [hb] at h
          · cases h
          · have h1 := ih.1 body (by simp at hs; omega) r body' r1 hb
            have hcidem := resolveExpr_idem hc
            cases h
            simp only [resolveStmt, hcidem, h1]
      case Func name params body =>
        simp only [resolveStmt] at h
        rcases hb : resolveStmt (params.foldl (fun acc p => acc.define p)
            (Resolver.begin_scope ⟨(Resolver.define r name).scopes, .Function⟩)) body
          with err | ⟨body', r5⟩ <;> simp only [hb] at h
        · cases h
        · have h1 := ih.1 body (by simp at hs; omega) _ body' r5 hb
          cases h
          simp only [resolveStmt, h1]
      case Return ret =>
        simp only [resolveStmt] at h
        by_cases hcf : r.curr_function = .None
        · rw [if_pos hcf] at h
          cases h
        · rw [if_neg hcf] at h
          rcases ret with _ | e
          · simp only [resolveRet] at h
            cases h
            simp only [resolveStmt, if_neg hcf, resolveRet]
          · simp only [resolveRet] at h
            rcases hre : resolveExpr r e with err | e1 <;> simp only [hre] at h
            · cases h
            · have h1 := resolveExpr_idem hre
              cases h
              simp only [resolveStmt, if_neg hcf, resolveRet, h1]
    · intro ss hs r ss' r2 h
      cases ss with
      | nil =>
        simp only [resolveStmtList] at h
        cases h
        simp [resolveStmtList]
      | cons s rest =>
        simp only [resolveStmtList] at h
        rcases h1 : resolveStmt r s with err | ⟨s', r1⟩ <;> simp only [h1] at h
        · cases h
        · rcases h2 : resolveStmtList r1 rest with err | ⟨rest', r2'⟩ <;> simp only [h2] at h
          · cases h
          · have i1 := ih.1 s (by simp at hs; omega) r s' r1 h1
            have i2 := ih.2 rest (by simp at hs; omega) r1 rest' r2' h2
            cases h
            simp only [resolveStmtList, i1, i2]

/-- The C3/C7/C8 example program `{ let x = 1; { x; } }` (inner variable still
unresolved), and its resolution: the inner `x` gets depth 1. -/
theorem resolveProg_example :
    resolveProg ⟨[.Block [.Decl "x" (some (.Lit (.Number 1))),
        .Block [.Expr (.Var ⟨"x", -1⟩)]]]⟩ =
      .ok ⟨[.Block [.Decl "x" (some (.Lit (.Number 1))),
        .Block [.Expr (.Var ⟨"x", 1⟩)]]]⟩ := by
  simp [resolveProg, resolveStmtList, resolveStmt, resolveExpr, resolveDeclInit,
    resolveElse, resolveRet, Resolver.new, Resolver.declare, Resolver.define,
    Resolver.begin_scope, Resolver.end_scope, Resolver.resolve_local, findScope,
    rlookup, rinsert, List.lookup]

/-! ### Parser lemmas (parameter and argument limits) -/

theorem parseParamsLoop_step (f : Nat) (acc : List String) (n : String) (l : Loc)
    (rest : List Token) (hok : ¬ (acc ++ [n]).length > 255) :
    parseParamsLoop (f + 1) acc (⟨.Comma, ⟨0, 0⟩⟩ :: ⟨.Ident n, l⟩ :: rest) =
      parseParamsLoop f (acc ++ [n]) rest := by
  simp only [parseParamsLoop, tnext_if]
  rw [if_pos (by simp)]
  simp only [consume_ident]
  rw [if_neg hok]

theorem parseParamsLoop_trip (f : Nat) (acc : List String) (n : String) (l : Loc)
    (rest : List Token) (hfull : (acc ++ [n]).length > 255) :
    parseParamsLoop (f + 1) acc (⟨.Comma, ⟨0, 0⟩⟩ :: ⟨.Ident n, l⟩ :: rest) =
      .err (.TooManyParams l) := by
  simp only [parseParamsLoop, tnext_if]
  rw [if_pos (by simp)]
  simp only [consume_ident]
  rw [if_pos hfull]

theorem parseParamsLoop_ok (tail : List Token) (rl : Loc) :
    ∀ (ps : List (String × Loc)) (fuel : Nat) (acc : List String),
      ps.length + 1 ≤ fuel → acc.length + ps.length ≤ 255 →
      parseParamsLoop fuel acc (paramTail ps ++ ⟨.RParen, rl⟩ :: tail) =
        .ok (acc ++ ps.map Prod.fst) (⟨.RParen, rl⟩ :: tail) := by
  intro ps
  induction ps with
  | nil =>
    intro fuel acc hf hlen
    obtain ⟨f, rfl⟩ : ∃ f, fuel = f + 1 := ⟨fuel - 1, by omega⟩
    simp [parseParamsLoop, paramTail, tnext_if]
  | cons p rest ih =>
    intro fuel acc hf hlen
    obtain ⟨f, rfl⟩ : ∃ f, fuel = f + 1 := ⟨fuel - 1, by omega⟩
    rcases p with ⟨n, l⟩
    have hf' : rest.length + 1 ≤ f := by
      simp only [List.length_cons] at hf
      omega
    have hlen' : (acc ++ [n]).length + rest.length ≤ 255 := by
      simp only [List.length_cons] at hlen
      simp only [List.length_append, List.length_singleton]
      omega
    simp only [paramTail, List.cons_append]
    rw [parseParamsLoop_step f acc n l _ (by omega)]
    rw [ih f (acc ++ [n]) hf' hlen']
    simp

theorem parseParamsLoop_err (tail : List Token) (rl : Loc) :
    ∀ (ps : List (String × Loc)) (fuel : Nat) (acc : List String),
      ps.length + 1 ≤ fuel → acc.length ≤ 255 → 255 < acc.length + ps.length →
      ∃ n l, ps.get? (255 - acc.length) = some (n, l) ∧
        parseParamsLoop fuel acc (paramTail ps ++ ⟨.RParen, rl⟩ :: tail) =
          .err (.TooManyParams l) := by
  intro ps
  induction ps with
  | nil =>
    intro fuel acc hf hacc hlen
    exfalso
    simp only [List.length_nil] at hlen
    omega
  | cons p rest ih =>
    intro fuel acc hf hacc hlen
    obtain ⟨f, rfl⟩ : ∃ f, fuel = f + 1 := ⟨fuel - 1, by omega⟩
    rcases p with ⟨n, l⟩
    by_cases hfull : acc.length = 255
    · refine ⟨n, l, ?_, ?_⟩
      · rw [hfull]
        simp
      · simp only [paramTail, List.cons_append]
        exact parseParamsLoop_trip f acc n l _ (by simp; omega)
    · have hlt : acc.length < 255 := by omega
      have hf' : rest.length + 1 ≤ f := by
        simp only [List.length_cons] at hf
        omega
      obtain ⟨n', l', hget, heq⟩ := ih f (acc ++ [n]) hf'
        (by simp; omega)
        (by simp only [List.length_cons] at hlen; simp; omega)
      refine ⟨n', l', ?_, ?_⟩
      · have hidx : 255 - acc.length = (255 - (acc ++ [n]).length) + 1 := by
          simp only [List.length_append, List.length_singleton]
          omega
        rw [hidx]
        simpa using hget
      · simp only [paramTail, List.cons_append]
        rw [parseParamsLoop_step f acc n l _ (by simp; omega)]
        exact heq

theorem parseParams_spec (ps : List (String × Loc)) (fuel : Nat) (tail : List Token)
    (rl : Loc) (hf : ps.length + 1 ≤ fuel) :
    (ps.length ≤ 255 →
      parseParams fuel (paramToks ps ++ ⟨.RParen, rl⟩ :: tail) =
        .ok (ps.map Prod.fst) (⟨.RParen, rl⟩ :: tail)) ∧
    (255 < ps.length →
      ∃ n l, ps.get? 255 = some (n, l) ∧
        parseParams fuel (paramToks ps ++ ⟨.RParen, rl⟩ :: tail) =
          .err (.TooManyParams l)) := by
  rcases ps with _ | ⟨⟨n, l⟩, rest⟩
  · exact ⟨fun _ => by simp [paramToks, parseParams], fun h => by simp at h⟩
  · have hf' : rest.length + 1 ≤ fuel := by
      simp only [List.length_cons] at hf
      omega
    constructor
    · intro hlen
      simp only [paramToks, List.cons_append, parseParams, List.head?_cons]
      rw [if_neg (by simp)]
      simp only [consume_ident]
      rw [parseParamsLoop_ok tail rl rest fuel [n] hf'
        (by simp only [List.length_cons] at hlen; simp; omega)]
      simp
    · intro hlen
      obtain ⟨n', l', hget, heq⟩ := parseParamsLoop_err tail rl rest fuel [n]
        hf' (by simp) (by simp only [List.length_cons] at hlen; simp; omega)
      refine ⟨n', l', by simpa using hget, ?_⟩
      simp only [paramToks, List.cons_append, parseParams, List.head?_cons]
      rw [if_neg (by simp)]
      simp only [consume_ident]
      exact heq

/-- A well-behaved argument chunk for fuel bound `F`: a nonempty token列
that does not begin with `)` and parses (with any fuel at least `F`) to its
expression, consuming exactly itself, whenever the continuation starts with a
`,` or a `)` — which is always the case inside an argument list. -/
def ChunkOk (F : Nat) (p : ArgChunk) : Prop :=
  p.1 ≠ [] ∧ (∀ t ts, p.1 = t :: ts → t.kind ≠ .RParen) ∧
  ∀ f, F ≤ f → ∀ rest, sepHead rest → parseAsgn f (p.1 ++ rest) = .ok p.2 rest

theorem sepHead_argTail (ps : List ArgChunk) (rl : Loc) (tail : List Token) :
    sepHead (argTail ps ++ ⟨.RParen, rl⟩ :: tail) := by
  rcases ps with _ | ⟨p, rest⟩ <;> simp [argTail, sepHead]

theorem parseArgsLoop_ok (F : Nat) (tail : List Token) (rl : Loc) :
    ∀ (ps : List ArgChunk) (fuel : Nat) (acc : List Expr),
      (∀ p ∈ ps, ChunkOk F p) →
      F + ps.length + 1 ≤ fuel →
      acc.length + ps.length ≤ 255 →
      parseArgsLoop fuel acc (argTail ps ++ ⟨.RParen, rl⟩ :: tail) =
        .ok (acc ++ ps.map Prod.snd) (⟨.RParen, rl⟩ :: tail) := by
  intro ps
  induction ps with
  | nil =>
    intro fuel acc hok hf hlen
    obtain ⟨f, rfl⟩ : ∃ f, fuel = f + 1 := ⟨fuel - 1, by omega⟩
    simp [parseArgsLoop, argTail, tnext_if]
  | cons p rest ih =>
    intro fuel acc hok hf hlen
    obtain ⟨f, rfl⟩ : ∃ f, fuel = f + 1 := ⟨fuel - 1, by omega⟩
    obtain ⟨hne, hhead, hparse⟩ := hok p (by simp)
    have hstream : argTail (p :: rest) ++ ⟨.RParen, rl⟩ :: tail
        = ⟨.Comma, ⟨0, 0⟩⟩ :: (p.1 ++ (argTail rest ++ ⟨.RParen, rl⟩ :: tail)) := by
      simp [argTail]
    rw [hstream]
    simp only [parseArgsLoop, tnext_if]
    rw [if_pos (by simp)]
    simp only [hparse f (by simp only [List.length_cons] at hf; omega) _
      (sepHead_argTail rest rl tail)]
    rw [if_neg (by
      simp only [List.length_append, List.length_singleton, List.length_cons, List.length_nil] at hlen ⊢
      omega)]
    rw [ih f (acc ++ [p.2]) (fun x hx => hok x (by simp [hx]))
      (by simp only [List.length_cons] at hf; omega)
      (by simp only [List.length_append, List.length_singleton, List.length_cons, List.length_nil] at hlen ⊢
          omega)]
    simp

theorem parseArgsLoop_err (F : Nat) (tail : List Token) (rl : Loc) :
    ∀ (ps : List ArgChunk) (fuel : Nat) (acc : List Expr),
      (∀ p ∈ ps, ChunkOk F p) →
      F + ps.length + 1 ≤ fuel →
      acc.length ≤ 255 → 255 < acc.length + ps.length →
      ∃ p t0 ts, ps.get? (255 - acc.length) = some p ∧ p.1 = t0 :: ts ∧
        parseArgsLoop fuel acc (argTail ps ++ ⟨.RParen, rl⟩ :: tail) =
          .err (.TooManyArgs t0.loc) := by
  intro ps
  induction ps with
  | nil =>
    intro fuel acc hok hf hacc hlen
    exfalso
    simp only [List.length_nil] at hlen
    omega
  | cons p rest ih =>
    intro fuel acc hok hf hacc hlen
    obtain ⟨f, rfl⟩ : ∃ f, fuel = f + 1 := ⟨fuel - 1, by omega⟩
    obtain ⟨hne, hhead, hparse⟩ := hok p (by simp)
    rcases hp1 : p.1 with _ | ⟨t0, ts⟩
    · exact absurd hp1 hne
    have hstream : argTail (p :: rest) ++ ⟨.RParen, rl⟩ :: tail
        = ⟨.Comma, ⟨0, 0⟩⟩ :: (p.1 ++ (argTail rest ++ ⟨.RParen, rl⟩ :: tail)) := by
      simp [argTail]
    by_cases hfull : acc.length = 255
    · refine ⟨p, t0, ts, by rw [hfull]; simp, hp1, ?_⟩
      rw [hstream]
      simp only [parseArgsLoop, tnext_if]
      rw [if_pos (by simp)]
      simp only [hparse f (by simp only [List.length_cons] at hf; omega) _
        (sepHead_argTail rest rl tail)]
      rw [if_pos (by simp; omega)]
      rw [hp1]
      simp
    · have hlt : acc.length < 255 := by omega
      obtain ⟨p', t0', ts', hget, hp1', heq⟩ := ih f (acc ++ [p.2])
        (fun x hx => hok x (by simp [hx]))
        (by simp only [List.length_cons] at hf; omega)
        (by simp; omega)
        (by simp only [List.length_cons] at hlen; simp; omega)
      refine ⟨p', t0', ts', ?_, hp1', ?_⟩
      · have hidx : 255 - acc.length = (255 - (acc ++ [p.2]).length) + 1 := by
          simp only [List.length_append, List.length_singleton]
          omega
        rw [hidx]
        simpa using hget
      · rw [hstream]
        simp only [parseArgsLoop, tnext_if]
        rw [if_pos (by simp)]
        simp only [hparse f (by simp only [List.length_cons] at hf; omega) _
          (sepHead_argTail rest rl tail)]
        rw [if_neg (by simp; omega)]
        exact heq

theorem parseArgs_spec (F : Nat) (ps : List ArgChunk) (fuel : Nat) (tail : List Token)
    (rl : Loc) (hok : ∀ p ∈ ps, ChunkOk F p) (hf : F + ps.length + 2 ≤ fuel) :
    (ps.length ≤ 255 →
      parseArgs fuel (argToks ps ++ ⟨.RParen, rl⟩ :: tail) =
        .ok (ps.map Prod.snd) (⟨.RParen, rl⟩ :: tail)) ∧
    (255 < ps.length →
      ∃ p t0 ts, ps.get? 255 = some p ∧ p.1 = t0 :: ts ∧
        parseArgs fuel (argToks ps ++ ⟨.RParen, rl⟩ :: tail) =
          .err (.TooManyArgs t0.loc)) := by
  obtain ⟨f, rfl⟩ : ∃ f, fuel = f + 1 := ⟨fuel - 1, by omega⟩
  rcases ps with _ | ⟨p, rest⟩
  · refine ⟨fun _ => by simp [argToks, parseArgs], fun h => by simp at h⟩
  · obtain ⟨hne, hhead, hparse⟩ := hok p (by simp)
    rcases hp1 : p.1 with _ | ⟨t0, ts⟩
    · exact absurd hp1 hne
    have hstream : argToks (p :: rest) ++ ⟨.RParen, rl⟩ :: tail
        = p.1 ++ (argTail rest ++ ⟨.RParen, rl⟩ :: tail) := by
      simp [argToks]
    have hfirst : parseAsgn f (p.1 ++ (argTail rest ++ ⟨.RParen, rl⟩ :: tail))
        = .ok p.2 (argTail rest ++ ⟨.RParen, rl⟩ :: tail) :=
      hparse f (by simp only [List.length_cons] at hf; omega) _
        (sepHead_argTail rest rl tail)
    have hup : parseArgs (f + 1) (argToks (p :: rest) ++ ⟨.RParen, rl⟩ :: tail)
        = parseArgsLoop f [p.2] (argTail rest ++ ⟨.RParen, rl⟩ :: tail) := by
      rw [hstream, hp1]
      simp only [parseArgs, List.cons_append, List.head?_cons]
      rw [if_neg (by simpa using hhead t0 ts hp1)]
      rw [← List.cons_append, ← hp1, hfirst]
    constructor
    · intro hlen
      rw [hup]
      rw [parseArgsLoop_ok F tail rl rest f [p.2]
        (fun x hx => hok x (by simp [hx]))
        (by simp only [List.length_cons] at hf; omega)
        (by simp only [List.length_cons] at hlen; simp; omega)]
      simp
    · intro hlen
      obtain ⟨p', t0', ts', hget, hp1', heq⟩ := parseArgsLoop_err F tail rl rest f [p.2]
        (fun x hx => hok x (by simp [hx]))
        (by simp only [List.length_cons] at hf; omega)
        (by simp)
        (by simp only [List.length_cons] at hlen; simp; omega)
      refine ⟨p', t0', ts', by simpa using hget, hp1', ?_⟩
      rw [hup]
      exact heq

/-- A number literal parses as an expression standing alone, for any fuel of
at least 8, whenever the continuation starts with `,` or `)`. -/
theorem parseAsgn_number (q : ℚ) (loc : Loc) :
    ∀ fuel, 8 ≤ fuel → ∀ rest, sepHead rest →
      parseAsgn fuel (⟨.Number q, loc⟩ :: rest) = .ok (.Lit (.Number q)) rest := by
  intro fuel hf rest hsep
  obtain ⟨k, rfl⟩ : ∃ k, fuel = k + 8 := ⟨fuel - 8, by omega⟩
  rcases hr : rest with _ | ⟨t0, ts⟩
  · rw [hr] at hsep
    simp [sepHead] at hsep
  · subst hr
    have ht0 : t0.kind = .Comma ∨ t0.kind = .RParen := by
      simpa [sepHead] using hsep
    rcases ht0 with h | h <;>
      simp [parseAsgn, parseLog, parseCmp, parseTerm, parseFactor, parseUnary, parseCall,
        parsePrimary, parseLogLoop, parseCmpLoop, parseTermLoop, parseFactorLoop,
        parseCallLoop, tnext_if, h]

/-! ### Claim theorems for the resolver -/

/-- C3: `resolve_local` walks the scope stack from innermost outward and sets
the reference's depth to the zero-based index (from the innermost scope) of
the first scope containing the name; when no scope contains it the reference
is left untouched, so a negative depth stays negative (global).  In the
program `{ let x = 1; { x; } }` the inner `Var(x)` resolves with depth 1. -/
theorem c3_resolve_local_depth :
    (∀ (r : Resolver) (v : Variable) (j : Nat) (m : RMap),
      r.scopes.get? j = some m → (rlookup m v.name).isSome = true →
      (∀ k, k < j → ∀ mk, r.scopes.get? k = some mk →
        (rlookup mk v.name).isSome = false) →
      r.resolve_local v = ⟨v.name, (j : Int)⟩) ∧
    (∀ (r : Resolver) (v : Variable),
      (∀ m ∈ r.scopes, (rlookup m v.name).isSome = false) →
      r.resolve_local v = v ∧ (v.depth < 0 → (r.resolve_local v).depth < 0)) ∧
    resolveProg ⟨[.Block [.Decl "x" (some (.Lit (.Number 1))),
        .Block [.Expr (.Var ⟨"x", -1⟩)]]]⟩ =
      .ok ⟨[.Block [.Decl "x" (some (.Lit (.Number 1))),
        .Block [.Expr (.Var ⟨"x", 1⟩)]]]⟩ := by
  refine ⟨?_, ?_, resolveProg_example⟩
  · intro r v j m hj hm hk
    unfold Resolver.resolve_local
    rw [findScope_some hj hm hk]
  · intro r v h
    have : r.resolve_local v = v := by
      unfold Resolver.resolve_local
      rw [findScope_none h]
    exact ⟨this, fun hneg => by rw [this]; exact hneg⟩

/-- Witness for C3: a reference to `x` from a scope stack whose innermost
scope binds only `y` and whose next scope binds `x` resolves to depth 1. -/
theorem c3_resolve_local_depth_witness :
    Resolver.resolve_local ⟨[[("y", true)], [("x", true)]], .None⟩ ⟨"x", -1⟩ =
      ⟨"x", (1 : Int)⟩ := by
  have h := c3_resolve_local_depth.1 ⟨[[("y", true)], [("x", true)]], .None⟩ ⟨"x", -1⟩
    1 [("x", true)] rfl (by decide)
    (by
      intro k hk mk hmk
      have hk0 : k = 0 := by omega
      subst hk0
      simp only [List.get?_cons_zero, Option.some.injEq] at hmk
      subst hmk
      decide)
  exact h

/-- C7: resolving is idempotent — running a fresh resolver over an AST the
resolver has already processed reproduces the AST unchanged (every `Var` and
`Assign` reference keeps the depth it already carries). -/
theorem c7_resolve_idempotent (p p' : Prog) (h : resolveProg p = .ok p') :
    resolveProg p' = .ok p' := by
  rcases p with ⟨stmts⟩
  rcases p' with ⟨stmts'⟩
  unfold resolveProg at h ⊢
  rcases hl : resolveStmtList Resolver.new stmts with e | ⟨ss', r2⟩ <;> simp only [hl] at h
  · cases h
  · have hidem := (resolveStmt_idem_aux (sizeOf stmts + 1)).2 stmts (by omega)
      Resolver.new ss' r2 hl
    cases h
    rw [hidem]

/-- Witness for C7: re-resolving the already-resolved `{ let x = 1; { x; } }`
leaves it unchanged. -/
theorem c7_resolve_idempotent_witness :
    resolveProg ⟨[.Block [.Decl "x" (some (.Lit (.Number 1))),
        .Block [.Expr (.Var ⟨"x", 1⟩)]]]⟩ =
      .ok ⟨[.Block [.Decl "x" (some (.Lit (.Number 1))),
        .Block [.Expr (.Var ⟨"x", 1⟩)]]]⟩ :=
  c7_resolve_idempotent _ _ resolveProg_example

/-! ### Claim theorem for the parser limits -/

/-- C5: a parameter list of at least 256 identifiers makes `parse_params` fail
with `TooManyParams` carrying the 256th parameter's location, and an argument
list of at least 256 well-formed argument chunks makes `parse_args` fail with
`TooManyArgs` carrying the 256th argument's first token's location, while
lists of at most 255 parameters / arguments produce neither error (they parse
completely, consuming up to the closing parenthesis). -/
theorem c5_param_arg_limits :
    (∀ (ps : List (String × Loc)) (fuel : Nat) (tail : List Token) (rl : Loc),
      ps.length + 1 ≤ fuel →
      (ps.length ≤ 255 →
        parseParams fuel (paramToks ps ++ ⟨.RParen, rl⟩ :: tail) =
          .ok (ps.map Prod.fst) (⟨.RParen, rl⟩ :: tail)) ∧
      (255 < ps.length →
        ∃ n l, ps.get? 255 = some (n, l) ∧
          parseParams fuel (paramToks ps ++ ⟨.RParen, rl⟩ :: tail) =
            .err (.TooManyParams l))) ∧
    (∀ (F : Nat) (ps : List ArgChunk) (fuel : Nat) (tail : List Token) (rl : Loc),
      (∀ p ∈ ps, ChunkOk F p) → F + ps.length + 2 ≤ fuel →
      (ps.length ≤ 255 →
        parseArgs fuel (argToks ps ++ ⟨.RParen, rl⟩ :: tail) =
          .ok (ps.map Prod.snd) (⟨.RParen, rl⟩ :: tail)) ∧
      (255 < ps.length →
        ∃ p t0 ts, ps.get? 255 = some p ∧ p.1 = t0 :: ts ∧
          parseArgs fuel (argToks ps ++ ⟨.RParen, rl⟩ :: tail) =
            .err (.TooManyArgs t0.loc))) :=
  ⟨fun ps fuel tail rl hf => parseParams_spec ps fuel tail rl hf,
   fun F ps fuel tail rl hok hf => parseArgs_spec F ps fuel tail rl hok hf⟩

/-- Witness for C5: 256 parameters named `p` (the 256th at column 255) trip
`TooManyParams`, and 256 number-literal arguments trip `TooManyArgs`. -/
theorem c5_param_arg_limits_witness :
    (∃ n l, ((List.range 256).map (fun i => ("p", (⟨0, i⟩ : Loc)))).get? 255 = some (n, l) ∧
      parseParams 300
          (paramToks ((List.range 256).map (fun i => ("p", (⟨0, i⟩ : Loc))))
            ++ ⟨.RParen, ⟨0, 999⟩⟩ :: []) =
        .err (.TooManyParams l)) ∧
    (∃ p t0 ts,
      ((List.range 256).map
          (fun i => (([⟨.Number 1, (⟨0, i⟩ : Loc)⟩] : List Token),
            Expr.Lit (.Number 1)))).get? 255 = some p ∧
      p.1 = t0 :: ts ∧
      parseArgs 300
          (argToks ((List.range 256).map
              (fun i => (([⟨.Number 1, (⟨0, i⟩ : Loc)⟩] : List Token),
                Expr.Lit (.Number 1))))
            ++ ⟨.RParen, ⟨0, 999⟩⟩ :: []) =
        .err (.TooManyArgs t0.loc)) := by
  constructor
  · exact (c5_param_arg_limits.1 ((List.range 256).map (fun i => ("p", ⟨0, i⟩))) 300 []
      ⟨0, 999⟩ (by simp)).2 (by simp)
  · refine (c5_param_arg_limits.2 8 ((List.range 256).map
        (fun i => ([⟨.Number 1, ⟨0, i⟩⟩], Expr.Lit (.Number 1)))) 300 [] ⟨0, 999⟩
      ?_ (by simp)).2 (by simp)
    intro p hp
    simp only [List.mem_map, List.mem_range] at hp
    obtain ⟨i, _, rfl⟩ := hp
    refine ⟨by simp, ?_, ?_⟩
    · intro t ts h
      simp only [List.cons.injEq] at h
      rw [← h.1]
      simp
    · intro f hf rest hsep
      exact parseAsgn_number 1 ⟨0, i⟩ f hf rest hsep

/-! ### Claim theorems for the lexer -/

/-- C6: the lexer scans a number by accumulating digits and consumes a following
dot (with further digits) only when the character immediately after the dot
is a digit — expressed by `numeralSplit` — and consequently `123.456` lexes to
the single token `Number(123.456)` while `123.` lexes to `Number(123)`
followed by `Dot`, the trailing `'.'` not being part of the number. -/
theorem c6_number_scan :
    (∀ (l : Lexer) (c : Char) (rest : List Char),
        l.cursor.src = c :: rest → c.isDigit = true →
        ∃ q l', Lexer.next_raw l = some (⟨.Number q, l.cursor.loc⟩, l') ∧
          parseNumList (c :: (numeralSplit rest).1) = some q ∧
          l'.cursor.src = (numeralSplit rest).2) ∧
    lexAll ['1', '2', '3', '.', '4', '5', '6'] = [⟨.Number (123.456 : ℚ), ⟨0, 0⟩⟩] ∧
    lexAll ['1', '2', '3', '.'] = [⟨.Number (123 : ℚ), ⟨0, 0⟩⟩, ⟨.Dot, ⟨0, 3⟩⟩] := by
  refine ⟨fun l c rest hsrc hc => next_raw_digit hsrc hc, ?_, by decide⟩
  have base : lexAll ['1', '2', '3', '.', '4', '5', '6'] =
      [⟨.Number ((natOfDigits ['1', '2', '3'] : ℚ)
          + (natOfDigits ['4', '5', '6'] : ℚ) / 10 ^ 3), ⟨0, 0⟩⟩] := by rfl
  have e1 : natOfDigits ['1', '2', '3'] = 123 := by decide
  have e2 : natOfDigits ['4', '5', '6'] = 456 := by decide
  rw [base, e1, e2]
  norm_num

/-- Witness for C6: the general conjunct applied to the concrete input
`7.5 x` (a digit followed by a fraction and further characters). -/
theorem c6_number_scan_witness :
    ∃ q l', Lexer.next_raw (Lexer.new ['7', '.', '5', ' ', 'x']) =
        some (⟨.Number q, (Lexer.new ['7', '.', '5', ' ', 'x']).cursor.loc⟩, l') ∧
      parseNumList ('7' :: (numeralSplit ['.', '5', ' ', 'x']).1) = some q ∧
      l'.cursor.src = (numeralSplit ['.', '5', ' ', 'x']).2 :=
  c6_number_scan.1 (Lexer.new ['7', '.', '5', ' ', 'x']) '7' ['.', '5', ' ', 'x'] rfl (by decide)

/-- C10: whenever the digit arm of the lexer reaches the final parse of its
buffer, the buffer matches `[0-9]+(\.[0-9]+)?` and parses successfully, so the
`unwrap` on `buf.parse()` never panics: no token produced by `next_raw` (nor,
consequently, by the public iterator) carries the panic marker. -/
theorem c10_lexer_unwrap_safe :
    (∀ (l : Lexer) (t : Token) (l' : Lexer),
        Lexer.next_raw l = some (t, l') → t.kind ≠ .lexPanic) ∧
    (∀ (src : List Char) (t : Token), t ∈ lexAll src → t.kind ≠ .lexPanic) := by
  have hraw : ∀ (l : Lexer) (t : Token) (l' : Lexer),
      Lexer.next_raw l = some (t, l') → t.kind ≠ .lexPanic := by
    intro l t l' h
    unfold Lexer.next_raw at h
    rcases hnext : (l.cursor.eat_while Char.isWhitespace).next with _ | ⟨c, cur1⟩ <;>
      simp only [hnext] at h
    · cases h
    · rcases hct : Lexer.charToken c ⟨cur1, l.buf⟩ with ⟨kind, l2⟩
      rw [hct] at h
      have hk := charToken_ne_panic c ⟨cur1, l.buf⟩
      rw [hct] at hk
      cases h
      exact hk
  exact ⟨hraw, fun src t ht => tokensF_kind_sound (fun k => k ≠ .lexPanic) hraw _ _ t ht⟩

/-- Witness for C10: the lexer applied to the concrete input `1`. -/
theorem c10_lexer_unwrap_safe_witness :
    (⟨.Number (1 : ℚ), ⟨0, 0⟩⟩ : Token).kind ≠ .lexPanic :=
  c10_lexer_unwrap_safe.1 (Lexer.new ['1']) ⟨.Number (1 : ℚ), ⟨0, 0⟩⟩
    ⟨⟨[], 1, 0, 0⟩, ['1']⟩ (by decide)

/-! ### Scope theorems -/

/-- C4: `Scope::get` with a negative depth locates the global scope, and with
depth `d >= 0` walks exactly `d` enclosing links from the active scope (each
step one `get_outer`); the located scope's own map is then the only one
consulted: a present name yields its stored value, an absent one the
`Undefined variable` error.  `Scope::asgn` locates by the same rule and
overwrites the entry, with the same error when the name is absent there. -/
theorem c4_scope_get_asgn (S : Store) (a : Addr) (var : Variable) (w : Val) :
    (var.depth < 0 → Scope.locate S a var.depth = Scope.get_global S a) ∧
    (0 ≤ var.depth → Scope.locate S a var.depth = Scope.ancestorGo S var.depth.toNat a) ∧
    (∀ n b, Scope.ancestorGo S (n + 1) b =
      match Scope.get_outer S b with
      | some o => Scope.ancestorGo S n o
      | none => none) ∧
    (∀ t sd, Scope.locate S a var.depth = some t → S[t]? = some sd →
      (∀ v, envLookup sd.values var.name = some v →
        Scope.get S a var = .ok v ∧
        Scope.asgn S a var w =
          .ok (S.set t (sd.withValues (envUpdate sd.values var.name w)))) ∧
      (envLookup sd.values var.name = none →
        Scope.get S a var = .error .undefined ∧
        Scope.asgn S a var w = .error .undefined)) := by
  refine ⟨fun h => by simp [Scope.locate, h], fun h => ?_, fun n b => rfl, ?_⟩
  · simp [Scope.locate, Scope.get_ancestor, not_lt.mpr h]
  · intro t sd hloc hget
    constructor
    · intro v hv
      exact ⟨by simp [Scope.get, hloc, hget, hv], by simp [Scope.asgn, hloc, hget, hv]⟩
    · intro hv
      exact ⟨by simp [Scope.get, hloc, hget, hv], by simp [Scope.asgn, hloc, hget, hv]⟩

/-- Witness for C4: in a store with a global scope binding `x` to `Nil` and a
local scope, reading `x` at depth `-1` from the local scope returns `Nil` and
assigning overwrites the global entry. -/
theorem c4_scope_get_asgn_witness :
    Scope.get [ScopeData.Global [("x", Val.Nil)], ScopeData.Local [] 0 0] 1 ⟨"x", -1⟩ =
      .ok Val.Nil ∧
    Scope.asgn [ScopeData.Global [("x", Val.Nil)], ScopeData.Local [] 0 0] 1 ⟨"x", -1⟩
        (Val.Boolean true) =
      .ok [ScopeData.Global [("x", Val.Boolean true)], ScopeData.Local [] 0 0] := by
  have h := (c4_scope_get_asgn [ScopeData.Global [("x", Val.Nil)], ScopeData.Local [] 0 0]
      1 ⟨"x", -1⟩ (Val.Boolean true)).2.2.2 0 (ScopeData.Global [("x", Val.Nil)])
      (by rfl) (by rfl)
  have h2 := h.1 Val.Nil (by rfl)
  exact ⟨h2.1, h2.2⟩

/-- Reading the store below an appended record is unchanged. -/
theorem store_get_append_lt {S : Store} {x : ScopeData} {a : ℕ} (h : a < S.length) :
    (S ++ [x])[a]? = S[a]? := by
  rw [List.getElem?_append]
  exact if_pos h

/-- Under `linksDown`, `rootOf` does not depend on the fuel once the fuel
exceeds the starting address. -/
theorem rootOf_fuel {S : Store} (hld : linksDown S) :
    ∀ (a n m : ℕ), a < n → a < m → rootOf S n a = rootOf S m a := by
  intro a
  induction a using Nat.strong_induction_on with
  | _ a ih =>
    intro n m hn hm
    obtain ⟨n', rfl⟩ : ∃ k, n = k + 1 := ⟨n - 1, by omega⟩
    obtain ⟨m', rfl⟩ : ∃ k, m = k + 1 := ⟨m - 1, by omega⟩
    simp only [rootOf]
    cases hsa : S[a]? with
    | none => rfl
    | some sd =>
      cases sd with
      | Global e => rfl
      | Local e o g =>
        have hlt := hld a e o g hsa
        exact ih o hlt.1 n' m' (by omega) (by omega)

/-- `rootOf` is unchanged by appending a record, for starts below the old
length. -/
theorem rootOf_append {S : Store} {x : ScopeData} (hld : linksDown S) :
    ∀ (n a : ℕ), a < S.length → rootOf (S ++ [x]) n a = rootOf S n a := by
  intro n
  induction n with
  | zero => intro a ha; rfl
  | succ n ih =>
    intro a ha
    simp only [rootOf, store_get_append_lt ha]
    cases hsa : S[a]? with
    | none => rfl
    | some sd =>
      cases sd with
      | Global e => rfl
      | Local e o g => exact ih o ((hld a e o g hsa).1.trans ha)

/-- With the invariants, `Scope::get_global` reads the root of the outer
chain. -/
theorem get_global_eq_rootOf {S : Store} (hld : linksDown S) (hgo : GlobalOk S)
    {a : ℕ} (ha : a < S.length) :
    Scope.get_global S a = rootOf S (a + 1) a := by
  cases hsa : S[a]? with
  | none =>
    rw [List.getElem?_eq_none_iff] at hsa
    omega
  | some sd =>
    cases sd with
    | Global e => simp [Scope.get_global, rootOf, hsa]
    | Local e o g =>
      simp only [Scope.get_global, rootOf, hsa]
      have hlt := hld a e o g hsa
      rw [rootOf_fuel hld o a (a + 1) hlt.1 (by omega), hgo a e o g hsa]

/-- A `get_global` result is a valid address. -/
theorem get_global_lt {S : Store} (hld : linksDown S) {a g : ℕ} (ha : a < S.length)
    (h : Scope.get_global S a = some g) : g < S.length := by
  unfold Scope.get_global at h
  cases hsa : S[a]? with
  | none => rw [hsa] at h; cases h
  | some sd =>
    rw [hsa] at h
    cases sd with
    | Global e => cases h; exact ha
    | Local e o g2 =>
      injection h with h2
      subst h2
      exact lt_trans (hld a e o g2 hsa).2 ha

/-- `new_global` preserves `linksDown`. -/
theorem linksDown_append_global {S : Store} (genv : Env) (hld : linksDown S) :
    linksDown (S ++ [.Global genv]) := by
  intro a e o g h
  by_cases ha : a < S.length
  · rw [store_get_append_lt ha] at h
    exact hld a e o g h
  · rw [List.getElem?_append_right (by omega)] at h
    rcases hk : a - S.length with _ | k <;> rw [hk] at h <;> simp at h

/-- `new_global` preserves `GlobalOk`. -/
theorem GlobalOk_append_global {S : Store} (genv : Env) (hld : linksDown S)
    (hgo : GlobalOk S) : GlobalOk (S ++ [.Global genv]) := by
  intro a e o g h
  by_cases ha : a < S.length
  · rw [store_get_append_lt ha] at h
    have hlt := hld a e o g h
    rw [rootOf_append hld (a + 1) o (by omega)]
    exact hgo a e o g h
  · rw [List.getElem?_append_right (by omega)] at h
    rcases hk : a - S.length with _ | k <;> rw [hk] at h <;> simp at h

/-- What `Scope::new_local` allocates. -/
theorem new_local_spec {S : Store} {outer a : ℕ} {S' : Store}
    (h : Scope.new_local S outer = some (a, S')) :
    ∃ g : ℕ, Scope.get_global S outer = some g ∧ a = S.length ∧
      S' = S ++ [.Local [] outer g] := by
  unfold Scope.new_local at h
  cases hg : Scope.get_global S outer with
  | none => rw [hg] at h; cases h
  | some g => rw [hg] at h; cases h; exact ⟨g, rfl, rfl, rfl⟩

/-- `new_local` of any valid parent preserves both invariants. -/
theorem new_local_invariants {S : Store} {outer a : ℕ} {S' : Store}
    (hld : linksDown S) (hgo : GlobalOk S) (ho : outer < S.length)
    (h : Scope.new_local S outer = some (a, S')) :
    linksDown S' ∧ GlobalOk S' := by
  obtain ⟨g, hg, rfl, rfl⟩ := new_local_spec h
  have hglt : g < S.length := get_global_lt hld ho hg
  constructor
  · intro b e o' g' hb
    by_cases hblt : b < S.length
    · rw [store_get_append_lt hblt] at hb
      exact hld b e o' g' hb
    · rw [List.getElem?_append_right (by omega)] at hb
      rcases hk : b - S.length with _ | k <;> rw [hk] at hb
      · simp at hb
        obtain ⟨-, ho', hg'⟩ := hb
        subst ho'
        subst hg'
        constructor
        · omega
        · omega
      · simp at hb
  · intro b e o' g' hb
    by_cases hblt : b < S.length
    · rw [store_get_append_lt hblt] at hb
      obtain ⟨hlt1, hlt2⟩ := hld b e o' g' hb
      rw [rootOf_append hld (b + 1) o' (by omega)]
      exact hgo b e o' g' hb
    · rw [List.getElem?_append_right (by omega)] at hb
      rcases hk : b - S.length with _ | k <;> rw [hk] at hb
      · simp at hb
        obtain ⟨-, ho', hg'⟩ := hb
        rw [← ho', ← hg', rootOf_append hld (b + 1) outer ho,
          rootOf_fuel hld outer (b + 1) (outer + 1) (by omega) (by omega),
          ← get_global_eq_rootOf hld hgo ho]
        exact hg
      · simp at hb

/-- C9: scope allocation preserves the invariant that every `Local` record's
cached `global` handle is the root of its `outer` chain — `new_global` for
any invariant store, `new_local` for any valid parent — and under the
invariant `Scope::get_global`, hence the scope located by a lookup with
negative depth, is exactly the `Global` record reached by walking `outer`
links to the end of the chain. -/
theorem c9_global_handle_invariant :
    (∀ (S : Store) (genv : Env), linksDown S → GlobalOk S →
      linksDown (Scope.new_global genv S).2 ∧ GlobalOk (Scope.new_global genv S).2) ∧
    (∀ (S : Store) (outer a : ℕ) (S' : Store), linksDown S → GlobalOk S →
      outer < S.length → Scope.new_local S outer = some (a, S') →
      linksDown S' ∧ GlobalOk S') ∧
    (∀ (S : Store) (a : ℕ), linksDown S → GlobalOk S → a < S.length →
      Scope.get_global S a = rootOf S (a + 1) a) ∧
    (∀ (S : Store) (a : ℕ) (d : Int), linksDown S → GlobalOk S → a < S.length →
      d < 0 → Scope.locate S a d = rootOf S (a + 1) a) := by
  refine ⟨?_, ?_, ?_, ?_⟩
  · intro S genv hld hgo
    exact ⟨linksDown_append_global genv hld, GlobalOk_append_global genv hld hgo⟩
  · intro S outer a S' hld hgo ho h
    exact new_local_invariants hld hgo ho h
  · intro S a hld hgo ha
    exact get_global_eq_rootOf hld hgo ha
  · intro S a d hld hgo ha hd
    unfold Scope.locate
    rw [if_pos hd]
    exact get_global_eq_rootOf hld hgo ha

/-- The two-record store of the scope-invariant witness satisfies
`linksDown`. -/
theorem linksDown_two : linksDown [ScopeData.Global [], ScopeData.Local [] 0 0] := by
  intro a e o g h
  match a with
  | 0 => simp at h
  | 1 =>
    simp at h
    obtain ⟨-, ho, hg⟩ := h
    subst ho
    subst hg
    decide
  | n + 2 => simp at h

/-- The two-record store of the scope-invariant witness satisfies
`GlobalOk`. -/
theorem GlobalOk_two : GlobalOk [ScopeData.Global [], ScopeData.Local [] 0 0] := by
  intro a e o g h
  match a with
  | 0 => simp at h
  | 1 =>
    simp at h
    obtain ⟨-, ho, hg⟩ := h
    subst ho
    subst hg
    decide
  | n + 2 => simp at h

/-- Witness for C9: in a global-plus-one-local store, `get_global` from the
local scope agrees with walking the outer chain to its end. -/
theorem c9_global_handle_invariant_witness :
    Scope.get_global [ScopeData.Global [], ScopeData.Local [] 0 0] 1 =
      rootOf [ScopeData.Global [], ScopeData.Local [] 0 0] 2 1 :=
  c9_global_handle_invariant.2.2.1 [ScopeData.Global [], ScopeData.Local [] 0 0] 1
    linksDown_two GlobalOk_two (by decide)

/-! ### Store-invariant lemmas (C8) -/

/-- A successful `envLookup` returns a stored pair. -/
theorem lookup_pair_mem {l : Env} {k : String} {v : Val}
    (h : envLookup l k = some v) : (k, v) ∈ l := by
  simp only [envLookup] at h
  induction l with
  | nil => simp [List.lookup] at h
  | cons p rest ih =>
    rw [List.lookup] at h
    by_cases hk : k == p.1
    · simp only [hk, if_pos] at h
      cases h
      have hkp : k = p.1 := by simpa using hk
      subst hkp
      exact List.mem_cons_self _ _
    · simp only [Bool.not_eq_true] at hk
      rw [hk] at h
      exact List.mem_cons_of_mem _ (ih h)

/-- An entry of an updated map is the new value or an old entry. -/
theorem envUpdate_mem {l : Env} {k : String} {v : Val} :
    ∀ p ∈ envUpdate l k v, p.2 = v ∨ p ∈ l := by
  induction l with
  | nil => intro p hp; simp [envUpdate] at hp
  | cons q rest ih =>
    rcases q with ⟨k0, v0⟩
    intro p hp
    rw [envUpdate] at hp
    by_cases h0 : k0 = k
    · rw [if_pos h0] at hp
      rcases List.mem_cons.mp hp with hp | hp
      · left
        rw [hp]
      · right
        exact List.mem_cons_of_mem _ hp
    · rw [if_neg h0] at hp
      rcases List.mem_cons.mp hp with hp | hp
      · right
        rw [hp]
        exact List.mem_cons_self _ _
      · rcases ih p hp with h2 | h2
        · exact Or.inl h2
        · exact Or.inr (List.mem_cons_of_mem _ h2)

/-- Replacing a record's map keeps its map field as given. -/
theorem withValues_values (sd : ScopeData) (e : Env) :
    (sd.withValues e).values = e := by
  cases sd <;> rfl

/-- Replacing a record's map keeps its shape. -/
theorem withValues_shape (sd : ScopeData) (e : Env) :
    shape (sd.withValues e) = shape sd := by
  cases sd <;> rfl

theorem Ext.refl (S : Store) : Ext S S := ⟨le_refl _, fun _ _ => rfl⟩

theorem Ext.trans {S1 S2 S3 : Store} (h12 : Ext S1 S2) (h23 : Ext S2 S3) : Ext S1 S3 :=
  ⟨le_trans h12.1 h23.1, fun a ha => (h23.2 a (lt_of_lt_of_le ha h12.1)).trans (h12.2 a ha)⟩

/-- Appending records is an extension. -/
theorem ext_append (S l : Store) : Ext S (S ++ l) :=
  ⟨by simp, fun a ha => by rw [List.getElem?_append, if_pos ha]⟩

/-- Under an extension, an existing record keeps its constructor and links. -/
theorem ext_shape {S S' : Store} (hext : Ext S S') {a : ℕ} (ha : a < S.length) :
    (∀ (e : Env) (o g : ℕ), S[a]? = some (.Local e o g) →
      ∃ e', S'[a]? = some (.Local e' o g)) ∧
    (∀ e : Env, S[a]? = some (.Global e) → ∃ e', S'[a]? = some (.Global e')) := by
  have h := hext.2 a ha
  constructor
  · intro e o g hsa
    rw [hsa] at h
    cases hsb : S'[a]? with
    | none => rw [hsb] at h; cases h
    | some sd =>
      rw [hsb] at h
      cases sd with
      | Global e2 => simp [shape] at h
      | Local e2 o2 g2 =>
        simp [shape] at h
        obtain ⟨h1, h2⟩ := h
        subst h1
        subst h2
        exact ⟨e2, rfl⟩
  · intro e hsa
    rw [hsa] at h
    cases hsb : S'[a]? with
    | none => rw [hsb] at h; cases h
    | some sd =>
      rw [hsb] at h
      cases sd with
      | Global e2 => exact ⟨e2, rfl⟩
      | Local e2 o2 g2 => simp [shape] at h

/-- `rootOf` only depends on record shapes. -/
theorem rootOf_ext {S S' : Store} (hld : linksDown S) (hext : Ext S S') :
    ∀ (n a : ℕ), a < S.length → rootOf S' n a = rootOf S n a := by
  intro n
  induction n with
  | zero => intro a ha; rfl
  | succ n ih =>
    intro a ha
    cases hsa : S[a]? with
    | none =>
      rw [List.getElem?_eq_none_iff] at hsa
      omega
    | some sd =>
      cases sd with
      | Global e =>
        obtain ⟨e', hsb⟩ := (ext_shape hext ha).2 e hsa
        simp [rootOf, hsa, hsb]
      | Local e o g =>
        obtain ⟨e', hsb⟩ := (ext_shape hext ha).1 e o g hsa
        obtain ⟨ho, -⟩ := hld a e o g hsa
        simp only [rootOf, hsa, hsb]
        exact ih o (by omega)

/-- Under `linksDown`, `localDepth` does not depend on the fuel once the fuel
exceeds the starting address. -/
theorem localDepth_fuel {S : Store} (hld : linksDown S) :
    ∀ (a n m : ℕ), a < n → a < m → localDepth S n a = localDepth S m a := by
  intro a
  induction a using Nat.strong_induction_on with
  | _ a ih =>
    intro n m hn hm
    obtain ⟨n', rfl⟩ : ∃ k, n = k + 1 := ⟨n - 1, by omega⟩
    obtain ⟨m', rfl⟩ : ∃ k, m = k + 1 := ⟨m - 1, by omega⟩
    simp only [localDepth]
    cases hsa : S[a]? with
    | none => rfl
    | some sd =>
      cases sd with
      | Global e => rfl
      | Local e o g =>
        obtain ⟨ho, -⟩ := hld a e o g hsa
        show (localDepth S n' o).map (· + 1) = (localDepth S m' o).map (· + 1)
        rw [ih o ho n' m' (by omega) (by omega)]

/-- `localDepth` only depends on record shapes. -/
theorem localDepth_ext {S S' : Store} (hld : linksDown S) (hext : Ext S S') :
    ∀ (n a : ℕ), a < S.length → localDepth S' n a = localDepth S n a := by
  intro n
  induction n with
  | zero => intro a ha; rfl
  | succ n ih =>
    intro a ha
    cases hsa : S[a]? with
    | none =>
      rw [List.getElem?_eq_none_iff] at hsa
      omega
    | some sd =>
      cases sd with
      | Global e =>
        obtain ⟨e', hsb⟩ := (ext_shape hext ha).2 e hsa
        simp [localDepth, hsa, hsb]
      | Local e o g =>
        obtain ⟨e', hsb⟩ := (ext_shape hext ha).1 e o g hsa
        obtain ⟨ho, -⟩ := hld a e o g hsa
        simp only [localDepth, hsa, hsb]
        rw [ih o (by omega)]

/-- Every valid address has a lexical depth. -/
theorem localDepth_isSome {S : Store} (hld : linksDown S) :
    ∀ a : ℕ, a < S.length → ∃ k, localDepth S (a + 1) a = some k := by
  intro a
  induction a using Nat.strong_induction_on with
  | _ a ih =>
    intro ha
    cases hsa : S[a]? with
    | none =>
      rw [List.getElem?_eq_none_iff] at hsa
      omega
    | some sd =>
      cases sd with
      | Global e => exact ⟨0, by simp [localDepth, hsa]⟩
      | Local e o g =>
        obtain ⟨ho, -⟩ := hld a e o g hsa
        obtain ⟨k, hk⟩ := ih o ho (by omega)
        refine ⟨k + 1, ?_⟩
        simp only [localDepth, hsa]
        rw [localDepth_fuel hld o a (o + 1) (by omega) (by omega), hk]
        rfl

/-- `ValOk` transfers along store extension. -/
theorem ValOk_mono {S S' : Store} (hld : linksDown S) (hext : Ext S S') {v : Val}
    (h : ValOk S v) : ValOk S' v := by
  cases v with
  | Func f =>
    cases f with
    | Native a i => trivial
    | UserDef d c =>
      obtain ⟨name, params, body, hd, hc, k, hk, hb⟩ := h
      refine ⟨name, params, body, hd, lt_of_lt_of_le hc hext.1, k, ?_, hb⟩
      rw [localDepth_ext hld hext (c + 1) c hc]
      exact hk
  | NoVal => trivial
  | Number q => trivial
  | Boolean b => trivial
  | String s => trivial
  | Nil => trivial

/-- Overwriting one record with a shape-preserving, well-formed record
preserves the store invariant. -/
theorem StoreOk_set {S : Store} (hS : StoreOk S) {a : ℕ} {sd sd' : ScopeData}
    (hsa : S[a]? = some sd) (hsh : shape sd' = shape sd)
    (hvals : ∀ p ∈ sd'.values, ValOk S p.2) :
    StoreOk (S.set a sd') ∧ Ext S (S.set a sd') ∧ (S.set a sd').length = S.length := by
  have halt : a < S.length := (List.getElem?_eq_some_iff.mp hsa).1
  have hget : ∀ b : ℕ, (S.set a sd')[b]? = if a = b then some sd' else S[b]? := by
    intro b
    rw [List.getElem?_set]
    by_cases hab : a = b
    · rw [if_pos hab, if_pos hab, if_pos halt]
    · rw [if_neg hab, if_neg hab]
  have hext : Ext S (S.set a sd') := by
    refine ⟨by simp, fun b hb => ?_⟩
    rw [hget b]
    by_cases hab : a = b
    · subst hab
      rw [if_pos rfl, hsa]
      simp [hsh]
    · rw [if_neg hab]
  have hld' : linksDown (S.set a sd') := by
    intro b e o g hb
    rw [hget b] at hb
    by_cases hab : a = b
    · subst hab
      rw [if_pos rfl] at hb
      cases hb
      cases sd with
      | Global e2 => simp [shape] at hsh
      | Local e2 o2 g2 =>
        simp [shape] at hsh
        obtain ⟨h1, h2⟩ := hsh
        subst h1
        subst h2
        exact hS.ld a e2 o g hsa
    · rw [if_neg hab] at hb
      exact hS.ld b e o g hb
  have hgo' : GlobalOk (S.set a sd') := by
    intro b e o g hb
    have hob : o < b := (hld' b e o g hb).1
    have hbl : b < S.length := by
      have := (List.getElem?_eq_some_iff.mp hb).1
      simpa using this
    rw [rootOf_ext hS.ld hext (b + 1) o (by omega)]
    rw [hget b] at hb
    by_cases hab : a = b
    · subst hab
      rw [if_pos rfl] at hb
      cases hb
      cases sd with
      | Global e2 => simp [shape] at hsh
      | Local e2 o2 g2 =>
        simp [shape] at hsh
        obtain ⟨h1, h2⟩ := hsh
        subst h1
        subst h2
        exact hS.go a e2 o g hsa
    · rw [if_neg hab] at hb
      exact hS.go b e o g hb
  have hvals' : ∀ (b : ℕ) (sdb : ScopeData), (S.set a sd')[b]? = some sdb →
      ∀ p ∈ sdb.values, ValOk (S.set a sd') p.2 := by
    intro b sdb hb p hp
    refine ValOk_mono hS.ld hext ?_
    rw [hget b] at hb
    by_cases hab : a = b
    · subst hab
      rw [if_pos rfl] at hb
      cases hb
      exact hvals p hp
    · rw [if_neg hab] at hb
      exact hS.vals b sdb hb p hp
  exact ⟨⟨hld', hgo', hvals'⟩, hext, by simp⟩

/-- `Scope::def` of a well-formed value preserves the store invariant. -/
theorem defVar_ok {S : Store} (hS : StoreOk S) {a : ℕ} (ha : a < S.length)
    {n : String} {v : Val} (hv : ValOk S v) :
    StoreOk (Scope.defVar S a n v) ∧ Ext S (Scope.defVar S a n v) ∧
      (Scope.defVar S a n v).length = S.length := by
  cases hsa : S[a]? with
  | none =>
    rw [List.getElem?_eq_none_iff] at hsa
    omega
  | some sd =>
    have heq : Scope.defVar S a n v = S.set a (sd.withValues (envInsert sd.values n v)) := by
      unfold Scope.defVar
      rw [hsa]
    rw [heq]
    refine StoreOk_set hS hsa (withValues_shape sd _) ?_
    rw [withValues_values]
    intro p hp
    rcases List.mem_cons.mp hp with hp | hp
    · rw [hp]
      exact hv
    · exact hS.vals a sd hsa p hp

/-- Walking `d <= k` outer links from a scope of depth `k` succeeds and lands
on a scope of depth `k - d`. -/
theorem ancestorGo_of_localDepth {S : Store} (hld : linksDown S) :
    ∀ a : ℕ, a < S.length → ∀ k : ℕ, localDepth S (a + 1) a = some k →
      ∀ d : ℕ, d ≤ k →
      ∃ t : ℕ, Scope.ancestorGo S d a = some t ∧ t < S.length ∧
        localDepth S (t + 1) t = some (k - d) := by
  intro a
  induction a using Nat.strong_induction_on with
  | _ a ih =>
    intro ha k hk d hd
    match d with
    | 0 => exact ⟨a, rfl, ha, by simpa using hk⟩
    | d + 1 =>
      cases hsa : S[a]? with
      | none =>
        rw [List.getElem?_eq_none_iff] at hsa
        omega
      | some sd =>
        cases sd with
        | Global e =>
          simp only [localDepth, hsa] at hk
          cases hk
          omega
        | Local e o g =>
          obtain ⟨ho, -⟩ := hld a e o g hsa
          simp only [localDepth, hsa] at hk
          cases hko : localDepth S a o with
          | none => rw [hko] at hk; cases hk
          | some k0 =>
            rw [hko] at hk
            have hkk : k = k0 + 1 := by
              simp at hk
              omega
            have hko' : localDepth S (o + 1) o = some k0 := by
              rw [localDepth_fuel hld o (o + 1) a (by omega) (by omega)]
              exact hko
            obtain ⟨t, hT, hTl, hTd⟩ := ih o ho (by omega) k0 hko' d (by omega)
            refine ⟨t, ?_, hTl, ?_⟩
            · simp only [Scope.ancestorGo, Scope.get_outer, hsa]
              exact hT
            · rw [hTd]
              congr 1
              omega

/-- The locating step of `Scope::get`/`Scope::asgn` always finds a live scope
when the depth is below the active scope's lexical depth. -/
theorem locate_some {S : Store} (hS : StoreOk S) {sc k : ℕ}
    (hsc : sc < S.length) (hdep : localDepth S (sc + 1) sc = some k) {d : Int}
    (hd : d < (k : Int)) :
    ∃ t : ℕ, Scope.locate S sc d = some t ∧ t < S.length := by
  unfold Scope.locate
  by_cases hneg : d < 0
  · rw [if_pos hneg]
    cases hsa : S[sc]? with
    | none =>
      rw [List.getElem?_eq_none_iff] at hsa
      omega
    | some sd =>
      cases sd with
      | Global e => exact ⟨sc, by simp [Scope.get_global, hsa], hsc⟩
      | Local e o g =>
        obtain ⟨-, hg⟩ := hS.ld sc e o g hsa
        exact ⟨g, by simp [Scope.get_global, hsa], by omega⟩
  · rw [if_neg hneg]
    obtain ⟨t, ht, htl, -⟩ :=
      ancestorGo_of_localDepth hS.ld sc hsc k hdep d.toNat (by omega)
    exact ⟨t, ht, htl⟩

/-- `Scope::get` at a depth below the active scope's lexical depth never hits
the `get_ancestor` panic, and a found value is well-formed. -/
theorem get_res {S : Store} (hS : StoreOk S) {sc k : ℕ}
    (hsc : sc < S.length) (hdep : localDepth S (sc + 1) sc = some k)
    {var : Variable} (hd : var.depth < (k : Int)) :
    Scope.get S sc var ≠ .error .invalidDepth ∧
    ∀ v, Scope.get S sc var = .ok v → ValOk S v := by
  obtain ⟨t, hloc, htl⟩ := locate_some hS hsc hdep hd
  cases hst : S[t]? with
  | none =>
    rw [List.getElem?_eq_none_iff] at hst
    omega
  | some sd =>
    cases hlk : envLookup sd.values var.name with
    | none =>
      constructor
      · simp [Scope.get, hloc, hst, hlk]
      · intro v hv
        simp [Scope.get, hloc, hst, hlk] at hv
    | some w =>
      constructor
      · simp [Scope.get, hloc, hst, hlk]
      · intro v hv
        simp only [Scope.get, hloc, hst, hlk] at hv
        cases hv
        exact hS.vals t sd hst (var.name, w) (lookup_pair_mem hlk)

/-- `Scope::asgn` at a depth below the active scope's lexical depth never hits
the `get_ancestor` panic, and a successful assignment of a well-formed value
preserves the store invariant without changing the store's length. -/
theorem asgn_res {S : Store} (hS : StoreOk S) {sc k : ℕ}
    (hsc : sc < S.length) (hdep : localDepth S (sc + 1) sc = some k)
    {var : Variable} (hd : var.depth < (k : Int)) {v : Val} (hv : ValOk S v) :
    Scope.asgn S sc var v ≠ .error .invalidDepth ∧
    ∀ S', Scope.asgn S sc var v = .ok S' →
      StoreOk S' ∧ Ext S S' ∧ S'.length = S.length := by
  obtain ⟨t, hloc, htl⟩ := locate_some hS hsc hdep hd
  cases hst : S[t]? with
  | none =>
    rw [List.getElem?_eq_none_iff] at hst
    omega
  | some sd =>
    cases hlk : envLookup sd.values var.name with
    | none =>
      constructor
      · simp [Scope.asgn, hloc, hst, hlk]
      · intro S' hS'
        simp [Scope.asgn, hloc, hst, hlk] at hS'
    | some w =>
      constructor
      · simp [Scope.asgn, hloc, hst, hlk]
      · intro S' hS'
        simp only [Scope.asgn, hloc, hst, hlk] at hS'
        cases hS'
        refine StoreOk_set hS hst (withValues_shape sd _) ?_
        rw [withValues_values]
        intro p hp
        rcases envUpdate_mem p hp with h2 | h2
        · rw [h2]
          exact hv
        · exact hS.vals t sd hst p h2

/-- `Scope::get_global` succeeds on every valid handle. -/
theorem get_global_some {S : Store} (hld : linksDown S) {a : ℕ} (ha : a < S.length) :
    ∃ g : ℕ, Scope.get_global S a = some g ∧ g < S.length := by
  cases hsa : S[a]? with
  | none =>
    rw [List.getElem?_eq_none_iff] at hsa
    omega
  | some sd =>
    cases sd with
    | Global e => exact ⟨a, by simp [Scope.get_global, hsa], ha⟩
    | Local e o g =>
      obtain ⟨-, hg⟩ := hld a e o g hsa
      exact ⟨g, by simp [Scope.get_global, hsa], by omega⟩

/-- `Scope::new_local` of a valid parent succeeds, preserves the invariant,
and allocates a scope one level deeper than its parent. -/
theorem new_local_ok {S : Store} (hS : StoreOk S) {sc k : ℕ} (hsc : sc < S.length)
    (hdep : localDepth S (sc + 1) sc = some k) :
    ∃ S', Scope.new_local S sc = some (S.length, S') ∧ StoreOk S' ∧ Ext S S' ∧
      S'.length = S.length + 1 ∧
      localDepth S' (S.length + 1) S.length = some (k + 1) := by
  obtain ⟨g, hg, hglt⟩ := get_global_some hS.ld hsc
  have hnl : Scope.new_local S sc = some (S.length, S ++ [.Local [] sc g]) := by
    unfold Scope.new_local
    rw [hg]
  have hext : Ext S (S ++ [ScopeData.Local [] sc g]) := ext_append S _
  obtain ⟨hld', hgo'⟩ := new_local_invariants hS.ld hS.go hsc hnl
  have hvals' : ∀ (b : ℕ) (sdb : ScopeData),
      (S ++ [ScopeData.Local [] sc g])[b]? = some sdb →
      ∀ p ∈ sdb.values, ValOk (S ++ [ScopeData.Local [] sc g]) p.2 := by
    intro b sdb hb p hp
    by_cases hblt : b < S.length
    · rw [store_get_append_lt hblt] at hb
      exact ValOk_mono hS.ld hext (hS.vals b sdb hb p hp)
    · rw [List.getElem?_append_right (by omega)] at hb
      rcases hbk : b - S.length with _ | k2 <;> rw [hbk] at hb
      · cases hb
        simp [ScopeData.values] at hp
      · simp at hb
  have hsd' : localDepth (S ++ [ScopeData.Local [] sc g]) (S.length + 1) S.length =
      some (k + 1) := by
    simp only [localDepth, List.getElem?_concat_length]
    rw [localDepth_ext hS.ld hext S.length sc hsc,
      localDepth_fuel hS.ld sc S.length (sc + 1) (by omega) (by omega), hdep]
    rfl
  exact ⟨S ++ [ScopeData.Local [] sc g], hnl, ⟨hld', hgo', hvals'⟩, hext, by simp, hsd'⟩

/-- Binding a list of well-formed arguments preserves the store invariant. -/
theorem bindParams_ok :
    ∀ (ps : List String) (args : List Val) (S : Store) (a : ℕ), StoreOk S →
      a < S.length → (∀ v ∈ args, ValOk S v) →
      StoreOk (bindParams S a ps args) ∧ Ext S (bindParams S a ps args) ∧
        (bindParams S a ps args).length = S.length := by
  intro ps
  induction ps with
  | nil => intro args S a hS ha hargs; exact ⟨hS, Ext.refl S, rfl⟩
  | cons p ps ih =>
    intro args S a hS ha hargs
    cases args with
    | nil => exact ⟨hS, Ext.refl S, rfl⟩
    | cons v vs =>
      obtain ⟨hS1, hext1, hlen1⟩ := defVar_ok hS ha (hargs v (by simp))
      obtain ⟨hS2, hext2, hlen2⟩ := ih vs (Scope.defVar S a p v) a hS1 (by omega)
        (fun w hw => ValOk_mono hS.ld hext1 (hargs w (by simp [hw])))
      refine ⟨hS2, Ext.trans hext1 hext2, ?_⟩
      show (bindParams (Scope.defVar S a p v) a ps vs).length = S.length
      omega

/-! ### Resolver postcondition (C8) -/

/-- A found scope index is within the stack. -/
theorem findScope_lt {scopes : List RMap} {x : String} :
    ∀ {i : Nat}, findScope scopes x = some i → i < scopes.length := by
  induction scopes with
  | nil => intro i h; cases h
  | cons m rest ih =>
    intro i h
    rcases hm : (rlookup m x).isSome with _ | _
    · simp only [findScope, hm, Bool.false_eq_true, if_false] at h
      cases hf : findScope rest x with
      | none => rw [hf] at h; cases h
      | some j =>
        rw [hf] at h
        simp at h
        have := ih hf
        simp
        omega
    · simp only [findScope, hm, if_true] at h
      cases h
      simp

/-- `resolve_local` on an unresolved (negative-depth) variable produces a
depth below the resolver's stack length. -/
theorem resolve_local_depth_lt {r : Resolver} {v : Variable} (hneg : v.depth < 0) :
    (r.resolve_local v).depth < (r.scopes.length : Int) := by
  unfold Resolver.resolve_local
  cases hf : findScope r.scopes v.name with
  | none =>
    show v.depth < (r.scopes.length : Int)
    omega
  | some i =>
    show (i : Int) < (r.scopes.length : Int)
    exact_mod_cast findScope_lt hf

theorem define_length (r : Resolver) (v : String) :
    (Resolver.define r v).scopes.length = r.scopes.length := by
  cases hs : r.scopes with
  | nil => simp [Resolver.define, hs]
  | cons m rest => simp [Resolver.define, hs, rinsert]

theorem declare_length {r : Resolver} {v : String} {r1 : Resolver}
    (h : r.declare v = .ok r1) : r1.scopes.length = r.scopes.length := by
  cases hs : r.scopes with
  | nil =>
    simp only [Resolver.declare, hs] at h
    cases h
    rw [hs]
  | cons m rest =>
    simp only [Resolver.declare, hs] at h
    rcases hm : (rlookup m v).isSome with _ | _
    · rw [hm] at h
      simp only [Bool.false_eq_true, if_false] at h
      cases h
      simp [hs, rinsert]
    · rw [hm] at h
      simp only [if_true] at h
      cases h

theorem foldl_define_length (params : List String) :
    ∀ r : Resolver, (params.foldl (fun acc p => acc.define p) r).scopes.length =
      r.scopes.length := by
  induction params with
  | nil => intro r; rfl
  | cons p ps ih =>
    intro r
    rw [List.foldl_cons, ih, define_length]

/-- `resolve_stmt` restores the scope-stack length it started with. -/
theorem resolveStmt_length_aux : ∀ n : Nat,
    (∀ s : Stmt, sizeOf s < n → ∀ (r : Resolver) (s' : Stmt) (r2 : Resolver),
      resolveStmt r s = .ok (s', r2) → r2.scopes.length = r.scopes.length) ∧
    (∀ ss : List Stmt, sizeOf ss < n → ∀ (r : Resolver) (ss' : List Stmt) (r2 : Resolver),
      resolveStmtList r ss = .ok (ss', r2) → r2.scopes.length = r.scopes.length) := by
  intro n
  induction n with
  | zero => exact ⟨fun s hs => absurd hs (by omega), fun ss hs => absurd hs (by omega)⟩
  | succ n ih =>
    constructor
    · intro s hs r s' r2 h
      cases s
      case Block body =>
        simp only [resolveStmt] at h
        rcases hb : resolveStmtList r.begin_scope body with e | ⟨body', r2'⟩ <;>
          simp only [hb] at h
        · cases h
        · have h1 := ih.2 body (by simp at hs; omega) r.begin_scope body' r2' hb
          cases h
          simp only [Resolver.end_scope, Resolver.begin_scope, List.length_cons] at h1 ⊢
          rw [List.length_tail, h1]
          omega
      case Expr e =>
        simp only [resolveStmt] at h
        rcases he : resolveExpr r e with err | e1 <;> simp only [he] at h
        · cases h
        · cases h
          rfl
      case Print e =>
        simp only [resolveStmt] at h
        rcases he : resolveExpr r e with err | e1 <;> simp only [he] at h
        · cases h
        · cases h
          rfl
      case Decl v init =>
        simp only [resolveStmt] at h
        rcases hd : r.declare v with e1 | r1 <;> simp only [hd] at h
        · cases h
        · have hd1 := declare_length hd
          rcases init with _ | e
          · simp only [resolveDeclInit] at h
            cases h
            rw [define_length, hd1]
          · simp only [resolveDeclInit] at h
            rcases hre : resolveExpr r1 e with err | e1 <;> simp only [hre] at h
            · cases h
            · cases h
              rw [define_length, hd1]
      case If cond thenB elseB =>
        simp only [resolveStmt] at h
        rcases hc : resolveExpr r cond with err | cond' <;> simp only [hc] at h
        · cases h
        · rcases ht : resolveStmt r thenB with err | ⟨then', r1⟩ <;> simp only [ht] at h
          · cases h
          · have h1 := ih.1 thenB (by simp at hs; omega) r then' r1 ht
            rcases elseB with _ | eb
            · simp only [resolveElse] at h
              cases h
              exact h1
            · simp only [resolveElse] at h
              rcases heb : resolveStmt r1 eb with err | ⟨eb', r2'⟩ <;> simp only [heb] at h
              · cases h
              · have h2 := ih.1 eb (by simp at hs; omega) r1 eb' r2' heb
                cases h
                rw [h2, h1]
      case While cond body =>
        simp only [resolveStmt] at h
        rcases hc : resolveExpr r cond with err | cond' <;> simp only [hc] at h
        · cases h
        · rcases hb : resolveStmt r body with err | ⟨body', r1⟩ <;> simp only [hb] at h
          · cases h
          · have h1 := ih.1 body (by simp at hs; omega) r body' r1 hb
            cases h
            exact h1
      case Func name params body =>
        simp only [resolveStmt] at h
        rcases hb : resolveStmt (params.foldl (fun acc p => acc.define p)
            (Resolver.begin_scope ⟨(Resolver.define r name).scopes, .Function⟩)) body
          with err | ⟨body', r5⟩ <;> simp only [hb] at h
        · cases h
        · have h1 := ih.1 body (by simp at hs; omega) _ body' r5 hb
          rw [foldl_define_length] at h1
          cases h
          simp only [Resolver.end_scope] at *
          rw [List.length_tail, h1]
          simp only [Resolver.begin_scope, List.length_cons]
          rw [define_length]
          omega
      case Return ret =>
        simp only [resolveStmt] at h
        by_cases hcf : r.curr_function = .None
        · rw [if_pos hcf] at h
          cases h
        · rw [if_neg hcf] at h
          rcases ret with _ | e
          · simp only [resolveRet] at h
            cases h
            rfl
          · simp only [resolveRet] at h
            rcases hre : resolveExpr r e with err | e1 <;> simp only [hre] at h
            · cases h
            · cases h
              rfl
    · intro ss hs r ss' r2 h
      cases ss with
      | nil =>
        simp only [resolveStmtList] at h
        cases h
        rfl
      | cons s rest =>
        simp only [resolveStmtList] at h
        rcases h1 : resolveStmt r s with err | ⟨s', r1⟩ <;> simp only [h1] at h
        · cases h
        · rcases h2 : resolveStmtList r1 rest with err | ⟨rest', r2'⟩ <;> simp only [h2] at h
          · cases h
          · have i1 := ih.1 s (by simp at hs; omega) r s' r1 h1
            have i2 := ih.2 rest (by simp at hs; omega) r1 rest' r2' h2
            cases h
            rw [i2, i1]

theorem resolveStmt_length {r : Resolver} {s s' : Stmt} {r2 : Resolver}
    (h : resolveStmt r s = .ok (s', r2)) : r2.scopes.length = r.scopes.length :=
  (resolveStmt_length_aux (sizeOf s + 1)).1 s (by omega) r s' r2 h

theorem resolveStmtList_length {r : Resolver} {ss ss' : List Stmt} {r2 : Resolver}
    (h : resolveStmtList r ss = .ok (ss', r2)) : r2.scopes.length = r.scopes.length :=
  (resolveStmt_length_aux (sizeOf ss + 1)).2 ss (by omega) r ss' r2 h

/-- A resolved expression of an unresolved input is depth-bounded by the
resolver's stack length. -/
theorem resolveExpr_ok_aux : ∀ n : Nat,
    (∀ e : Expr, sizeOf e < n → ∀ (r : Resolver) (e' : Expr), negE e = true →
      resolveExpr r e = .ok e' → okE r.scopes.length e' = true) ∧
    (∀ es : List Expr, sizeOf es < n → ∀ (r : Resolver) (es' : List Expr),
      negEList es = true → resolveExprList r es = .ok es' →
      okEList r.scopes.length es' = true) := by
  intro n
  induction n with
  | zero => exact ⟨fun e he => absurd he (by omega), fun es he => absurd he (by omega)⟩
  | succ n ih =>
    constructor
    · intro e he r e' hneg h
      cases e
      case Asgn v a =>
        simp only [negE, Bool.and_eq_true, decide_eq_true_eq] at hneg
        simp only [resolveExpr] at h
        rcases ha : resolveExpr r a with ea | a' <;> rw [ha] at h
        · simp at h
        · cases h
          have h1 := ih.1 a (by simp at he; omega) r a' hneg.2 ha
          simp only [okE, Bool.and_eq_true, decide_eq_true_eq]
          exact ⟨resolve_local_depth_lt hneg.1, h1⟩
      case Call c args =>
        simp only [negE, Bool.and_eq_true] at hneg
        simp only [resolveExpr] at h
        rcases hc : resolveExpr r c with ec | c' <;> rw [hc] at h
        · simp at h
        · rcases hargs : resolveExprList r args with ea | args' <;> rw [hargs] at h
          · simp at h
          · cases h
            have h1 := ih.1 c (by simp at he; omega) r c' hneg.1 hc
            have h2 := ih.2 args (by simp at he; omega) r args' hneg.2 hargs
            simp only [okE, Bool.and_eq_true]
            exact ⟨h1, h2⟩
      case Not a =>
        simp only [negE] at hneg
        simp only [resolveExpr] at h
        rcases ha : resolveExpr r a with ea | a' <;> rw [ha] at h
        · simp at h
        · cases h
          exact ih.1 a (by simp at he; omega) r a' hneg ha
      case Opp a =>
        simp only [negE] at hneg
        simp only [resolveExpr] at h
        rcases ha : resolveExpr r a with ea | a' <;> rw [ha] at h
        · simp at h
        · cases h
          exact ih.1 a (by simp at he; omega) r a' hneg ha
      case Lit v =>
        simp only [resolveExpr] at h
        cases h
        simp only [negE] at hneg
        simp only [okE]
        exact hneg
      case Var v =>
        simp only [negE, decide_eq_true_eq] at hneg
        simp only [resolveExpr] at h
        by_cases hcheck : (r.scopes.head?.bind fun sc => rlookup sc v.name) = some false
        · rw [if_pos hcheck] at h
          cases h
        · rw [if_neg hcheck] at h
          cases h
          simp only [okE, decide_eq_true_eq]
          exact resolve_local_depth_lt hneg
      all_goals (
        rename_i l rr
        simp only [negE, Bool.and_eq_true] at hneg
        simp only [resolveExpr] at h
        rcases hl : resolveExpr r l with el | l' <;> rw [hl] at h
        · simp at h
        · rcases hr : resolveExpr r rr with er | r' <;> rw [hr] at h
          · simp at h
          · cases h
            have h1 := ih.1 l (by simp at he; omega) r l' hneg.1 hl
            have h2 := ih.1 rr (by simp at he; omega) r r' hneg.2 hr
            simp only [okE, Bool.and_eq_true]
            exact ⟨h1, h2⟩)
    · intro es he r es' hneg h
      cases es with
      | nil =>
        simp only [resolveExprList] at h
        cases h
        rfl
      | cons a rest =>
        simp only [negEList, Bool.and_eq_true] at hneg
        simp only [resolveExprList] at h
        rcases ha : resolveExpr r a with ea | a' <;> rw [ha] at h
        · simp at h
        · rcases hrest : resolveExprList r rest with er | rest' <;> rw [hrest] at h
          · simp at h
          · cases h
            have h1 := ih.1 a (by simp at he; omega) r a' hneg.1 ha
            have h2 := ih.2 rest (by simp at he; omega) r rest' hneg.2 hrest
            simp only [okEList, Bool.and_eq_true]
            exact ⟨h1, h2⟩

theorem resolveExpr_ok {r : Resolver} {e e' : Expr} (hneg : negE e = true)
    (h : resolveExpr r e = .ok e') : okE r.scopes.length e' = true :=
  (resolveExpr_ok_aux (sizeOf e + 1)).1 e (by omega) r e' hneg h

/-- A resolved statement of an unresolved input is depth-bounded by the
resolver's stack length. -/
theorem resolveStmt_ok_aux : ∀ n : Nat,
    (∀ s : Stmt, sizeOf s < n → ∀ (r : Resolver) (s' : Stmt) (r2 : Resolver),
      negS s = true → resolveStmt r s = .ok (s', r2) →
      okS r.scopes.length s' = true) ∧
    (∀ ss : List Stmt, sizeOf ss < n → ∀ (r : Resolver) (ss' : List Stmt) (r2 : Resolver),
      negSList ss = true → resolveStmtList r ss = .ok (ss', r2) →
      okSList r.scopes.length ss' = true) := by
  intro n
  induction n with
  | zero => exact ⟨fun s hs => absurd hs (by omega), fun ss hs => absurd hs (by omega)⟩
  | succ n ih =>
    constructor
    · intro s hs r s' r2 hneg h
      cases s
      case Block body =>
        simp only [negS] at hneg
        simp only [resolveStmt] at h
        rcases hb : resolveStmtList r.begin_scope body with e | ⟨body', r2'⟩ <;>
          simp only [hb] at h
        · cases h
        · have h1 := ih.2 body (by simp at hs; omega) r.begin_scope body' r2' hneg hb
          cases h
          simp only [Resolver.begin_scope, List.length_cons] at h1
          simp only [okS]
          exact h1
      case Expr e =>
        simp only [negS] at hneg
        simp only [resolveStmt] at h
        rcases he : resolveExpr r e with err | e1 <;> simp only [he] at h
        · cases h
        · cases h
          simp only [okS]
          exact resolveExpr_ok hneg he
      case Print e =>
        simp only [negS] at hneg
        simp only [resolveStmt] at h
        rcases he : resolveExpr r e with err | e1 <;> simp only [he] at h
        · cases h
        · cases h
          simp only [okS]
          exact resolveExpr_ok hneg he
      case Decl v init =>
        simp only [negS] at hneg
        simp only [resolveStmt] at h
        rcases hd : r.declare v with e1 | r1 <;> simp only [hd] at h
        · cases h
        · have hd1 := declare_length hd
          rcases init with _ | e
          · simp only [resolveDeclInit] at h
            cases h
            simp [okS, okOptE]
          · simp only [negOptE] at hneg
            simp only [resolveDeclInit] at h
            rcases hre : resolveExpr r1 e with err | e1 <;> simp only [hre] at h
            · cases h
            · cases h
              simp only [okS, okOptE]
              rw [← hd1]
              exact resolveExpr_ok hneg hre
      case If cond thenB elseB =>
        simp only [negS, Bool.and_eq_true] at hneg
        simp only [resolveStmt] at h
        rcases hc : resolveExpr r cond with err | cond' <;> simp only [hc] at h
        · cases h
        · rcases ht : resolveStmt r thenB with err | ⟨then', r1⟩ <;> simp only [ht] at h
          · cases h
          · have h1 := ih.1 thenB (by simp at hs; omega) r then' r1 hneg.1.2 ht
            have hc1 := resolveExpr_ok hneg.1.1 hc
            have hlen := resolveStmt_length ht
            rcases elseB with _ | eb
            · simp only [resolveElse] at h
              cases h
              simp only [okS, okOptS, Bool.and_eq_true]
              exact ⟨⟨hc1, h1⟩, trivial⟩
            · simp only [negOptS] at hneg
              simp only [resolveElse] at h
              rcases heb : resolveStmt r1 eb with err | ⟨eb', r2'⟩ <;> simp only [heb] at h
              · cases h
              · have h2 := ih.1 eb (by simp at hs; omega) r1 eb' r2' hneg.2 heb
                cases h
                rw [hlen] at h2
                simp only [okS, okOptS, Bool.and_eq_true]
                exact ⟨⟨hc1, h1⟩, h2⟩
      case While cond body =>
        simp only [negS, Bool.and_eq_true] at hneg
        simp only [resolveStmt] at h
        rcases hc : resolveExpr r cond with err | cond' <;> simp only [hc] at h
        · cases h
        · rcases hb : resolveStmt r body with err | ⟨body', r1⟩ <;> simp only [hb] at h
          · cases h
          · have h1 := ih.1 body (by simp at hs; omega) r body' r1 hneg.2 hb
            have hc1 := resolveExpr_ok hneg.1 hc
            cases h
            simp only [okS, Bool.and_eq_true]
            exact ⟨hc1, h1⟩
      case Func name params body =>
        simp only [negS] at hneg
        simp only [resolveStmt] at h
        rcases hb : resolveStmt (params.foldl (fun acc p => acc.define p)
            (Resolver.begin_scope ⟨(Resolver.define r name).scopes, .Function⟩)) body
          with err | ⟨body', r5⟩ <;> simp only [hb] at h
        · cases h
        · have h1 := ih.1 body (by simp at hs; omega) _ body' r5 hneg hb
          rw [foldl_define_length] at h1
          simp only [Resolver.begin_scope, List.length_cons] at h1
          cases h
          simp only [okS]
          rw [define_length] at h1
          exact h1
      case Return ret =>
        simp only [resolveStmt] at h
        by_cases hcf : r.curr_function = .None
        · rw [if_pos hcf] at h
          cases h
        · rw [if_neg hcf] at h
          rcases ret with _ | e
          · simp only [resolveRet] at h
            cases h
            simp [okS, okOptE]
          · simp only [negS, negOptE] at hneg
            simp only [resolveRet] at h
            rcases hre : resolveExpr r e with err | e1 <;> simp only [hre] at h
            · cases h
            · cases h
              simp only [okS, okOptE]
              exact resolveExpr_ok hneg hre
    · intro ss hs r ss' r2 hneg h
      cases ss with
      | nil =>
        simp only [resolveStmtList] at h
        cases h
        rfl
      | cons s rest =>
        simp only [negSList, Bool.and_eq_true] at hneg
        simp only [resolveStmtList] at h
        rcases h1 : resolveStmt r s with err | ⟨s', r1⟩ <;> simp only [h1] at h
        · cases h
        · rcases h2 : resolveStmtList r1 rest with err | ⟨rest', r2'⟩ <;> simp only [h2] at h
          · cases h
          · have i1 := ih.1 s (by simp at hs; omega) r s' r1 hneg.1 h1
            have i2 := ih.2 rest (by simp at hs; omega) r1 rest' r2' hneg.2 h2
            have hlen := resolveStmt_length h1
            cases h
            rw [hlen] at i2
            simp only [okSList, Bool.and_eq_true]
            exact ⟨i1, i2⟩

theorem resolveStmtList_ok {r : Resolver} {ss ss' : List Stmt} {r2 : Resolver}
    (hneg : negSList ss = true) (h : resolveStmtList r ss = .ok (ss', r2)) :
    okSList r.scopes.length ss' = true :=
  (resolveStmt_ok_aux (sizeOf ss + 1)).2 ss (by omega) r ss' r2 hneg h

/-! ### Evaluation safety (C8) -/

theorem resok_fail {S : Store} : ResOk S .fail :=
  ⟨fun hc => Res.noConfusion hc, fun _ _ hv => Res.noConfusion hv⟩

theorem resok_oom {S : Store} : ResOk S .oom :=
  ⟨fun hc => Res.noConfusion hc, fun _ _ hv => Res.noConfusion hv⟩

theorem resokl_fail {S : Store} : ResOkL S .fail :=
  ⟨fun hc => Res.noConfusion hc, fun _ _ hv => Res.noConfusion hv⟩

theorem resokl_oom {S : Store} : ResOkL S .oom :=
  ⟨fun hc => Res.noConfusion hc, fun _ _ hv => Res.noConfusion hv⟩

theorem resok_ok_pure {S S2 : Store} {v : Val} (hS2 : StoreOk S2) (hext : Ext S S2)
    (hv : ValOk S2 v) : ResOk S (.ok v S2) :=
  ⟨fun hc => Res.noConfusion hc, fun w S' hw => by cases hw; exact ⟨hS2, hext, hv⟩⟩

theorem resok_mono {S S1 : Store} (hext : Ext S S1) {r : Res Val} (h : ResOk S1 r) :
    ResOk S r :=
  ⟨h.1, fun v S' hv => by
    obtain ⟨a, b, c⟩ := h.2 v S' hv
    exact ⟨a, Ext.trans hext b, c⟩⟩

theorem litOk_valOk {v : Val} (h : litOk v = true) (S : Store) : ValOk S v := by
  cases v with
  | Func f => exact absurd h (by simp [litOk])
  | NoVal => exact absurd h (by simp [litOk])
  | Number q => trivial
  | Boolean b => trivial
  | String s => trivial
  | Nil => trivial

/-- The main safety induction (C8): with the store invariant and depth-bounded
code, evaluation never returns `stuck` — in particular the
`expect("Resolver must set a valid depth")` in `Scope::get_ancestor` is never
reached — and every success preserves the invariant, extends the store, and
yields well-formed values. -/
theorem eval_safe (nf : NativeTable) (hnf : NatOk nf) : ∀ fuel : Nat,
    (∀ (S : Store) (sc k : ℕ) (e : Expr), StoreOk S → sc < S.length →
      localDepth S (sc + 1) sc = some k → okE k e = true →
      ResOk S (eval nf fuel S sc e)) ∧
    (∀ (S : Store) (sc k : ℕ) (es : List Expr), StoreOk S → sc < S.length →
      localDepth S (sc + 1) sc = some k → okEList k es = true →
      ResOkL S (evalList nf fuel S sc es)) ∧
    (∀ (S : Store) (sc k : ℕ) (s : Stmt), StoreOk S → sc < S.length →
      localDepth S (sc + 1) sc = some k → okS k s = true →
      ResOk S (exec nf fuel S sc s)) ∧
    (∀ (S : Store) (sc k : ℕ) (ss : List Stmt), StoreOk S → sc < S.length →
      localDepth S (sc + 1) sc = some k → okSList k ss = true →
      ResOk S (execList nf fuel S sc ss)) ∧
    (∀ (S : Store) (sc k : ℕ) (cond : Expr) (body : Stmt), StoreOk S → sc < S.length →
      localDepth S (sc + 1) sc = some k → okE k cond = true → okS k body = true →
      ResOk S (whileGo nf fuel S sc cond body)) ∧
    (∀ (S : Store) (f : Function) (args : List Val), StoreOk S →
      ValOk S (.Func f) → (∀ v ∈ args, ValOk S v) →
      ResOk S (callF nf fuel S f args)) := by
  intro fuel
  induction fuel with
  | zero =>
    refine ⟨?_, ?_, ?_, ?_, ?_, ?_⟩
    · intro S sc k e hS hsc hd hok
      simp only [eval]
      exact resok_oom
    · intro S sc k es hS hsc hd hok
      simp only [evalList]
      exact resokl_oom
    · intro S sc k s hS hsc hd hok
      simp only [exec]
      exact resok_oom
    · intro S sc k ss hS hsc hd hok
      simp only [execList]
      exact resok_oom
    · intro S sc k cond body hS hsc hd hokc hokb
      simp only [whileGo]
      exact resok_oom
    · intro S f args hS hf hargs
      simp only [callF]
      exact resok_oom
  | succ fuel ih =>
    obtain ⟨ihE, ihEL, ihS, ihSL, ihW, ihC⟩ := ih
    refine ⟨?_, ?_, ?_, ?_, ?_, ?_⟩
    · intro S sc k e hS hsc hd hok
      cases e
      case Asgn v a =>
        simp only [okE, Bool.and_eq_true, decide_eq_true_eq] at hok
        have iha := ihE S sc k a hS hsc hd hok.2
        cases hea : eval nf fuel S sc a with
        | stuck => exact absurd hea iha.1
        | fail => simp only [eval, hea]; exact resok_fail
        | oom => simp only [eval, hea]; exact resok_oom
        | ok x S1 =>
          obtain ⟨hS1, hext1, hx⟩ := iha.2 x S1 hea
          have hsc1 : sc < S1.length := by have := hext1.1; omega
          have hd1 : localDepth S1 (sc + 1) sc = some k := by
            rw [localDepth_ext hS.ld hext1 (sc + 1) sc hsc]
            exact hd
          obtain ⟨hnstuck, hasgn⟩ := asgn_res hS1 hsc1 hd1 hok.1 hx
          simp only [eval, hea]
          cases hga : Scope.asgn S1 sc v x with
          | error err =>
            cases err with
            | invalidDepth => exact absurd hga hnstuck
            | undefined => exact resok_fail
          | ok S2 =>
            obtain ⟨hS2, hext2, hlen2⟩ := hasgn S2 hga
            exact resok_ok_pure hS2 (Ext.trans hext1 hext2) (ValOk_mono hS1.ld hext2 hx)
      case Call c args =>
        simp only [okE, Bool.and_eq_true] at hok
        have ihc := ihE S sc k c hS hsc hd hok.1
        cases hec : eval nf fuel S sc c with
        | stuck => exact absurd hec ihc.1
        | fail => simp only [eval, hec]; exact resok_fail
        | oom => simp only [eval, hec]; exact resok_oom
        | ok x S1 =>
          obtain ⟨hS1, hext1, hx⟩ := ihc.2 x S1 hec
          have hsc1 : sc < S1.length := by have := hext1.1; omega
          have hd1 : localDepth S1 (sc + 1) sc = some k := by
            rw [localDepth_ext hS.ld hext1 (sc + 1) sc hsc]
            exact hd
          have ihargs := ihEL S1 sc k args hS1 hsc1 hd1 hok.2
          cases x with
          | Func f =>
            cases hargs : evalList nf fuel S1 sc args with
            | stuck => exact absurd hargs ihargs.1
            | fail => simp only [eval, hec, hargs]; exact resok_fail
            | oom => simp only [eval, hec, hargs]; exact resok_oom
            | ok vs S2 =>
              obtain ⟨hS2, hext2, hvs⟩ := ihargs.2 vs S2 hargs
              have hfok : ValOk S2 (.Func f) := ValOk_mono hS1.ld hext2 hx
              simp only [eval, hec, hargs]
              exact resok_mono (Ext.trans hext1 hext2) (ihC S2 f vs hS2 hfok hvs)
          | NoVal => simp only [eval, hec]; exact resok_fail
          | Number q => simp only [eval, hec]; exact resok_fail
          | Boolean b => simp only [eval, hec]; exact resok_fail
          | String s => simp only [eval, hec]; exact resok_fail
          | Nil => simp only [eval, hec]; exact resok_fail
      case And a b =>
        simp only [okE, Bool.and_eq_true] at hok
        have iha := ihE S sc k a hS hsc hd hok.1
        cases hea : eval nf fuel S sc a with
        | stuck => exact absurd hea iha.1
        | fail => simp only [eval, hea]; exact resok_fail
        | oom => simp only [eval, hea]; exact resok_oom
        | ok x S1 =>
          obtain ⟨hS1, hext1, hx⟩ := iha.2 x S1 hea
          have hsc1 : sc < S1.length := by have := hext1.1; omega
          have hd1 : localDepth S1 (sc + 1) sc = some k := by
            rw [localDepth_ext hS.ld hext1 (sc + 1) sc hsc]
            exact hd
          have ihb := ihE S1 sc k b hS1 hsc1 hd1 hok.2
          simp only [eval, hea]
          cases x with
          | Nil => exact resok_ok_pure hS1 hext1 True.intro
          | Boolean bb =>
            cases bb with
            | false => exact resok_ok_pure hS1 hext1 True.intro
            | true => exact resok_mono hext1 ihb
          | NoVal => exact resok_mono hext1 ihb
          | Number q => exact resok_mono hext1 ihb
          | String s => exact resok_mono hext1 ihb
          | Func f => exact resok_mono hext1 ihb
      case Or a b =>
        simp only [okE, Bool.and_eq_true] at hok
        have iha := ihE S sc k a hS hsc hd hok.1
        cases hea : eval nf fuel S sc a with
        | stuck => exact absurd hea iha.1
        | fail => simp only [eval, hea]; exact resok_fail
        | oom => simp only [eval, hea]; exact resok_oom
        | ok x S1 =>
          obtain ⟨hS1, hext1, hx⟩ := iha.2 x S1 hea
          have hsc1 : sc < S1.length := by have := hext1.1; omega
          have hd1 : localDepth S1 (sc + 1) sc = some k := by
            rw [localDepth_ext hS.ld hext1 (sc + 1) sc hsc]
            exact hd
          have ihb := ihE S1 sc k b hS1 hsc1 hd1 hok.2
          simp only [eval, hea]
          cases x with
          | Nil => exact resok_mono hext1 ihb
          | Boolean bb =>
            cases bb with
            | false => exact resok_mono hext1 ihb
            | true => exact resok_ok_pure hS1 hext1 hx
          | NoVal => exact resok_ok_pure hS1 hext1 hx
          | Number q => exact resok_ok_pure hS1 hext1 hx
          | String s => exact resok_ok_pure hS1 hext1 hx
          | Func f => exact resok_ok_pure hS1 hext1 hx
      case Eq a b =>
        simp only [okE, Bool.and_eq_true] at hok
        have iha := ihE S sc k a hS hsc hd hok.1
        cases hea : eval nf fuel S sc a with
        | stuck => exact absurd hea iha.1
        | fail => simp only [eval, hea]; exact resok_fail
        | oom => simp only [eval, hea]; exact resok_oom
        | ok x S1 =>
          obtain ⟨hS1, hext1, hx⟩ := iha.2 x S1 hea
          have hsc1 : sc < S1.length := by have := hext1.1; omega
          have hd1 : localDepth S1 (sc + 1) sc = some k := by
            rw [localDepth_ext hS.ld hext1 (sc + 1) sc hsc]
            exact hd
          have ihb := ihE S1 sc k b hS1 hsc1 hd1 hok.2
          simp only [eval, hea]
          cases heb : eval nf fuel S1 sc b with
          | stuck => exact absurd heb ihb.1
          | fail => exact resok_fail
          | oom => exact resok_oom
          | ok y S2 =>
            obtain ⟨hS2, hext2, hy⟩ := ihb.2 y S2 heb
            exact resok_ok_pure hS2 (Ext.trans hext1 hext2) True.intro
      case Ne a b =>
        simp only [okE, Bool.and_eq_true] at hok
        have iha := ihE S sc k a hS hsc hd hok.1
        cases hea : eval nf fuel S sc a with
        | stuck => exact absurd hea iha.1
        | fail => simp only [eval, hea]; exact resok_fail
        | oom => simp only [eval, hea]; exact resok_oom
        | ok x S1 =>
          obtain ⟨hS1, hext1, hx⟩ := iha.2 x S1 hea
          have hsc1 : sc < S1.length := by have := hext1.1; omega
          have hd1 : localDepth S1 (sc + 1) sc = some k := by
            rw [localDepth_ext hS.ld hext1 (sc + 1) sc hsc]
            exact hd
          have ihb := ihE S1 sc k b hS1 hsc1 hd1 hok.2
          simp only [eval, hea]
          cases heb : eval nf fuel S1 sc b with
          | stuck => exact absurd heb ihb.1
          | fail => exact resok_fail
          | oom => exact resok_oom
          | ok y S2 =>
            obtain ⟨hS2, hext2, hy⟩ := ihb.2 y S2 heb
            exact resok_ok_pure hS2 (Ext.trans hext1 hext2) True.intro
      case Add a b =>
        simp only [okE, Bool.and_eq_true] at hok
        have iha := ihE S sc k a hS hsc hd hok.1
        cases hea : eval nf fuel S sc a with
        | stuck => exact absurd hea iha.1
        | fail => simp only [eval, hea]; exact resok_fail
        | oom => simp only [eval, hea]; exact resok_oom
        | ok x S1 =>
          obtain ⟨hS1, hext1, hx⟩ := iha.2 x S1 hea
          have hsc1 : sc < S1.length := by have := hext1.1; omega
          have hd1 : localDepth S1 (sc + 1) sc = some k := by
            rw [localDepth_ext hS.ld hext1 (sc + 1) sc hsc]
            exact hd
          have ihb := ihE S1 sc k b hS1 hsc1 hd1 hok.2
          simp only [eval, hea]
          cases heb : eval nf fuel S1 sc b with
          | stuck => exact absurd heb ihb.1
          | fail => exact resok_fail
          | oom => exact resok_oom
          | ok y S2 =>
            obtain ⟨hS2, hext2, hy⟩ := ihb.2 y S2 heb
            cases x <;> cases y <;>
              first
              | exact resok_fail
              | exact resok_ok_pure hS2 (Ext.trans hext1 hext2) True.intro
      case Not a =>
        simp only [okE] at hok
        have iha := ihE S sc k a hS hsc hd hok
        cases hea : eval nf fuel S sc a with
        | stuck => exact absurd hea iha.1
        | fail => simp only [eval, hea]; exact resok_fail
        | oom => simp only [eval, hea]; exact resok_oom
        | ok x S1 =>
          obtain ⟨hS1, hext1, hx⟩ := iha.2 x S1 hea
          simp only [eval, hea]
          cases x with
          | Boolean bb => cases bb <;> exact resok_ok_pure hS1 hext1 True.intro
          | Nil => exact resok_ok_pure hS1 hext1 True.intro
          | NoVal => exact resok_ok_pure hS1 hext1 True.intro
          | Number q => exact resok_ok_pure hS1 hext1 True.intro
          | String s => exact resok_ok_pure hS1 hext1 True.intro
          | Func f => exact resok_ok_pure hS1 hext1 True.intro
      case Opp a =>
        simp only [okE] at hok
        have iha := ihE S sc k a hS hsc hd hok
        cases hea : eval nf fuel S sc a with
        | stuck => exact absurd hea iha.1
        | fail => simp only [eval, hea]; exact resok_fail
        | oom => simp only [eval, hea]; exact resok_oom
        | ok x S1 =>
          obtain ⟨hS1, hext1, hx⟩ := iha.2 x S1 hea
          simp only [eval, hea]
          cases x with
          | Number q => exact resok_ok_pure hS1 hext1 True.intro
          | Boolean bb => exact resok_fail
          | Nil => exact resok_fail
          | NoVal => exact resok_fail
          | String s => exact resok_fail
          | Func f => exact resok_fail
      case Lit v =>
        simp only [okE] at hok
        simp only [eval]
        exact resok_ok_pure hS (Ext.refl S) (litOk_valOk hok S)
      case Var v =>
        simp only [okE, decide_eq_true_eq] at hok
        obtain ⟨hnstuck, hget⟩ := get_res hS hsc hd hok
        simp only [eval]
        cases hga : Scope.get S sc v with
        | error err =>
          cases err with
          | invalidDepth => exact absurd hga hnstuck
          | undefined => exact resok_fail
        | ok w => exact resok_ok_pure hS (Ext.refl S) (hget w hga)
      all_goals (
        rename_i a b
        simp only [okE, Bool.and_eq_true] at hok
        have iha := ihE S sc k a hS hsc hd hok.1
        cases hea : eval nf fuel S sc a with
        | stuck => exact absurd hea iha.1
        | fail => simp only [eval, hea]; exact resok_fail
        | oom => simp only [eval, hea]; exact resok_oom
        | ok x S1 =>
          obtain ⟨hS1, hext1, hx⟩ := iha.2 x S1 hea
          have hsc1 : sc < S1.length := by have := hext1.1; omega
          have hd1 : localDepth S1 (sc + 1) sc = some k := by
            rw [localDepth_ext hS.ld hext1 (sc + 1) sc hsc]
            exact hd
          have ihb := ihE S1 sc k b hS1 hsc1 hd1 hok.2
          simp only [eval, hea]
          cases heb : eval nf fuel S1 sc b with
          | stuck => exact absurd heb ihb.1
          | fail => exact resok_fail
          | oom => exact resok_oom
          | ok y S2 =>
            obtain ⟨hS2, hext2, hy⟩ := ihb.2 y S2 heb
            cases x <;> cases y <;>
              first
              | exact resok_fail
              | exact resok_ok_pure hS2 (Ext.trans hext1 hext2) True.intro)
    · intro S sc k es hS hsc hd hok
      cases es with
      | nil =>
        simp only [evalList]
        exact ⟨fun hc => Res.noConfusion hc, fun vs S' hv => by
          cases hv
          exact ⟨hS, Ext.refl S, by simp⟩⟩
      | cons a rest =>
        simp only [okEList, Bool.and_eq_true] at hok
        have iha := ihE S sc k a hS hsc hd hok.1
        cases hea : eval nf fuel S sc a with
        | stuck => exact absurd hea iha.1
        | fail => simp only [evalList, hea]; exact resokl_fail
        | oom => simp only [evalList, hea]; exact resokl_oom
        | ok x S1 =>
          obtain ⟨hS1, hext1, hx⟩ := iha.2 x S1 hea
          have hsc1 : sc < S1.length := by have := hext1.1; omega
          have hd1 : localDepth S1 (sc + 1) sc = some k := by
            rw [localDepth_ext hS.ld hext1 (sc + 1) sc hsc]
            exact hd
          have ihrest := ihEL S1 sc k rest hS1 hsc1 hd1 hok.2
          simp only [evalList, hea]
          cases hrest : evalList nf fuel S1 sc rest with
          | stuck => exact absurd hrest ihrest.1
          | fail => exact resokl_fail
          | oom => exact resokl_oom
          | ok vs S2 =>
            obtain ⟨hS2, hext2, hvs⟩ := ihrest.2 vs S2 hrest
            refine ⟨fun hc => Res.noConfusion hc, fun ws S' hw => ?_⟩
            cases hw
            refine ⟨hS2, Ext.trans hext1 hext2, ?_⟩
            intro w hwm
            rcases List.mem_cons.mp hwm with h2 | h2
            · rw [h2]
              exact ValOk_mono hS1.ld hext2 hx
            · exact hvs w h2
    · intro S sc k s hS hsc hd hok
      cases s
      case Block stmts =>
        simp only [okS] at hok
        obtain ⟨S1, hnl, hS1, hext1, hlen1, hd1⟩ := new_local_ok hS hsc hd
        simp only [exec, hnl]
        exact resok_mono hext1 (ihSL S1 S.length (k + 1) stmts hS1 (by omega) hd1 hok)
      case Expr e =>
        simp only [okS] at hok
        have iha := ihE S sc k e hS hsc hd hok
        cases hea : eval nf fuel S sc e with
        | stuck => exact absurd hea iha.1
        | fail => simp only [exec, hea]; exact resok_fail
        | oom => simp only [exec, hea]; exact resok_oom
        | ok x S1 =>
          obtain ⟨hS1, hext1, hx⟩ := iha.2 x S1 hea
          simp only [exec, hea]
          exact resok_ok_pure hS1 hext1 True.intro
      case Print e =>
        simp only [okS] at hok
        have iha := ihE S sc k e hS hsc hd hok
        cases hea : eval nf fuel S sc e with
        | stuck => exact absurd hea iha.1
        | fail => simp only [exec, hea]; exact resok_fail
        | oom => simp only [exec, hea]; exact resok_oom
        | ok x S1 =>
          obtain ⟨hS1, hext1, hx⟩ := iha.2 x S1 hea
          simp only [exec, hea]
          exact resok_ok_pure hS1 hext1 True.intro
      case Decl name init =>
        simp only [okS] at hok
        cases init with
        | none =>
          simp only [exec]
          obtain ⟨hS1, hext1, hlen1⟩ := defVar_ok hS hsc (v := Val.Nil) True.intro
          exact resok_ok_pure hS1 hext1 True.intro
        | some e =>
          simp only [okOptE] at hok
          have iha := ihE S sc k e hS hsc hd hok
          cases hea : eval nf fuel S sc e with
          | stuck => exact absurd hea iha.1
          | fail => simp only [exec, hea]; exact resok_fail
          | oom => simp only [exec, hea]; exact resok_oom
          | ok x S1 =>
            obtain ⟨hS1, hext1, hx⟩ := iha.2 x S1 hea
            have hsc1 : sc < S1.length := by have := hext1.1; omega
            simp only [exec, hea]
            obtain ⟨hS2, hext2, hlen2⟩ := defVar_ok hS1 hsc1 hx
            exact resok_ok_pure hS2 (Ext.trans hext1 hext2) True.intro
      case If cond thenB elseB =>
        simp only [okS, Bool.and_eq_true] at hok
        have ihc := ihE S sc k cond hS hsc hd hok.1.1
        cases hec : eval nf fuel S sc cond with
        | stuck => exact absurd hec ihc.1
        | fail => simp only [exec, hec]; exact resok_fail
        | oom => simp only [exec, hec]; exact resok_oom
        | ok c S1 =>
          obtain ⟨hS1, hext1, hc⟩ := ihc.2 c S1 hec
          have hsc1 : sc < S1.length := by have := hext1.1; omega
          have hd1 : localDepth S1 (sc + 1) sc = some k := by
            rw [localDepth_ext hS.ld hext1 (sc + 1) sc hsc]
            exact hd
          simp only [exec, hec]
          by_cases htr : Val.truthy c = true
          · rw [if_pos htr]
            exact resok_mono hext1 (ihS S1 sc k thenB hS1 hsc1 hd1 hok.1.2)
          · rw [if_neg htr]
            cases elseB with
            | none => exact resok_ok_pure hS1 hext1 True.intro
            | some e2 =>
              have hok2 : okS k e2 = true := by simpa [okOptS] using hok.2
              exact resok_mono hext1 (ihS S1 sc k e2 hS1 hsc1 hd1 hok2)
      case While cond body =>
        simp only [okS, Bool.and_eq_true] at hok
        simp only [exec]
        exact ihW S sc k cond body hS hsc hd hok.1 hok.2
      case Func name params body =>
        simp only [okS] at hok
        simp only [exec]
        have hv : ValOk S (.Func (.UserDef (.Func name params body) sc)) :=
          ⟨name, params, body, rfl, hsc, k, hd, hok⟩
        obtain ⟨hS1, hext1, hlen1⟩ := defVar_ok hS hsc hv
        exact resok_ok_pure hS1 hext1 True.intro
      case Return ret =>
        simp only [okS] at hok
        cases ret with
        | none =>
          simp only [exec]
          exact resok_ok_pure hS (Ext.refl S) True.intro
        | some e =>
          simp only [okOptE] at hok
          simp only [exec]
          exact ihE S sc k e hS hsc hd hok
    · intro S sc k ss hS hsc hd hok
      cases ss with
      | nil =>
        simp only [execList]
        exact resok_ok_pure hS (Ext.refl S) True.intro
      | cons s rest =>
        simp only [okSList, Bool.and_eq_true] at hok
        have ihs := ihS S sc k s hS hsc hd hok.1
        cases hes : exec nf fuel S sc s with
        | stuck => exact absurd hes ihs.1
        | fail => simp only [execList, hes]; exact resok_fail
        | oom => simp only [execList, hes]; exact resok_oom
        | ok v S1 =>
          obtain ⟨hS1, hext1, hv⟩ := ihs.2 v S1 hes
          have hsc1 : sc < S1.length := by have := hext1.1; omega
          have hd1 : localDepth S1 (sc + 1) sc = some k := by
            rw [localDepth_ext hS.ld hext1 (sc + 1) sc hsc]
            exact hd
          simp only [execList, hes]
          by_cases hnv : Val.beq v Val.NoVal = true
          · rw [if_pos hnv]
            exact resok_mono hext1 (ihSL S1 sc k rest hS1 hsc1 hd1 hok.2)
          · rw [if_neg hnv]
            exact resok_ok_pure hS1 hext1 hv
    · intro S sc k cond body hS hsc hd hokc hokb
      have ihc := ihE S sc k cond hS hsc hd hokc
      cases hec : eval nf fuel S sc cond with
      | stuck => exact absurd hec ihc.1
      | fail => simp only [whileGo, hec]; exact resok_fail
      | oom => simp only [whileGo, hec]; exact resok_oom
      | ok c S1 =>
        obtain ⟨hS1, hext1, hc⟩ := ihc.2 c S1 hec
        have hsc1 : sc < S1.length := by have := hext1.1; omega
        have hd1 : localDepth S1 (sc + 1) sc = some k := by
          rw [localDepth_ext hS.ld hext1 (sc + 1) sc hsc]
          exact hd
        simp only [whileGo, hec]
        by_cases htr : Val.truthy c = true
        · rw [if_pos htr]
          have ihb := ihS S1 sc k body hS1 hsc1 hd1 hokb
          cases heb : exec nf fuel S1 sc body with
          | stuck => exact absurd heb ihb.1
          | fail => exact resok_fail
          | oom => exact resok_oom
          | ok v S2 =>
            obtain ⟨hS2, hext2, hv⟩ := ihb.2 v S2 heb
            have hsc2 : sc < S2.length := by have := hext2.1; omega
            have hd2 : localDepth S2 (sc + 1) sc = some k := by
              rw [localDepth_ext hS1.ld hext2 (sc + 1) sc hsc1]
              exact hd1
            show ResOk S (if Val.beq v Val.NoVal = true then
              whileGo nf fuel S2 sc cond body else Res.ok v S2)
            by_cases hnv : Val.beq v Val.NoVal = true
            · rw [if_pos hnv]
              exact resok_mono (Ext.trans hext1 hext2)
                (ihW S2 sc k cond body hS2 hsc2 hd2 hokc hokb)
            · rw [if_neg hnv]
              exact resok_ok_pure hS2 (Ext.trans hext1 hext2) hv
        · rw [if_neg htr]
          exact resok_ok_pure hS1 hext1 True.intro
    · intro S f args hS hf hargs
      cases f with
      | Native arity fid =>
        simp only [callF]
        by_cases ha : arity = args.length
        · rw [if_pos ha]
          exact resok_ok_pure hS (Ext.refl S) (litOk_valOk (hnf fid args) S)
        · rw [if_neg ha]
          exact resok_fail
      | UserDef decl closure =>
        obtain ⟨name, params, body, rfl, hc, k0, hk0, hb⟩ := hf
        simp only [callF]
        by_cases hpa : params.length = args.length
        · rw [if_pos hpa]
          obtain ⟨S1, hnl, hS1, hext1, hlen1, hd1⟩ := new_local_ok hS hc hk0
          simp only [Scope.inner, hnl]
          obtain ⟨hS2, hext2, hlen2⟩ := bindParams_ok params args S1 S.length hS1
            (by omega) (fun v hv => ValOk_mono hS.ld hext1 (hargs v hv))
          have hd2 : localDepth (bindParams S1 S.length params args)
              (S.length + 1) S.length = some (k0 + 1) := by
            rw [localDepth_ext hS1.ld hext2 (S.length + 1) S.length (by omega)]
            exact hd1
          exact resok_mono (Ext.trans hext1 hext2)
            (ihS (bindParams S1 S.length params args) S.length (k0 + 1) body hS2
              (by omega) hd2 hb)
        · rw [if_neg hpa]
          exact resok_fail

/-- `Prog::exec` safety: under the invariants, running the top-level
statements never panics. -/
theorem execF_safe (nf : NativeTable) (hnf : NatOk nf) :
    ∀ (fuel : Nat) (S : Store) (sc k : ℕ) (ss : List Stmt), StoreOk S →
      sc < S.length → localDepth S (sc + 1) sc = some k → okSList k ss = true →
      Prog.execF nf fuel S sc ss ≠ .stuck := by
  intro fuel
  induction fuel with
  | zero =>
    intro S sc k ss hS hsc hd hok
    simp only [Prog.execF]
    exact fun hc => Res.noConfusion hc
  | succ fuel ih =>
    intro S sc k ss hS hsc hd hok
    cases ss with
    | nil =>
      simp only [Prog.execF]
      exact fun hc => Res.noConfusion hc
    | cons s rest =>
      simp only [okSList, Bool.and_eq_true] at hok
      have ihs := (eval_safe nf hnf fuel).2.2.1 S sc k s hS hsc hd hok.1
      cases hes : exec nf fuel S sc s with
      | stuck => exact absurd hes ihs.1
      | fail =>
        simp only [Prog.execF, hes]
        exact fun hc => Res.noConfusion hc
      | oom =>
        simp only [Prog.execF, hes]
        exact fun hc => Res.noConfusion hc
      | ok v S1 =>
        obtain ⟨hS1, hext1, hv⟩ := ihs.2 v S1 hes
        have hsc1 : sc < S1.length := by have := hext1.1; omega
        have hd1 : localDepth S1 (sc + 1) sc = some k := by
          rw [localDepth_ext hS.ld hext1 (sc + 1) sc hsc]
          exact hd
        simp only [Prog.execF, hes]
        exact ih S1 sc k rest hS1 hsc1 hd1 hok.2

/-- The interpreter's initial store — the global scope over `globals()` —
satisfies the store invariant. -/
theorem StoreOk_init : StoreOk [ScopeData.Global globalsEnv] := by
  refine ⟨?_, ?_, ?_⟩
  · intro a e o g h
    match a with
    | 0 => simp at h
    | n + 1 => simp at h
  · intro a e o g h
    match a with
    | 0 => simp at h
    | n + 1 => simp at h
  · intro a sd h p hp
    match a with
    | 0 =>
      simp at h
      subst h
      simp [ScopeData.values, globalsEnv] at hp
      rw [hp]
      trivial
    | n + 1 => simp at h

/-- The resolver's output, started from a fresh resolver on parser output, is
depth-bounded at stack length `0`. -/
theorem resolveProg_ok {p p' : Prog} (hneg : negSList p.stmts = true)
    (h : resolveProg p = .ok p') : okSList 0 p'.stmts = true := by
  unfold resolveProg at h
  cases hr : resolveStmtList Resolver.new p.stmts with
  | error e => rw [hr] at h; cases h
  | ok pr =>
    obtain ⟨stmts', r2⟩ := pr
    rw [hr] at h
    cases h
    have hok := resolveStmtList_ok hneg hr
    simpa [Resolver.new] using hok

/-! ### Evaluation theorems -/

/-- C1 (refuted — code bug, acknowledged by the spec's bug note): the claim
says `Not(e) = Boolean(!truthy(e))`, but both match arms of the `Not` arm of
`Expr::eval` (`src/expr.rs:93-96`) return `Boolean(true)`: whenever the
operand evaluates successfully, `Not(e)` evaluates to `Boolean(true)` — even
for a truthy operand, where the claim requires `Boolean(false)`.  Concretely,
`!true` evaluates to `Boolean(true)` although `truthy(Boolean(true)) = true`. -/
theorem c1_not_arm_bug :
    (∀ (nf : NativeTable) (fuel : Nat) (S : Store) (sc : Addr) (e : Expr) (v : Val)
      (S1 : Store), eval nf fuel S sc e = .ok v S1 →
      eval nf (fuel + 1) S sc (.Not e) = .ok (.Boolean true) S1) ∧
    (eval (fun _ _ => .Number 0) 2 [.Global []] 0 (.Not (.Lit (.Boolean true))) =
      .ok (.Boolean true) [.Global []] ∧
    Val.truthy (.Boolean true) = true) := by
  constructor
  · intro nf fuel S sc e v S1 h
    cases v with
    | Boolean b => cases b <;> simp [eval, h]
    | NoVal => simp [eval, h]
    | Number q => simp [eval, h]
    | String s => simp [eval, h]
    | Nil => simp [eval, h]
    | Func f => simp [eval, h]
  · exact ⟨by simp [eval], rfl⟩

/-- Witness for C1: the general half applied to the concrete operand
`Lit(Boolean(true))` in a one-scope store. -/
theorem c1_not_arm_bug_witness :
    eval (fun _ _ => Val.Number 0) 2 [ScopeData.Global []] 0
      (.Not (.Lit (.Boolean true))) = .ok (.Boolean true) [ScopeData.Global []] :=
  c1_not_arm_bug.1 (fun _ _ => Val.Number 0) 1 [ScopeData.Global []] 0
    (.Lit (.Boolean true)) (.Boolean true) [ScopeData.Global []] (by simp [eval])

/-- C2 (refuted — code bug): the fresh-child-scope and positional-binding
parts of the claim hold, but `Callable::call` (`src/val.rs:77`) returns
`body.exec(inner)` directly, with no `NoVal -> Nil` conversion: calling the
0-parameter function `fn f() {}` (whose body completes with `NoVal`) returns
`NoVal`, not `Nil`, so `NoVal` escapes to user code.  The store after the
call holds the allocated child of the closure scope (address 1, the `Local []
0 0` record) and the body block's own child of it. -/
theorem c2_call_noval_bug :
    (∀ nf : NativeTable,
      callF nf 3 [.Global []] (.UserDef (.Func "f" [] (.Block [])) 0) [] =
        .ok .NoVal [.Global [], .Local [] 0 0, .Local [] 1 0]) ∧
    Val.beq .NoVal .Nil = false := by
  constructor
  · intro nf
    simp [callF, exec, execList, Scope.inner, Scope.new_local, Scope.get_global,
      bindParams]
  · simp [Val.beq]

/-- C8: a program that came out of the resolver (from parser output: all
depths still negative, literals first-order) never panics when executed — in
particular the `expect("Resolver must set a valid depth")` inside
`Scope::get_ancestor` is never reached, because every variable access with
depth `d >= 0` happens in a scope with at least `d` enclosing `Local` links.
`stuck` is the model's image of every panic, so the conclusion rules the
`expect` out along the whole run.  The hypothesis on the native table says
natives return first-order values (the only native, `clock`, returns a
number). -/
theorem c8_resolver_depth_safety (p p' : Prog) (nf : NativeTable) (fuel : Nat)
    (hres : resolveProg p = .ok p') (hneg : negSList p.stmts = true)
    (hnf : NatOk nf) : runProg nf fuel p' ≠ .stuck := by
  show Prog.execF nf fuel [ScopeData.Global globalsEnv] 0 p'.stmts ≠ .stuck
  exact execF_safe nf hnf fuel [ScopeData.Global globalsEnv] 0 0 p'.stmts
    StoreOk_init (by simp) rfl (resolveProg_ok hneg hres)

/-- Witness for C8: the resolved `{ let x = 1; { x; } }` program (inner `x` at
depth 1) runs without panicking. -/
theorem c8_resolver_depth_safety_witness :
    runProg (fun _ _ => Val.Number 0) 10
      ⟨[.Block [.Decl "x" (some (.Lit (.Number 1))),
        .Block [.Expr (.Var ⟨"x", 1⟩)]]]⟩ ≠ .stuck :=
  c8_resolver_depth_safety
    ⟨[.Block [.Decl "x" (some (.Lit (.Number 1))), .Block [.Expr (.Var ⟨"x", -1⟩)]]]⟩
    ⟨[.Block [.Decl "x" (some (.Lit (.Number 1))), .Block [.Expr (.Var ⟨"x", 1⟩)]]]⟩
    (fun _ _ => Val.Number 0) 10 resolveProg_example
    (by simp [negSList, negS, negOptE, negE, litOk])
    (fun _ _ => rfl)

end Lox
